import Mathlib

/-! Pool allocator (`custom_allocator`) and linked sequence (`custom_container`).

A shallow embedding of `src/allocator.hpp` and `src/container.hpp` and a verification of
their contracts.

Modelling conventions.

* `std::size_t` values are natural numbers below `SIZE_MOD = 2 ^ 64`; every
  `size_t` addition, subtraction and multiplication of the source is reduced
  modulo `SIZE_MOD`.  In particular the byte counts `size * sizeof(T)` and
  `i * sizeof(T)` wrap around.
* An address is a natural number.  A `T*` is an `Option Nat`: `none` is
  `nullptr`, `some a` is the non-null address `a`.
* `sz` stands for `sizeof(T)` and `G` for the template parameter `BlockSize`.
* `new char[...]` is the environment: the address it returns is an argument
  (`fresh`) of every operation that may create a block.
* `std::vector<bool>::operator[]` with an index outside the vector is undefined
  behaviour.  A function that can reach such a read returns an `Option`, and
  `none` means "the execution indexes `allocated_flags` out of range".
-/

/-- The modulus of `std::size_t` arithmetic. -/
def SIZE_MOD : Nat := 2 ^ 64

/-- The struct `memory_block`: base address of the storage, used-count, capacity and
occupancy bitmap. -/
structure memory_block where
  data : Nat
  used : Nat
  size : Nat
  allocated_flags : List Bool
deriving DecidableEq

namespace memory_block

/-- The constructor `memory_block(n)`; `data` is the address `new char[sizeof(T) * n]`
returned. -/
def create (data n : Nat) : memory_block :=
  { data := data, used := 0, size := n, allocated_flags := List.replicate n false }

/-- The method `can_allocate`: `used + n <= size` in `size_t` arithmetic. -/
def can_allocate (b : memory_block) (n : Nat) : Bool :=
  decide ((b.used + n) % SIZE_MOD ≤ b.size)

/-- The inner loop of `allocate` (lines 32-37) at start index `i`: `m` iterations remain
and the loop variable is `j`.  `some true`: `can_use` stays true; `some false`: an
occupied slot was met (`break`); `none`: index out of range. -/
def run_is_free (flags : List Bool) (i : Nat) : Nat → Nat → Option Bool
  | 0, _ => some true
  | m + 1, j =>
    match flags[(i + j) % SIZE_MOD]? with
    | none => none
    | some true => some false
    | some false => run_is_free flags i m (j + 1)

/-- The marking loop of `allocate` (lines 40-42): `allocated_flags[i + j] = true` for the
remaining `m` values of `j`.  It runs only after `run_is_free` has read the same
indices. -/
def set_run (flags : List Bool) (i : Nat) : Nat → Nat → List Bool
  | 0, _ => flags
  | m + 1, j => set_run (flags.set ((i + j) % SIZE_MOD) true) i m (j + 1)

/-- The outer loop of `allocate` (line 30): `k` iterations remain and the loop variable
is `i`.  `some (some i)`: first start index whose run is free; `some none`: the loop
ran to its end; `none`: index out of range. -/
def first_fit (flags : List Bool) (n : Nat) : Nat → Nat → Option (Option Nat)
  | 0, _ => some none
  | k + 1, i =>
    match run_is_free flags i n 0 with
    | none => none
    | some true => some (some i)
    | some false => first_fit flags n k (i + 1)

/-- The method `allocate` of `memory_block`.  The outer loop runs for
`i = 0, ..., size - n` with `size - n` computed in `size_t`, that is for
`(size - n) mod 2 ^ 64 + 1` values of `i` (a bitmap shorter than `2 ^ 64` ends the loop
by an out-of-range read before `i` itself could wrap around).  The returned address is
`data + i * sizeof(T)` with the product computed in `size_t`.  The result is the returned
pointer and the block afterwards. -/
def allocate (sz : Nat) (b : memory_block) (n : Nat) : Option (Option Nat × memory_block) :=
  if b.can_allocate n = false then some (none, b)
  else
    match first_fit b.allocated_flags n ((b.size + SIZE_MOD - n) % SIZE_MOD + 1) 0 with
    | none => none
    | some none => some (none, b)
    | some (some i) =>
      some (some (b.data + (i * sz) % SIZE_MOD),
        { b with
          allocated_flags := set_run b.allocated_flags i n 0
          used := (b.used + n) % SIZE_MOD })

/-- The loop of `deallocate` (lines 53-57): for the remaining `m` values of `i`, clear
`allocated_flags[offset + i]` when that index is below `allocated_flags.size()`. -/
def clear_run (flags : List Bool) (offset : Nat) : Nat → Nat → List Bool
  | 0, _ => flags
  | m + 1, i =>
    clear_run
      (if (offset + i) % SIZE_MOD < flags.length then
        flags.set ((offset + i) % SIZE_MOD) false
      else flags)
      offset m (i + 1)

/-- The method `deallocate` of `memory_block`.  It is called only with an address that
`belongs_to_block` accepted, so the pointer difference `ptr - data` is not negative. -/
def deallocate (sz : Nat) (b : memory_block) (ptr n : Nat) : memory_block :=
  { b with
    allocated_flags := clear_run b.allocated_flags ((ptr - b.data) / sz) n 0
    used := (b.used + SIZE_MOD - n) % SIZE_MOD }

/-- The method `belongs_to_block`: `ptr >= data && ptr < data + size * sizeof(T)` with
the product computed in `size_t`. -/
def belongs_to_block (sz : Nat) (b : memory_block) (ptr : Nat) : Bool :=
  decide (b.data ≤ ptr) && decide (ptr < b.data + (b.size * sz) % SIZE_MOD)

end memory_block

/-- The class `custom_allocator`: its only data member is the vector `blocks`. -/
structure custom_allocator where
  blocks : List memory_block
deriving DecidableEq

namespace custom_allocator

/-- The method `find_block`: the position of the first block that owns `ptr`. -/
def find_block (sz : Nat) : List memory_block → Nat → Option Nat
  | [], _ => none
  | b :: bs, ptr =>
    if b.belongs_to_block sz ptr then some 0
    else (find_block sz bs ptr).map (· + 1)

/-- The method `expand_memory`: append one block of `max(n, BlockSize)` slots. -/
def expand_memory (G fresh : Nat) (a : custom_allocator) (n : Nat) : custom_allocator :=
  { blocks := a.blocks ++ [memory_block.create fresh (if n > G then n else G)] }

/-- The default constructor (the copy constructors have the same body). -/
def create (G fresh : Nat) : custom_allocator :=
  expand_memory G fresh { blocks := [] } G

/-- The loop of `allocate` over the existing blocks (lines 120-127).  `some none`: no
block produced a slot; `some (some (p, bs))`: address `p` was returned and the blocks are
now `bs`; `none`: index out of range inside a block. -/
def try_blocks (sz : Nat) : List memory_block → Nat → Option (Option (Nat × List memory_block))
  | [], _ => some none
  | b :: bs, n =>
    if b.can_allocate n then
      match b.allocate sz n with
      | none => none
      | some (some p, b') => some (some (p, b' :: bs))
      | some (none, b') =>
        (try_blocks sz bs n).map (Option.map (fun r => (r.1, b' :: r.2)))
    else
      (try_blocks sz bs n).map (Option.map (fun r => (r.1, b :: r.2)))

/-- The method `allocate`.  `fresh` is the address of the storage of the block that
`expand_memory` creates when it is reached. -/
def allocate (sz G fresh : Nat) (a : custom_allocator) (n : Nat) :
    Option (Option Nat × custom_allocator) :=
  if n = 0 then some (none, a)
  else
    match try_blocks sz a.blocks n with
    | none => none
    | some (some (p, bs)) => some (some p, { blocks := bs })
    | some none =>
      let a' := expand_memory G fresh a n
      match a'.blocks.getLast? with
      | none => none
      | some nb =>
        match nb.allocate sz n with
        | none => none
        | some (r, nb') => some (r, { blocks := a'.blocks.dropLast ++ [nb'] })

/-- Apply `f` to the element at position `k`. -/
def update_at (f : memory_block → memory_block) : List memory_block → Nat → List memory_block
  | [], _ => []
  | b :: bs, 0 => f b :: bs
  | b :: bs, k + 1 => b :: update_at f bs k

/-- The method `deallocate`. -/
def deallocate (sz : Nat) (a : custom_allocator) (p : Option Nat) (n : Nat) :
    custom_allocator :=
  match p with
  | none => a
  | some ptr =>
    if n = 0 then a
    else
      match find_block sz a.blocks ptr with
      | none => a
      | some k => { blocks := update_at (fun b => b.deallocate sz ptr n) a.blocks k }

/-- The method `deallocate_all` (the spec's `reset`). -/
def deallocate_all (G fresh : Nat) (_a : custom_allocator) : custom_allocator :=
  expand_memory G fresh { blocks := [] } G

end custom_allocator

/-! ## Specification predicates -/

/-- Slots `[i, i + n)` of the bitmap exist and are all free. -/
def free_run (flags : List Bool) (i n : Nat) : Prop :=
  ∀ t, t < n → flags[i + t]? = some false

instance (flags : List Bool) (i n : Nat) : Decidable (free_run flags i n) := by
  unfold free_run; infer_instance

/-- A block as the constructor and the methods leave it as far as types go: the
`size_t` members are below `SIZE_MOD` and the bitmap has `size` entries. -/
def memory_block.wf (b : memory_block) : Prop :=
  b.used < SIZE_MOD ∧ b.size < SIZE_MOD ∧ b.allocated_flags.length = b.size

instance (b : memory_block) : Decidable b.wf := by
  unfold memory_block.wf; infer_instance

/-- The block passes the capacity check (as a sum of naturals) and has `n` adjacent
free slots. -/
def fits (b : memory_block) (n : Nat) : Prop :=
  b.used + n ≤ b.size ∧ ∃ i, i + n ≤ b.size ∧ free_run b.allocated_flags i n

/-- Index `i` is the least start of `n` adjacent free slots of the block. -/
def least_run (b : memory_block) (n i : Nat) : Prop :=
  i + n ≤ b.size ∧ free_run b.allocated_flags i n ∧
    ∀ x, x < i → ¬ free_run b.allocated_flags x n

/-- The capacity check `used + n <= size` does not wrap around in any block. -/
def no_overflow (a : custom_allocator) (n : Nat) : Prop :=
  ∀ b ∈ a.blocks, b.used + n < SIZE_MOD

instance (a : custom_allocator) (n : Nat) : Decidable (no_overflow a n) := by
  unfold no_overflow; infer_instance

/-- Every block of the allocator is well formed. -/
def custom_allocator.wf (a : custom_allocator) : Prop :=
  ∀ b ∈ a.blocks, b.wf

instance (a : custom_allocator) : Decidable a.wf := by
  unfold custom_allocator.wf; infer_instance

/-- The ranges of `size` slots of the blocks are pairwise disjoint (each block owns its
own `new char[...]` array; the range is that array when the byte count `size * sizeof(T)`
does not wrap around). -/
def separated (sz : Nat) (bs : List memory_block) : Prop :=
  bs.Pairwise (fun b c => b.data + b.size * sz ≤ c.data ∨ c.data + c.size * sz ≤ b.data)

instance (sz : Nat) (bs : List memory_block) : Decidable (separated sz bs) := by
  unfold separated; infer_instance

/-- The byte count `size * sizeof(T)` of the storage of every block is below `2 ^ 64`:
the product in the constructor `memory_block(n)` and in `belongs_to_block` does not wrap
around, and the storage holds `size` slots. -/
def storage_fits (sz : Nat) (a : custom_allocator) : Prop :=
  ∀ b ∈ a.blocks, b.size * sz < SIZE_MOD

instance (sz : Nat) (a : custom_allocator) : Decidable (storage_fits sz a) := by
  unfold storage_fits; infer_instance

/-- The sum of the used-counts of all blocks. -/
def total_used (a : custom_allocator) : Nat :=
  (a.blocks.map (fun b => b.used)).sum

/-! ## Sequences of calls -/

/-- A call of a public member function.  `fresh` is the address `new char[...]` returns
if the call creates a block. -/
inductive op where
  | allocate (n fresh : Nat)
  | deallocate (p : Option Nat) (n : Nat)
  | deallocate_all (fresh : Nat)
deriving DecidableEq

/-- Run one call with arbitrary arguments: the returned pointer (if the call returns
one) and the allocator afterwards. -/
def apply_op (sz G : Nat) (a : custom_allocator) : op → Option (Option Nat × custom_allocator)
  | .allocate n fresh => custom_allocator.allocate sz G fresh a n
  | .deallocate p n => some (none, custom_allocator.deallocate sz a p n)
  | .deallocate_all fresh => some (none, custom_allocator.deallocate_all G fresh a)

/-- Run a sequence of calls with arbitrary arguments. -/
def run_ops (sz G : Nat) : custom_allocator → List op → Option custom_allocator
  | a, [] => some a
  | a, o :: os =>
    match apply_op sz G a o with
    | none => none
    | some (_, a') => run_ops sz G a' os

/-- The environment's part of `allocate(n)`: `n` is a `size_t` and the range of
`max(n, BlockSize)` slots of a block created at `fresh` overlaps the range of no existing
block. -/
def admissible (sz G : Nat) (a : custom_allocator) (n fresh : Nat) : Prop :=
  n < SIZE_MOD ∧
    ∀ b ∈ a.blocks, b.data + b.size * sz ≤ fresh ∨ fresh + (max n G) * sz ≤ b.data

instance (sz G : Nat) (a : custom_allocator) (n fresh : Nat) :
    Decidable (admissible sz G a n fresh) := by
  unfold admissible; infer_instance

/-- Run one call of a client that keeps the allocator's contract.  The second component
is the list of live allocations `(address, n)`.  `allocate` records what it returns;
`deallocate(p, n)` with `p` non-null and `n` non-zero is accepted only for a live
allocation `(p, n)`, which it removes; `deallocate_all` ends every allocation. -/
def matched_step (sz G : Nat) (s : custom_allocator × List (Nat × Nat)) :
    op → Option (custom_allocator × List (Nat × Nat))
  | .allocate n fresh =>
    if admissible sz G s.1 n fresh then
      match custom_allocator.allocate sz G fresh s.1 n with
      | none => none
      | some (none, a') => some (a', s.2)
      | some (some p, a') => some (a', (p, n) :: s.2)
    else none
  | .deallocate none n => some (custom_allocator.deallocate sz s.1 none n, s.2)
  | .deallocate (some ptr) n =>
    if n = 0 then some (custom_allocator.deallocate sz s.1 (some ptr) n, s.2)
    else if (ptr, n) ∈ s.2 then
      some (custom_allocator.deallocate sz s.1 (some ptr) n, s.2.erase (ptr, n))
    else none
  | .deallocate_all fresh => some (custom_allocator.deallocate_all G fresh s.1, [])

/-- Run a sequence of calls of a client that keeps the contract. -/
def matched_run (sz G : Nat) :
    custom_allocator × List (Nat × Nat) → List op → Option (custom_allocator × List (Nat × Nat))
  | s, [] => some s
  | s, o :: os =>
    match matched_step sz G s o with
    | none => none
    | some s' => matched_run sz G s' os

/-- The bookkeeping of a block is consistent: the bitmap has `size` entries and `used`
counts the occupied ones. -/
def block_ok (b : memory_block) : Prop :=
  b.size < SIZE_MOD ∧ b.allocated_flags.length = b.size ∧
    b.used = b.allocated_flags.count true

/-- The allocation `l = (address, n)` is a run of `n` occupied slots of one block. -/
def live_in (sz : Nat) (bs : List memory_block) (l : Nat × Nat) : Prop :=
  0 < l.2 ∧ ∃ b ∈ bs, ∃ i, l.1 = b.data + i * sz ∧ i + l.2 ≤ b.size ∧
    ∀ t, t < l.2 → b.allocated_flags[i + t]? = some true

/-- Two allocations occupy disjoint address ranges. -/
def apart (sz : Nat) (x y : Nat × Nat) : Prop :=
  x.1 + x.2 * sz ≤ y.1 ∨ y.1 + y.2 * sz ≤ x.1

/-- The invariant of the allocator together with the live allocations of its client, for
blocks whose storage holds their slots. -/
def alloc_inv (sz : Nat) (s : custom_allocator × List (Nat × Nat)) : Prop :=
  (∀ b ∈ s.1.blocks, block_ok b) ∧ separated sz s.1.blocks ∧
    (∀ l ∈ s.2, live_in sz s.1.blocks l) ∧ s.2.Pairwise (apart sz) ∧ storage_fits sz s.1

/-- The number of slots of the live allocations whose address lies in the range of
`size` slots that starts at `data`. -/
def live_in_range (sz : Nat) (b : memory_block) (live : List (Nat × Nat)) : Nat :=
  ((live.filter (fun l => decide (b.data ≤ l.1 ∧ l.1 < b.data + b.size * sz))).map
    (fun l => l.2)).sum

/-- The part of the invariant that does not depend on the byte counts: in every block the
used-count is at most the number of occupied slots and at least the number of slots of the
live allocations with an address in the block's range; every live allocation has its
address in the range of a block. -/
def count_inv (sz : Nat) (s : custom_allocator × List (Nat × Nat)) : Prop :=
  (∀ b ∈ s.1.blocks, b.size < SIZE_MOD ∧ b.allocated_flags.length = b.size ∧
      b.used ≤ b.allocated_flags.count true ∧ live_in_range sz b s.2 ≤ b.used) ∧
    separated sz s.1.blocks ∧
    (∀ l ∈ s.2, ∃ b ∈ s.1.blocks, b.data ≤ l.1 ∧ l.1 < b.data + b.size * sz)

/-! ## Copy construction of the allocator and the full invariant -/

/-- The copy constructor `custom_allocator(const custom_allocator& other)`.  The source
is a const reference; the result is the pair of the source afterwards and the new
allocator, whose vector of blocks starts empty and receives one block. -/
def custom_allocator.copy_construct (G fresh : Nat) (other : custom_allocator) :
    custom_allocator × custom_allocator :=
  (other, custom_allocator.expand_memory G fresh { blocks := [] } G)

/-- The converting constructor from `custom_allocator<U, BlockSize>` (used by `rebind`).
The source allocator has the same representation, whatever `U` is. -/
def custom_allocator.convert_construct (G fresh : Nat) (other : custom_allocator) :
    custom_allocator × custom_allocator :=
  (other, custom_allocator.expand_memory G fresh { blocks := [] } G)

/-- Every occupied slot of every block lies in the run of a live allocation. -/
def covered (sz : Nat) (s : custom_allocator × List (Nat × Nat)) : Prop :=
  ∀ b ∈ s.1.blocks, ∀ x, b.allocated_flags[x]? = some true →
    ∃ l ∈ s.2, ∃ i, l.1 = b.data + i * sz ∧ i ≤ x ∧ x < i + l.2

/-- The number of slots of all live allocations. -/
def live_slots (live : List (Nat × Nat)) : Nat :=
  (live.map (fun l => l.2)).sum

/-- The invariant `alloc_inv` together with its converse direction and the count of
occupied slots. -/
def alloc_inv_full (sz : Nat) (s : custom_allocator × List (Nat × Nat)) : Prop :=
  alloc_inv sz s ∧ covered sz s ∧ total_used s.1 = live_slots s.2

/-! ## The container `custom_container` over `custom_allocator`

Here `sz` stands for `sizeof(node)`.  The nodes live in the storage of the allocator's
blocks, which therefore has to hold the slots of a block: the byte count
`size * sizeof(node)` of a block does not wrap around.  `heap` maps an address to the node
object that is alive there.  A member function
takes and returns the heap together with the fields of the container.  `none` means
undefined behaviour: construction at `nullptr`, access through a null pointer or to a
dead node, or an out-of-range read inside the allocator. -/

/-- The struct `node`: the value and the link `next` (`none` is `nullptr`). -/
structure node (T : Type) where
  data : T
  next : Option Nat

/-- The node objects that are alive, by address. -/
abbrev heap (T : Type) : Type := Nat → Option (node T)

/-- The data members of `custom_container`, with `node_allocator` an instance of
`custom_allocator<node, BlockSize>`. -/
structure custom_container (T : Type) where
  head : Option Nat
  tail : Option Nat
  container_size : Nat
  alloc : custom_allocator

namespace custom_container

/-- Placement construction of a node at address `p` (`construct`). -/
def heap_write {T : Type} (h : heap T) (p : Nat) (nd : node T) : heap T :=
  fun q => if q = p then some nd else h q

/-- End of the lifetime of the node at address `p` (`destroy`). -/
def heap_erase {T : Type} (h : heap T) (p : Nat) : heap T :=
  fun q => if q = p then none else h q

/-- The default constructor; `fresh` is the storage of the allocator's first block. -/
def create {T : Type} (G fresh : Nat) : custom_container T :=
  { head := none, tail := none, container_size := 0,
    alloc := custom_allocator.create G fresh }

/-- The method `push_back` (both overloads have this body).  `fresh` is the address the
allocator gets from `new char[...]` if it has to grow. -/
def push_back {T : Type} (sz G fresh : Nat) (s : heap T × custom_container T) (value : T) :
    Option (heap T × custom_container T) :=
  match custom_allocator.allocate sz G fresh s.2.alloc 1 with
  | none => none
  | some (none, _) => none
  | some (some new_node, a) =>
    let h := heap_write s.1 new_node { data := value, next := none }
    match s.2.head with
    | none =>
      some (h, { head := some new_node, tail := some new_node,
                 container_size := (s.2.container_size + 1) % SIZE_MOD, alloc := a })
    | some hd =>
      match s.2.tail with
      | none => none
      | some t =>
        match h t with
        | none => none
        | some nd =>
          some (heap_write h t { nd with next := some new_node },
            { head := some hd, tail := some new_node,
              container_size := (s.2.container_size + 1) % SIZE_MOD, alloc := a })

/-- The method `emplace_back`; `value` is the element built from the arguments. -/
def emplace_back {T : Type} (sz G fresh : Nat) (s : heap T × custom_container T) (value : T) :
    Option (heap T × custom_container T) :=
  match custom_allocator.allocate sz G fresh s.2.alloc 1 with
  | none => none
  | some (none, _) => none
  | some (some new_node, a) =>
    let h := heap_write s.1 new_node { data := value, next := none }
    match s.2.head with
    | none =>
      some (h, { head := some new_node, tail := some new_node,
                 container_size := (s.2.container_size + 1) % SIZE_MOD, alloc := a })
    | some hd =>
      match s.2.tail with
      | none => none
      | some t =>
        match h t with
        | none => none
        | some nd =>
          some (heap_write h t { nd with next := some new_node },
            { head := some hd, tail := some new_node,
              container_size := (s.2.container_size + 1) % SIZE_MOD, alloc := a })

/-- The method `pop_front`. -/
def pop_front {T : Type} (sz : Nat) (s : heap T × custom_container T) :
    Option (heap T × custom_container T) :=
  match s.2.head with
  | none => some s
  | some old_head =>
    match s.1 old_head with
    | none => none
    | some nd =>
      some (heap_erase s.1 old_head,
        { head := nd.next,
          tail := if nd.next = none then none else s.2.tail
          container_size := (s.2.container_size + SIZE_MOD - 1) % SIZE_MOD
          alloc := custom_allocator.deallocate sz s.2.alloc (some old_head) 1 })

/-- The method `size`. -/
def size {T : Type} (c : custom_container T) : Nat := c.container_size

/-- The method `empty`. -/
def empty {T : Type} (c : custom_container T) : Bool := decide (c.container_size = 0)

/-- The method `begin`: an iterator is the address of its current node. -/
def begin {T : Type} (c : custom_container T) : Option Nat := c.head

/-- The method `end` (the iterator built from `nullptr`). -/
def end_ {T : Type} (_c : custom_container T) : Option Nat := none

/-- The method `clear`: `while (!empty()) pop_front();`, at most `fuel` rounds.  The
result is the state after the loop and the number of calls of `pop_front`; `none` also
when the loop is still running after `fuel` rounds. -/
def clear {T : Type} (sz : Nat) :
    Nat → heap T × custom_container T → Option ((heap T × custom_container T) × Nat)
  | 0, s => if s.2.empty then some (s, 0) else none
  | fuel + 1, s =>
    if s.2.empty then some (s, 0)
    else
      match pop_front sz s with
      | none => none
      | some s' => (clear sz fuel s').map (fun r => (r.1, r.2 + 1))

/-- The values read by `for (it = begin(); it != end(); ++it)` through `*it`, following
at most `fuel` links; `none` also when `nullptr` is not reached within `fuel` nodes. -/
def to_list {T : Type} (h : heap T) : Nat → Option Nat → Option (List T)
  | _, none => some []
  | 0, some _ => none
  | fuel + 1, some p =>
    match h p with
    | none => none
    | some nd => (to_list h fuel nd.next).map (fun xs => nd.data :: xs)

/-- The addresses of the nodes visited by `for (it = begin(); it != end(); ++it)`,
following at most `fuel` links. -/
def node_addrs {T : Type} (h : heap T) : Nat → Option Nat → Option (List Nat)
  | _, none => some []
  | 0, some _ => none
  | fuel + 1, some p =>
    match h p with
    | none => none
    | some nd => (node_addrs h fuel nd.next).map (fun ps => p :: ps)

/-- The loop `for (const auto& item : other) push_back(item);` with the iterator at
`it`.  `env k` is the address `new char[...]` would return at the `k`-th `push_back`.
The iterator is advanced after the `push_back`, reading the link from the heap as it is
then. -/
def copy_loop {T : Type} (sz G : Nat) :
    Nat → (Nat → Nat) → Option Nat → heap T × custom_container T →
      Option (heap T × custom_container T)
  | _, _, none, s => some s
  | 0, _, some _, _ => none
  | fuel + 1, env, some p, s =>
    match s.1 p with
    | none => none
    | some nd =>
      match push_back sz G (env 0) s nd.data with
      | none => none
      | some s' =>
        match s'.1 p with
        | none => none
        | some nd' => copy_loop sz G fuel (fun k => env (k + 1)) nd'.next s'

/-- The copy constructor: the allocator is copy-constructed (storage of its block at
`fresh`), then the elements of `other` are appended. -/
def copy_construct {T : Type} (sz G fresh : Nat) (env : Nat → Nat) (fuel : Nat) (h : heap T)
    (other : custom_container T) : Option (heap T × custom_container T) :=
  copy_loop sz G fuel env other.head
    (h, { head := none, tail := none, container_size := 0,
          alloc := (custom_allocator.copy_construct G fresh other.alloc).2 })

/-- The copy assignment `operator=`; `same` tells whether `this == &other`. -/
def assign {T : Type} (sz G : Nat) (env : Nat → Nat) (fuel : Nat)
    (s : heap T × custom_container T) (other : custom_container T) (same : Bool) :
    Option (heap T × custom_container T) :=
  if same then some s
  else
    match clear sz fuel s with
    | none => none
    | some r => copy_loop sz G fuel env other.head r.1

end custom_container

/-- The nodes at the addresses `addrs`, linked in this order from `p` to `nullptr`, hold
the values `xs`. -/
def chain {T : Type} (h : heap T) : Option Nat → List Nat → List T → Prop
  | p, [], [] => p = none
  | p, a :: as, x :: xs => p = some a ∧ ∃ nxt, h a = some ⟨x, nxt⟩ ∧ chain h nxt as xs
  | _, [], _ :: _ => False
  | _, _ :: _, [] => False

/-- The container is a well-formed sequence of the values `xs` held by nodes at the
addresses `addrs`: the nodes are linked from `head`, `tail` is the last node,
`container_size` is their number, the live allocations of the container's allocator
are exactly the single slots of these nodes, and the storage of every block holds the
block's slots (`storage_fits`, part of `alloc_inv`). -/
def seq_inv {T : Type} (sz : Nat) (s : heap T × custom_container T) (addrs : List Nat)
    (xs : List T) : Prop :=
  chain s.1 s.2.head addrs xs ∧ s.2.tail = addrs.getLast? ∧
    s.2.container_size = addrs.length ∧ addrs.length < SIZE_MOD ∧
    alloc_inv_full sz (s.2.alloc, addrs.map (fun a => (a, 1)))

/-- The address lies in the storage of a block of the allocator. -/
def owns (sz : Nat) (a : custom_allocator) (q : Nat) : Prop :=
  ∃ b ∈ a.blocks, b.belongs_to_block sz q = true

/-- The address `q` lies in the storage of a block of `max(1, BlockSize)` slots that
starts at `fresh` (the block that `allocate(1)` creates when it grows). -/
def in_block (sz G fresh q : Nat) : Prop :=
  fresh ≤ q ∧ q < fresh + max 1 G * sz

/-- The addresses `env 0, env 1, ...` that `new char[...]` hands out to successive calls
are admissible: a block created at any of them overlaps no block of `bs` and no block
created at another of them. -/
def env_ok (sz G : Nat) (bs : List memory_block) (env : Nat → Nat) : Prop :=
  (∀ k, ∀ b ∈ bs, b.data + b.size * sz ≤ env k ∨ env k + max 1 G * sz ≤ b.data) ∧
    (∀ j k, j ≠ k → env j + max 1 G * sz ≤ env k ∨ env k + max 1 G * sz ≤ env j)

/-- No block of `bs` overlaps a block of `cs`. -/
def blocks_apart (sz : Nat) (bs cs : List memory_block) : Prop :=
  ∀ b ∈ bs, ∀ c ∈ cs, b.data + b.size * sz ≤ c.data ∨ c.data + c.size * sz ≤ b.data

/-- Two well-formed sequences in one heap whose allocators own disjoint storage. -/
def two_seqs {T : Type} (sz : Nat) (h : heap T) (c1 c2 : custom_container T)
    (addrs1 : List Nat) (xs1 : List T) (addrs2 : List Nat) (xs2 : List T) : Prop :=
  seq_inv sz (h, c1) addrs1 xs1 ∧ seq_inv sz (h, c2) addrs2 xs2 ∧
    blocks_apart sz c1.alloc.blocks c2.alloc.blocks

/-- The calls `push_back(v)` for the values `vs` in order; the `k`-th call gets the
address `env k` from the environment. -/
def push_all {T : Type} (sz G : Nat) :
    (Nat → Nat) → heap T × custom_container T → List T → Option (heap T × custom_container T)
  | _, s, [] => some s
  | env, s, v :: vs =>
    match custom_container.push_back sz G (env 0) s v with
    | none => none
    | some s' => push_all sz G (fun k => env (k + 1)) s' vs

/-- The call `pop_front()` made `k` times. -/
def pop_n {T : Type} (sz : Nat) :
    Nat → heap T × custom_container T → Option (heap T × custom_container T)
  | 0, s => some s
  | k + 1, s =>
    match custom_container.pop_front sz s with
    | none => none
    | some s' => pop_n sz k s'

/-- The states of a sequence reachable from an empty one by `push_back`, `emplace_back`,
`pop_front`, `clear` and copy assignment.  The environment hands out admissible storage
and the element count stays below `2 ^ 64`; the loops run with enough fuel; the source of
a copy assignment is a well-formed sequence with storage of its own; `frame` lets the rest
of the program write memory that the sequence's allocator does not own. -/
inductive seq_reach {T : Type} (sz G : Nat) : heap T × custom_container T → Prop where
  | init (h : heap T) (fresh : Nat) : seq_reach sz G (h, custom_container.create G fresh)
  | push_back (s s' : heap T × custom_container T) (v : T) (fresh : Nat) :
      seq_reach sz G s → admissible sz G s.2.alloc 1 fresh →
      s.2.container_size + 1 < SIZE_MOD →
      custom_container.push_back sz G fresh s v = some s' → seq_reach sz G s'
  | emplace_back (s s' : heap T × custom_container T) (v : T) (fresh : Nat) :
      seq_reach sz G s → admissible sz G s.2.alloc 1 fresh →
      s.2.container_size + 1 < SIZE_MOD →
      custom_container.emplace_back sz G fresh s v = some s' → seq_reach sz G s'
  | pop_front (s s' : heap T × custom_container T) :
      seq_reach sz G s → custom_container.pop_front sz s = some s' → seq_reach sz G s'
  | clear (s s' : heap T × custom_container T) (fuel k : Nat) :
      seq_reach sz G s → s.2.container_size ≤ fuel →
      custom_container.clear sz fuel s = some (s', k) → seq_reach sz G s'
  | assign (s s' : heap T × custom_container T) (other : custom_container T)
      (addrs2 : List Nat) (xs2 : List T) (env : Nat → Nat) (fuel : Nat) :
      seq_reach sz G s → seq_inv sz (s.1, other) addrs2 xs2 →
      blocks_apart sz s.2.alloc.blocks other.alloc.blocks →
      env_ok sz G (s.2.alloc.blocks ++ other.alloc.blocks) env →
      xs2.length < SIZE_MOD → s.2.container_size ≤ fuel → xs2.length ≤ fuel →
      custom_container.assign sz G env fuel s other false = some s' → seq_reach sz G s'
  | assign_self (s s' : heap T × custom_container T) (env : Nat → Nat) (fuel : Nat) :
      seq_reach sz G s →
      custom_container.assign sz G env fuel s s.2 true = some s' → seq_reach sz G s'
  | frame (s : heap T × custom_container T) (h' : heap T) :
      seq_reach sz G s → (∀ q, owns sz s.2.alloc q → h' q = s.1 q) →
      seq_reach sz G (h', s.2)

/-! ## The loops of `memory_block::allocate` -/

theorem SIZE_MOD_pos : 0 < SIZE_MOD := by unfold SIZE_MOD; norm_num

theorem run_is_free_eq (flags : List Bool) (i : Nat) :
    ∀ (m j : Nat), i + j + m ≤ flags.length → flags.length ≤ SIZE_MOD →
      memory_block.run_is_free flags i m j = some (decide (free_run flags (i + j) m)) := by
  intro m
  induction m with
  | zero =>
    intro j _ _
    simp [memory_block.run_is_free, free_run]
  | succ m ih =>
    intro j hb hM
    have hlt : i + j < flags.length := by omega
    have hmod : (i + j) % SIZE_MOD = i + j := Nat.mod_eq_of_lt (by omega)
    have hget : flags[i + j]? = some (flags[i + j]) := List.getElem?_eq_getElem hlt
    unfold memory_block.run_is_free
    rw [hmod, hget]
    cases hv : flags[i + j] with
    | true =>
      have : ¬ free_run flags (i + j) (m + 1) := by
        intro hf
        have h0 := hf 0 (by omega)
        simp [hget, hv] at h0
      simp [this]
    | false =>
      simp only
      rw [ih (j + 1) (by omega) hM]
      congr 1
      apply decide_eq_decide.mpr
      constructor
      · intro hf t ht
        rcases Nat.eq_zero_or_pos t with h0 | hpos
        · subst h0; simpa [hv] using hget
        · have := hf (t - 1) (by omega)
          have e : i + (j + 1) + (t - 1) = i + j + t := by omega
          rwa [e] at this
      · intro hf t ht
        have := hf (t + 1) (by omega)
        have e : i + j + (t + 1) = i + (j + 1) + t := by omega
        rwa [e] at this

theorem first_fit_found (flags : List Bool) (n : Nat) (hM : flags.length ≤ SIZE_MOD) :
    ∀ (k i0 i : Nat), (∀ x, i0 ≤ x → x < i0 + k → x + n ≤ flags.length) →
      i0 ≤ i → i < i0 + k → free_run flags i n →
      (∀ x, i0 ≤ x → x < i → ¬ free_run flags x n) →
      memory_block.first_fit flags n k i0 = some (some i) := by
  intro k
  induction k with
  | zero => intro i0 i _ h1 h2; omega
  | succ k ih =>
    intro i0 i hb h1 h2 hfree hleast
    unfold memory_block.first_fit
    rw [run_is_free_eq flags i0 n 0 (by have := hb i0 (le_refl _) (by omega); omega) hM]
    simp only [Nat.add_zero]
    by_cases hf : free_run flags i0 n
    · have : i = i0 := by
        by_contra hne
        exact hleast i0 (le_refl _) (by omega) hf
      subst this
      simp [hf]
    · simp only [hf, decide_False]
      have hne : i ≠ i0 := by
        intro e; subst e; exact hf hfree
      exact ih (i0 + 1) i (fun x hx1 hx2 => hb x (by omega) (by omega)) (by omega) (by omega)
        hfree (fun x hx1 hx2 => hleast x (by omega) hx2)

theorem first_fit_not_found (flags : List Bool) (n : Nat) (hM : flags.length ≤ SIZE_MOD) :
    ∀ (k i0 : Nat), (∀ x, i0 ≤ x → x < i0 + k → x + n ≤ flags.length) →
      (∀ x, i0 ≤ x → x < i0 + k → ¬ free_run flags x n) →
      memory_block.first_fit flags n k i0 = some none := by
  intro k
  induction k with
  | zero => intro i0 _ _; rfl
  | succ k ih =>
    intro i0 hb hnone
    unfold memory_block.first_fit
    rw [run_is_free_eq flags i0 n 0 (by have := hb i0 (le_refl _) (by omega); omega) hM]
    have hf : ¬ free_run flags i0 n := hnone i0 (le_refl _) (by omega)
    simp only [Nat.add_zero, hf, decide_False]
    exact ih (i0 + 1) (fun x hx1 hx2 => hb x (by omega) (by omega))
      (fun x hx1 hx2 => hnone x (by omega) (by omega))

theorem set_run_length (i : Nat) :
    ∀ (m j : Nat) (flags : List Bool),
      (memory_block.set_run flags i m j).length = flags.length := by
  intro m
  induction m with
  | zero => intro j flags; rfl
  | succ m ih =>
    intro j flags
    unfold memory_block.set_run
    rw [ih]; simp

theorem set_run_getElem? (i : Nat) :
    ∀ (m j : Nat) (flags : List Bool), i + j + m ≤ flags.length → flags.length ≤ SIZE_MOD →
      ∀ x, (memory_block.set_run flags i m j)[x]? =
        if i + j ≤ x ∧ x < i + j + m then some true else flags[x]? := by
  intro m
  induction m with
  | zero =>
    intro j flags _ _ x
    have : ¬ (i + j ≤ x ∧ x < i + j + 0) := by omega
    rw [if_neg this]; rfl
  | succ m ih =>
    intro j flags hb hM x
    have hmod : (i + j) % SIZE_MOD = i + j := Nat.mod_eq_of_lt (by omega)
    unfold memory_block.set_run
    rw [hmod, ih (j + 1) _ (by simp; omega) (by simpa using hM) x]
    by_cases hx : i + j = x
    · subst hx
      have h1 : ¬ (i + (j + 1) ≤ i + j ∧ i + j < i + (j + 1) + m) := by omega
      have h2 : i + j ≤ i + j ∧ i + j < i + j + (m + 1) := by omega
      rw [if_neg h1, if_pos h2, List.getElem?_set_self (by omega)]
    · by_cases hr : i + (j + 1) ≤ x ∧ x < i + (j + 1) + m
      · have h2 : i + j ≤ x ∧ x < i + j + (m + 1) := by omega
        rw [if_pos hr, if_pos h2]
      · have h2 : ¬ (i + j ≤ x ∧ x < i + j + (m + 1)) := by omega
        rw [if_neg hr, if_neg h2, List.getElem?_set_ne hx]

theorem can_allocate_eq_true (b : memory_block) (n : Nat) (hov : b.used + n < SIZE_MOD) :
    b.can_allocate n = true ↔ b.used + n ≤ b.size := by
  unfold memory_block.can_allocate
  rw [Nat.mod_eq_of_lt hov]
  simp

theorem fuel_eq (size n : Nat) (hs : size < SIZE_MOD) (hn : n ≤ size) :
    (size + SIZE_MOD - n) % SIZE_MOD + 1 = size - n + 1 := by
  have e : size + SIZE_MOD - n = (size - n) + SIZE_MOD := by omega
  rw [e, Nat.add_mod_right, Nat.mod_eq_of_lt (by omega)]

/-- Result of `memory_block::allocate` when the capacity check passes without overflow
and the least free run starts at `i`. -/
theorem block_allocate_found (sz : Nat) (b : memory_block) (n i : Nat) (hwf : b.wf)
    (hcap : b.used + n ≤ b.size) (hi : i + n ≤ b.size)
    (hfree : free_run b.allocated_flags i n)
    (hleast : ∀ x, x < i → ¬ free_run b.allocated_flags x n) :
    b.allocate sz n = some (some (b.data + (i * sz) % SIZE_MOD),
      { b with
        allocated_flags := memory_block.set_run b.allocated_flags i n 0
        used := b.used + n }) := by
  obtain ⟨hu, hs, hl⟩ := hwf
  have hov : b.used + n < SIZE_MOD := by omega
  have hc : b.can_allocate n = true := (can_allocate_eq_true b n hov).mpr hcap
  unfold memory_block.allocate
  rw [hc, fuel_eq b.size n hs (by omega)]
  rw [first_fit_found b.allocated_flags n (by omega) (b.size - n + 1) 0 i
    (fun x _ hx => by omega) (Nat.zero_le _) (by omega) hfree
    (fun x _ hx => hleast x hx)]
  simp [Nat.mod_eq_of_lt hov]

/-- Result of `memory_block::allocate` when the capacity check passes without overflow
and no start index has a free run. -/
theorem block_allocate_not_found (sz : Nat) (b : memory_block) (n : Nat) (hwf : b.wf)
    (hcap : b.used + n ≤ b.size)
    (hnone : ∀ x, x + n ≤ b.size → ¬ free_run b.allocated_flags x n) :
    b.allocate sz n = some (none, b) := by
  obtain ⟨hu, hs, hl⟩ := hwf
  have hov : b.used + n < SIZE_MOD := by omega
  have hc : b.can_allocate n = true := (can_allocate_eq_true b n hov).mpr hcap
  unfold memory_block.allocate
  rw [hc, fuel_eq b.size n hs (by omega)]
  rw [first_fit_not_found b.allocated_flags n (by omega) (b.size - n + 1) 0
    (fun x _ hx => by omega) (fun x _ hx => hnone x (by omega))]
  simp

theorem least_run_of_fits (b : memory_block) (n : Nat) (h : fits b n) :
    ∃ i, least_run b n i := by
  classical
  obtain ⟨_, hex⟩ := h
  refine ⟨Nat.find hex, (Nat.find_spec hex).1, (Nat.find_spec hex).2, ?_⟩
  intro x hx hf
  exact Nat.find_min hex hx ⟨by have := (Nat.find_spec hex).1; omega, hf⟩

theorem block_allocate_null_same (sz : Nat) (b b' : memory_block) (n : Nat)
    (h : b.allocate sz n = some (none, b')) : b' = b := by
  unfold memory_block.allocate at h
  split at h
  · simp at h; exact h.symm
  · split at h
    · simp at h
    · simp at h; exact h.symm
    · simp at h

/-- A well-formed block that does not fit the request is skipped or answers `nullptr`. -/
theorem block_allocate_not_fits (sz : Nat) (b : memory_block) (n : Nat) (hwf : b.wf)
    (hov : b.used + n < SIZE_MOD) (hnf : ¬ fits b n) :
    b.can_allocate n = false ∨ b.allocate sz n = some (none, b) := by
  by_cases hc : b.used + n ≤ b.size
  · right
    exact block_allocate_not_found sz b n hwf hc (fun x hx hf => hnf ⟨hc, x, hx, hf⟩)
  · left
    have := (can_allocate_eq_true b n hov).not.mpr hc
    simpa using this

theorem block_allocate_fits (sz : Nat) (b : memory_block) (n i : Nat) (hwf : b.wf)
    (hcap : b.used + n ≤ b.size) (hi : least_run b n i) :
    b.can_allocate n = true ∧
    b.allocate sz n = some (some (b.data + (i * sz) % SIZE_MOD),
      { b with
        allocated_flags := memory_block.set_run b.allocated_flags i n 0
        used := b.used + n }) := by
  have hov : b.used + n < SIZE_MOD := by have := hwf.2.1; omega
  exact ⟨(can_allocate_eq_true b n hov).mpr hcap,
    block_allocate_found sz b n i hwf hcap hi.1 hi.2.1 hi.2.2⟩

/-! ## The loop over the blocks -/

theorem try_blocks_all_fail (sz n : Nat) :
    ∀ (bs : List memory_block),
      (∀ b ∈ bs, b.can_allocate n = false ∨ b.allocate sz n = some (none, b)) →
      custom_allocator.try_blocks sz bs n = some none := by
  intro bs
  induction bs with
  | nil => intro _; rfl
  | cons b bs ih =>
    intro h
    have hb := h b (List.mem_cons_self _ _)
    have ih' := ih (fun c hc => h c (List.mem_cons_of_mem _ hc))
    unfold custom_allocator.try_blocks
    by_cases hc : b.can_allocate n = true
    · rcases hb with hb | hb
      · rw [hb] at hc; cases hc
      · simp [hc, hb, ih']
    · simp [hc, ih']

theorem try_blocks_first (sz n p : Nat) (b b' : memory_block) (post : List memory_block)
    (hc : b.can_allocate n = true) (ha : b.allocate sz n = some (some p, b')) :
    ∀ (pre : List memory_block),
      (∀ c ∈ pre, c.can_allocate n = false ∨ c.allocate sz n = some (none, c)) →
      custom_allocator.try_blocks sz (pre ++ b :: post) n
        = some (some (p, pre ++ b' :: post)) := by
  intro pre
  induction pre with
  | nil =>
    intro _
    simp [custom_allocator.try_blocks, hc, ha]
  | cons c pre ih =>
    intro h
    have hcc := h c (List.mem_cons_self _ _)
    have ih' := ih (fun d hd => h d (List.mem_cons_of_mem _ hd))
    rw [List.cons_append]
    unfold custom_allocator.try_blocks
    by_cases hcan : c.can_allocate n = true
    · rcases hcc with hcc | hcc
      · rw [hcc] at hcan; cases hcan
      · simp [hcan, hcc, ih']
    · simp [hcan, ih']

theorem try_blocks_inv (sz n : Nat) :
    ∀ (bs : List memory_block) (p : Nat) (bs' : List memory_block),
      custom_allocator.try_blocks sz bs n = some (some (p, bs')) →
      ∃ pre b post b', bs = pre ++ b :: post ∧ bs' = pre ++ b' :: post ∧
        b.allocate sz n = some (some p, b') := by
  intro bs
  induction bs with
  | nil => intro p bs' h; simp [custom_allocator.try_blocks] at h
  | cons c bs ih =>
    intro p bs' h
    unfold custom_allocator.try_blocks at h
    have rest : ∀ d : memory_block,
        (custom_allocator.try_blocks sz bs n).map
          (Option.map (fun r : Nat × List memory_block => (r.1, d :: r.2)))
          = some (some (p, bs')) → d = c →
        ∃ pre b post b', c :: bs = pre ++ b :: post ∧ bs' = pre ++ b' :: post ∧
          b.allocate sz n = some (some p, b') := by
      intro d hd hdc
      subst hdc
      cases ht : custom_allocator.try_blocks sz bs n with
      | none => rw [ht] at hd; simp at hd
      | some r =>
        cases r with
        | none => rw [ht] at hd; simp at hd
        | some q =>
          obtain ⟨q1, q2⟩ := q
          rw [ht] at hd
          simp at hd
          obtain ⟨pre, b, post, b', e1, e2, e3⟩ := ih q1 q2 ht
          refine ⟨d :: pre, b, post, b', by simp [e1], ?_, ?_⟩
          · rw [← hd.2, e2]; simp
          · rw [← hd.1]; exact e3
    split at h
    · split at h
      · simp at h
      · rename_i p0 b0 hal
        simp at h
        exact ⟨[], c, bs, b0, by simp, by simp [h.2], by rw [hal, h.1]⟩
      · rename_i b0 hal
        exact rest b0 h (block_allocate_null_same sz c b0 n hal)
    · exact rest c h rfl

theorem first_split {α : Type} (P : α → Prop) :
    ∀ (l : List α), (∀ x ∈ l, ¬ P x) ∨
      ∃ pre b post, l = pre ++ b :: post ∧ (∀ c ∈ pre, ¬ P c) ∧ P b := by
  intro l
  induction l with
  | nil => left; intro x hx; cases hx
  | cons a l ih =>
    by_cases ha : P a
    · right; exact ⟨[], a, l, rfl, fun c hc => (by cases hc), ha⟩
    · rcases ih with h | ⟨pre, b, post, e, h1, h2⟩
      · left
        intro x hx
        rcases List.mem_cons.mp hx with rfl | hx
        · exact ha
        · exact h x hx
      · right
        refine ⟨a :: pre, b, post, by simp [e], ?_, h2⟩
        intro c hc
        rcases List.mem_cons.mp hc with rfl | hc
        · exact ha
        · exact h1 c hc

/-! ## `custom_allocator::allocate` -/

theorem set_run_replicate (N n : Nat) (hn : n ≤ N) (hN : N < SIZE_MOD) :
    memory_block.set_run (List.replicate N false) 0 n 0
      = List.replicate n true ++ List.replicate (N - n) false := by
  apply List.ext_getElem?
  intro x
  rw [set_run_getElem? 0 n 0 _ (by simp; omega) (by simp; omega) x]
  by_cases hx : x < n
  · have h1 : 0 + 0 ≤ x ∧ x < 0 + 0 + n := by omega
    rw [if_pos h1, List.getElem?_append_left (by simpa using hx)]
    simp [hx]
  · have h1 : ¬ (0 + 0 ≤ x ∧ x < 0 + 0 + n) := by omega
    rw [if_neg h1, List.getElem?_append_right (by simp; omega)]
    simp only [List.getElem?_replicate, List.length_replicate]
    by_cases hx2 : x < N
    · have : x - n < N - n := by omega
      simp [hx2, this]
    · have : ¬ (x - n < N - n) := by omega
      simp [hx2, this]

/-- The block that `expand_memory(n)` appends always serves the request at slot 0. -/
theorem fresh_block_allocate (sz fresh N n : Nat) (hn : n ≤ N) (hN : N < SIZE_MOD) :
    (memory_block.create fresh N).allocate sz n
      = some (some fresh,
          ⟨fresh, n, N, List.replicate n true ++ List.replicate (N - n) false⟩) := by
  have hwf : (memory_block.create fresh N).wf := by
    simp [memory_block.wf, memory_block.create, hN, SIZE_MOD_pos]
  have hfree : free_run (memory_block.create fresh N).allocated_flags 0 n := by
    intro t ht
    simp only [memory_block.create, Nat.zero_add]
    exact List.getElem?_replicate_of_lt (by omega)
  have h := block_allocate_found sz (memory_block.create fresh N) n 0 hwf
    (by simp [memory_block.create]; exact hn) (by simp [memory_block.create]; exact hn)
    hfree (fun x hx => by omega)
  rw [h]
  simp [memory_block.create, set_run_replicate N n hn hN]

theorem allocate_existing (sz G fresh : Nat) (a : custom_allocator) (n p : Nat)
    (bs : List memory_block) (hn : 0 < n)
    (h : custom_allocator.try_blocks sz a.blocks n = some (some (p, bs))) :
    custom_allocator.allocate sz G fresh a n = some (some p, { blocks := bs }) := by
  unfold custom_allocator.allocate
  rw [if_neg (by omega), h]

theorem allocate_new_block (sz G fresh : Nat) (a : custom_allocator) (n : Nat) (hn : 0 < n)
    (hnM : n < SIZE_MOD) (hG : G < SIZE_MOD)
    (h : custom_allocator.try_blocks sz a.blocks n = some none) :
    custom_allocator.allocate sz G fresh a n
      = some (some fresh,
          { blocks := a.blocks ++
              [⟨fresh, n, if n > G then n else G,
                List.replicate n true ++ List.replicate ((if n > G then n else G) - n) false⟩] }) := by
  unfold custom_allocator.allocate
  rw [if_neg (by omega), h]
  simp only [custom_allocator.expand_memory, List.getLast?_concat, List.dropLast_concat]
  rw [fresh_block_allocate sz fresh (if n > G then n else G) n (by split <;> omega)
    (by split <;> omega)]

theorem allocate_inv (sz G fresh : Nat) (a : custom_allocator) (n : Nat) (hn : 0 < n)
    (hnM : n < SIZE_MOD) (hG : G < SIZE_MOD) (r : Option Nat) (a1 : custom_allocator)
    (h : custom_allocator.allocate sz G fresh a n = some (r, a1)) :
    (∃ p pre b post b', r = some p ∧ a.blocks = pre ++ b :: post ∧
        a1.blocks = pre ++ b' :: post ∧ b.allocate sz n = some (some p, b')) ∨
    (r = some fresh ∧
      a1.blocks = a.blocks ++
        [⟨fresh, n, if n > G then n else G,
          List.replicate n true ++ List.replicate ((if n > G then n else G) - n) false⟩]) := by
  cases ht : custom_allocator.try_blocks sz a.blocks n with
  | none =>
    unfold custom_allocator.allocate at h
    rw [if_neg (by omega), ht] at h
    simp at h
  | some q =>
    cases q with
    | none =>
      right
      rw [allocate_new_block sz G fresh a n hn hnM hG ht] at h
      simp at h
      exact ⟨h.1.symm, by rw [← h.2]⟩
    | some q =>
      obtain ⟨p, bs⟩ := q
      left
      rw [allocate_existing sz G fresh a n p bs hn ht] at h
      simp at h
      obtain ⟨pre, b, post, b', e1, e2, e3⟩ := try_blocks_inv sz n a.blocks p bs ht
      exact ⟨p, pre, b, post, b', h.1.symm, e1, by rw [← h.2]; exact e2, e3⟩

/-! ## The loop of `memory_block::deallocate` -/

theorem clear_run_length (off : Nat) :
    ∀ (m j : Nat) (flags : List Bool),
      (memory_block.clear_run flags off m j).length = flags.length := by
  intro m
  induction m with
  | zero => intro j flags; rfl
  | succ m ih =>
    intro j flags
    unfold memory_block.clear_run
    rw [ih]
    split <;> simp

/-- The bitmap after the loop of `deallocate`, with the index `offset + i` reduced
modulo `SIZE_MOD` as the source computes it. -/
theorem clear_run_getElem? (off : Nat) :
    ∀ (m j : Nat) (flags : List Bool) (x : Nat),
      (memory_block.clear_run flags off m j)[x]? =
        if (∃ t, t < m ∧ (off + j + t) % SIZE_MOD = x) ∧ x < flags.length then some false
        else flags[x]? := by
  intro m
  induction m with
  | zero =>
    intro j flags x
    have : ¬ ((∃ t, t < 0 ∧ (off + j + t) % SIZE_MOD = x) ∧ x < flags.length) := by
      rintro ⟨⟨t, ht, _⟩, _⟩; omega
    rw [if_neg this]; rfl
  | succ m ih =>
    intro j flags x
    have hlen : (if (off + j) % SIZE_MOD < flags.length then
        flags.set ((off + j) % SIZE_MOD) false else flags).length = flags.length := by
      split <;> simp
    have hfl : (if (off + j) % SIZE_MOD < flags.length then
        flags.set ((off + j) % SIZE_MOD) false else flags)[x]? =
        if (off + j) % SIZE_MOD = x ∧ x < flags.length then some false else flags[x]? := by
      by_cases hc : (off + j) % SIZE_MOD < flags.length
      · rw [if_pos hc]
        by_cases h0 : (off + j) % SIZE_MOD = x
        · rw [if_pos ⟨h0, by omega⟩, h0, List.getElem?_set_self (by omega)]
        · rw [if_neg (fun h => h0 h.1), List.getElem?_set_ne h0]
      · rw [if_neg hc, if_neg (fun h => hc (by omega))]
    have hC : ((∃ t, t < m + 1 ∧ (off + j + t) % SIZE_MOD = x) ∧ x < flags.length) ↔
        (((∃ t, t < m ∧ (off + (j + 1) + t) % SIZE_MOD = x) ∧ x < flags.length) ∨
          ((off + j) % SIZE_MOD = x ∧ x < flags.length)) := by
      constructor
      · rintro ⟨⟨t, ht, e⟩, hx⟩
        rcases Nat.eq_zero_or_pos t with rfl | hpos
        · exact Or.inr ⟨e, hx⟩
        · exact Or.inl ⟨⟨t - 1, by omega, by rw [← e]; congr 1; omega⟩, hx⟩
      · rintro (⟨⟨t, ht, e⟩, hx⟩ | ⟨e, hx⟩)
        · exact ⟨⟨t + 1, by omega, by rw [← e]; congr 1; omega⟩, hx⟩
        · exact ⟨⟨0, by omega, e⟩, hx⟩
    unfold memory_block.clear_run
    rw [ih, hlen, hfl]
    by_cases hA : (∃ t, t < m ∧ (off + (j + 1) + t) % SIZE_MOD = x) ∧ x < flags.length
    · rw [if_pos hA, if_pos (hC.mpr (Or.inl hA))]
    · rw [if_neg hA]
      by_cases hB : (off + j) % SIZE_MOD = x ∧ x < flags.length
      · rw [if_pos hB, if_pos (hC.mpr (Or.inr hB))]
      · rw [if_neg hB, if_neg (fun h => (hC.mp h).elim hA hB)]

/-- The bitmap after the loop of `deallocate` when `offset + n` does not wrap around. -/
theorem clear_run_getElem?_of_le (off n : Nat) (flags : List Bool) (x : Nat)
    (h : off + n ≤ SIZE_MOD) :
    (memory_block.clear_run flags off n 0)[x]? =
      if off ≤ x ∧ x < off + n ∧ x < flags.length then some false else flags[x]? := by
  rw [clear_run_getElem?]
  have e : ((∃ t, t < n ∧ (off + 0 + t) % SIZE_MOD = x) ∧ x < flags.length)
      ↔ (off ≤ x ∧ x < off + n ∧ x < flags.length) := by
    constructor
    · rintro ⟨⟨t, ht, e⟩, hx⟩
      rw [Nat.mod_eq_of_lt (by omega)] at e
      omega
    · rintro ⟨h1, h2, h3⟩
      exact ⟨⟨x - off, by omega, by rw [Nat.mod_eq_of_lt (by omega)]; omega⟩, h3⟩
  by_cases hc : off ≤ x ∧ x < off + n ∧ x < flags.length
  · rw [if_pos hc, if_pos (e.mpr hc)]
  · rw [if_neg hc, if_neg (fun h => hc (e.mp h))]

theorem slot_offset (sz data k : Nat) (hsz : 0 < sz) : (data + k * sz - data) / sz = k := by
  rw [Nat.add_sub_cancel_left, Nat.mul_div_cancel _ hsz]

theorem used_round_trip (u n : Nat) (hu : u < SIZE_MOD) (hn : n < SIZE_MOD) :
    ((u + n) % SIZE_MOD + SIZE_MOD - n) % SIZE_MOD = u := by
  by_cases h : u + n < SIZE_MOD
  · rw [Nat.mod_eq_of_lt h]
    have e : u + n + SIZE_MOD - n = u + SIZE_MOD := by omega
    rw [e, Nat.add_mod_right, Nat.mod_eq_of_lt hu]
  · have e1 : (u + n) % SIZE_MOD = u + n - SIZE_MOD := by
      rw [Nat.mod_eq_sub_mod (by omega), Nat.mod_eq_of_lt (by omega)]
    rw [e1]
    have e : u + n - SIZE_MOD + SIZE_MOD - n = u := by omega
    rw [e, Nat.mod_eq_of_lt hu]

/-- Releasing a run right after it was taken from free slots restores the block. -/
theorem block_round_trip (sz : Nat) (b : memory_block) (n i : Nat) (hsz : 0 < sz)
    (hwf : b.wf) (hn : n < SIZE_MOD) (hi : i + n ≤ b.size)
    (hfree : free_run b.allocated_flags i n) :
    memory_block.deallocate sz
      { b with
        allocated_flags := memory_block.set_run b.allocated_flags i n 0
        used := (b.used + n) % SIZE_MOD } (b.data + i * sz) n = b := by
  obtain ⟨hu, hs, hl⟩ := hwf
  unfold memory_block.deallocate
  simp only [slot_offset sz b.data i hsz, used_round_trip b.used n hu hn]
  have hfl : memory_block.clear_run (memory_block.set_run b.allocated_flags i n 0) i n 0
      = b.allocated_flags := by
    apply List.ext_getElem?
    intro x
    rw [clear_run_getElem?_of_le i n _ x (by omega), set_run_length,
      set_run_getElem? i n 0 _ (by omega) (by omega) x]
    by_cases hx : i ≤ x ∧ x < i + n
    · have h1 : i ≤ x ∧ x < i + n ∧ x < b.allocated_flags.length := by omega
      rw [if_pos h1]
      have := hfree (x - i) (by omega)
      rw [← this]; congr 1; omega
    · have h1 : ¬ (i ≤ x ∧ x < i + n ∧ x < b.allocated_flags.length) := by omega
      have h2 : ¬ (i + 0 ≤ x ∧ x < i + 0 + n) := by omega
      rw [if_neg h1, if_neg h2]
  rw [hfl]

/-! ## `find_block` and `custom_allocator::deallocate` -/

theorem find_block_none (sz ptr : Nat) :
    ∀ (bs : List memory_block), (∀ b ∈ bs, b.belongs_to_block sz ptr = false) →
      custom_allocator.find_block sz bs ptr = none := by
  intro bs
  induction bs with
  | nil => intro _; rfl
  | cons b bs ih =>
    intro h
    unfold custom_allocator.find_block
    rw [h b (List.mem_cons_self _ _), ih (fun c hc => h c (List.mem_cons_of_mem _ hc))]
    rfl

theorem find_block_first (sz ptr : Nat) (b : memory_block) (post : List memory_block)
    (hb : b.belongs_to_block sz ptr = true) :
    ∀ (pre : List memory_block), (∀ c ∈ pre, c.belongs_to_block sz ptr = false) →
      custom_allocator.find_block sz (pre ++ b :: post) ptr = some pre.length := by
  intro pre
  induction pre with
  | nil => intro _; simp [custom_allocator.find_block, hb]
  | cons c pre ih =>
    intro h
    rw [List.cons_append]
    unfold custom_allocator.find_block
    rw [h c (List.mem_cons_self _ _), ih (fun d hd => h d (List.mem_cons_of_mem _ hd))]
    rfl

theorem update_at_append (f : memory_block → memory_block) (b : memory_block)
    (post : List memory_block) :
    ∀ (pre : List memory_block),
      custom_allocator.update_at f (pre ++ b :: post) pre.length = pre ++ f b :: post := by
  intro pre
  induction pre with
  | nil => rfl
  | cons c pre ih =>
    show c :: custom_allocator.update_at f (pre ++ b :: post) pre.length = _
    rw [ih]; rfl

/-- The method `deallocate` changes the first block that owns the address and no other. -/
theorem deallocate_at (sz ptr n : Nat) (pre post : List memory_block) (b : memory_block)
    (hn : 0 < n) (hpre : ∀ c ∈ pre, c.belongs_to_block sz ptr = false)
    (hb : b.belongs_to_block sz ptr = true) :
    custom_allocator.deallocate sz { blocks := pre ++ b :: post } (some ptr) n
      = { blocks := pre ++ b.deallocate sz ptr n :: post } := by
  unfold custom_allocator.deallocate
  simp only [if_neg (Nat.pos_iff_ne_zero.mp hn), find_block_first sz ptr b post hb pre hpre,
    update_at_append]

theorem belongs_slot (sz : Nat) (b : memory_block) (k : Nat) (hsz : 0 < sz)
    (hfit : b.size * sz < SIZE_MOD) (hk : k < b.size) :
    b.belongs_to_block sz (b.data + k * sz) = true := by
  have : k * sz < b.size * sz := Nat.mul_lt_mul_of_pos_right hk hsz
  simp only [memory_block.belongs_to_block, Nat.mod_eq_of_lt hfit, Bool.and_eq_true,
    decide_eq_true_eq]
  omega

/-- An address that `belongs_to_block` accepts lies in the range of the block's slots. -/
theorem belongs_in_range (sz : Nat) (b : memory_block) (ptr : Nat)
    (h : b.belongs_to_block sz ptr = true) :
    b.data ≤ ptr ∧ ptr < b.data + b.size * sz := by
  simp only [memory_block.belongs_to_block, Bool.and_eq_true, decide_eq_true_eq] at h
  have := Nat.mod_le (b.size * sz) SIZE_MOD
  omega

/-- The address that `allocate` computes for slot `i` lies in the range of the block's
slots. -/
theorem slot_in_range (sz : Nat) (b : memory_block) (i : Nat) (hsz : 0 < sz)
    (hi : i < b.size) :
    b.data ≤ b.data + (i * sz) % SIZE_MOD ∧
      b.data + (i * sz) % SIZE_MOD < b.data + b.size * sz := by
  have h1 : i * sz < b.size * sz := Nat.mul_lt_mul_of_pos_right hi hsz
  have h2 := Nat.mod_le (i * sz) SIZE_MOD
  omega

/-- When the byte count of the block does not wrap around, neither does the offset of
one of its slots. -/
theorem slot_addr_eq (sz : Nat) (b : memory_block) (i : Nat)
    (hfit : b.size * sz < SIZE_MOD) (hi : i ≤ b.size) :
    b.data + (i * sz) % SIZE_MOD = b.data + i * sz := by
  have h1 : i * sz ≤ b.size * sz := Nat.mul_le_mul_right sz hi
  rw [Nat.mod_eq_of_lt (by omega)]

/-! ## What a successful `memory_block::allocate` implies -/

theorem run_is_free_true_inv (flags : List Bool) (i : Nat) (hM : flags.length < SIZE_MOD) :
    ∀ (m j : Nat), i + j ≤ flags.length →
      memory_block.run_is_free flags i m j = some true →
      i + j + m ≤ flags.length ∧ free_run flags (i + j) m := by
  intro m
  induction m with
  | zero => intro j hj _; exact ⟨by omega, fun t ht => by omega⟩
  | succ m ih =>
    intro j hj h
    unfold memory_block.run_is_free at h
    rw [Nat.mod_eq_of_lt (by omega)] at h
    cases hv : flags[i + j]? with
    | none => rw [hv] at h; simp at h
    | some v =>
      cases v with
      | true => rw [hv] at h; simp at h
      | false =>
        rw [hv] at h
        simp only at h
        have hlt : i + j < flags.length := by
          by_contra hge
          rw [List.getElem?_eq_none (by omega)] at hv
          cases hv
        obtain ⟨h1, h2⟩ := ih (j + 1) (by omega) h
        refine ⟨by omega, ?_⟩
        intro t ht
        rcases Nat.eq_zero_or_pos t with rfl | hpos
        · exact hv
        · have := h2 (t - 1) (by omega)
          have e : i + (j + 1) + (t - 1) = i + j + t := by omega
          rwa [e] at this

theorem run_is_free_false_lt (flags : List Bool) (i n : Nat) (hi : i < SIZE_MOD)
    (h : memory_block.run_is_free flags i n 0 = some false) : i < flags.length := by
  cases n with
  | zero => simp [memory_block.run_is_free] at h
  | succ m =>
    unfold memory_block.run_is_free at h
    rw [Nat.add_zero, Nat.mod_eq_of_lt hi] at h
    by_contra hge
    rw [List.getElem?_eq_none (by omega)] at h
    simp at h

theorem first_fit_inv (flags : List Bool) (n : Nat) (hM : flags.length < SIZE_MOD) :
    ∀ (k i0 i : Nat), i0 ≤ flags.length →
      memory_block.first_fit flags n k i0 = some (some i) →
      i + n ≤ flags.length ∧ free_run flags i n := by
  intro k
  induction k with
  | zero => intro i0 i _ h; simp [memory_block.first_fit] at h
  | succ k ih =>
    intro i0 i hi0 h
    unfold memory_block.first_fit at h
    cases hr : memory_block.run_is_free flags i0 n 0 with
    | none => rw [hr] at h; simp at h
    | some v =>
      cases v with
      | true =>
        rw [hr] at h
        simp at h
        subst h
        have := run_is_free_true_inv flags i0 hM n 0 (by omega) hr
        simpa using this
      | false =>
        rw [hr] at h
        simp only at h
        have := run_is_free_false_lt flags i0 n (by omega) hr
        exact ih (i0 + 1) i (by omega) h

theorem block_allocate_inv_mod (sz : Nat) (b b' : memory_block) (n p : Nat) (hwf : b.wf)
    (h : b.allocate sz n = some (some p, b')) :
    ∃ i, i + n ≤ b.size ∧ free_run b.allocated_flags i n ∧
      p = b.data + (i * sz) % SIZE_MOD ∧
      b' = { b with
        allocated_flags := memory_block.set_run b.allocated_flags i n 0
        used := (b.used + n) % SIZE_MOD } := by
  obtain ⟨hu, hs, hl⟩ := hwf
  unfold memory_block.allocate at h
  split at h
  · simp at h
  · split at h
    · simp at h
    · simp at h
    · rename_i i hff
      simp at h
      have := first_fit_inv b.allocated_flags n (by omega) _ 0 i (Nat.zero_le _) hff
      exact ⟨i, by omega, this.2, h.1.symm, h.2.symm⟩

theorem block_allocate_inv (sz : Nat) (b b' : memory_block) (n p : Nat) (hwf : b.wf)
    (hfit : b.size * sz < SIZE_MOD) (h : b.allocate sz n = some (some p, b')) :
    ∃ i, i + n ≤ b.size ∧ free_run b.allocated_flags i n ∧ p = b.data + i * sz ∧
      b' = { b with
        allocated_flags := memory_block.set_run b.allocated_flags i n 0
        used := (b.used + n) % SIZE_MOD } := by
  obtain ⟨i, hi, hfree, hp, hb'⟩ := block_allocate_inv_mod sz b b' n p hwf h
  exact ⟨i, hi, hfree, by rw [hp]; exact slot_addr_eq sz b i hfit (by omega), hb'⟩

theorem ite_eq_max (n G : Nat) : (if n > G then n else G) = max n G := by
  split
  · exact (max_eq_left (by omega)).symm
  · exact (max_eq_right (by omega)).symm

theorem not_belongs_of_separated (sz : Nat) (b c : memory_block) (ptr : Nat)
    (hb : b.belongs_to_block sz ptr = true)
    (h : c.data + c.size * sz ≤ b.data ∨ b.data + b.size * sz ≤ c.data) :
    c.belongs_to_block sz ptr = false := by
  have hb2 := belongs_in_range sz b ptr hb
  have hc2 := Nat.mod_le (c.size * sz) SIZE_MOD
  simp only [memory_block.belongs_to_block, Bool.and_eq_false_iff, decide_eq_false_iff_not]
  omega

/-! ## Counting occupied slots -/

theorem count_set_true (l : List Bool) (k : Nat) (h : l[k]? = some false) :
    (l.set k true).count true = l.count true + 1 := by
  obtain ⟨hk, hv⟩ := List.getElem?_eq_some_iff.mp h
  rw [List.count_set true true l k hk, hv]
  simp

theorem count_set_false (l : List Bool) (k : Nat) (h : l[k]? = some true) :
    (l.set k false).count true + 1 = l.count true := by
  obtain ⟨hk, hv⟩ := List.getElem?_eq_some_iff.mp h
  have hpos : 0 < l.count true := by
    apply List.count_pos_iff.mpr
    rw [← hv]; exact List.getElem_mem hk
  rw [List.count_set false true l k hk, hv]
  simp
  omega

theorem set_run_count (i : Nat) :
    ∀ (m j : Nat) (flags : List Bool), i + j + m ≤ flags.length → flags.length ≤ SIZE_MOD →
      free_run flags (i + j) m →
      (memory_block.set_run flags i m j).count true = flags.count true + m := by
  intro m
  induction m with
  | zero => intro j flags _ _ _; rfl
  | succ m ih =>
    intro j flags hb hM hfree
    unfold memory_block.set_run
    rw [Nat.mod_eq_of_lt (by omega)]
    rw [ih (j + 1) _ (by simp; omega) (by simpa using hM) ?_]
    · rw [count_set_true flags (i + j) (by simpa using hfree 0 (by omega))]
      omega
    · intro t ht
      rw [List.getElem?_set_ne (by omega)]
      have := hfree (t + 1) (by omega)
      have e : i + j + (t + 1) = i + (j + 1) + t := by omega
      rwa [e] at this

theorem clear_run_count (off : Nat) :
    ∀ (m j : Nat) (flags : List Bool), off + j + m ≤ flags.length →
      flags.length ≤ SIZE_MOD → (∀ t, t < m → flags[off + j + t]? = some true) →
      (memory_block.clear_run flags off m j).count true + m = flags.count true := by
  intro m
  induction m with
  | zero => intro j flags _ _ _; rfl
  | succ m ih =>
    intro j flags hb hM hall
    unfold memory_block.clear_run
    rw [Nat.mod_eq_of_lt (by omega), if_pos (by omega)]
    have h0 := count_set_false flags (off + j) (by simpa using hall 0 (by omega))
    have := ih (j + 1) (flags.set (off + j) false) (by simp; omega) (by simpa using hM)
      (by
        intro t ht
        rw [List.getElem?_set_ne (by omega)]
        have := hall (t + 1) (by omega)
        have e : off + j + (t + 1) = off + (j + 1) + t := by omega
        rwa [e] at this)
    omega

theorem separated_replace (sz : Nat) (pre post : List memory_block) (b b' : memory_block)
    (hd : b'.data = b.data) (hs : b'.size = b.size)
    (h : separated sz (pre ++ b :: post)) : separated sz (pre ++ b' :: post) := by
  unfold separated at h ⊢
  rw [List.pairwise_append, List.pairwise_cons] at h ⊢
  obtain ⟨h1, ⟨h2, h3⟩, h4⟩ := h
  refine ⟨h1, ⟨?_, h3⟩, ?_⟩
  · intro c hc
    rw [hd, hs]
    exact h2 c hc
  · intro c hc d hd'
    rcases List.mem_cons.mp hd' with rfl | hd'
    · rw [hd, hs]
      exact h4 c hc b (List.mem_cons_self _ _)
    · exact h4 c hc d (List.mem_cons_of_mem _ hd')

theorem wf_of_block_ok (b : memory_block) (h : block_ok b) : b.wf := by
  obtain ⟨hs, hl, hu⟩ := h
  have := List.count_le_length true b.allocated_flags
  exact ⟨by omega, hs, hl⟩

/-! ## The invariant is kept by every call of a client that keeps the contract -/

theorem mul_bound (i n size sz : Nat) (h : i + n ≤ size) : i * sz + n * sz ≤ size * sz := by
  have := Nat.mul_le_mul_right sz h
  rwa [Nat.add_mul] at this

theorem idx_le_of_addr_le (x y n sz : Nat) (hsz : 0 < sz)
    (h : x * sz + n * sz ≤ y * sz) : x + n ≤ y := by
  rw [← Nat.add_mul] at h
  exact Nat.le_of_mul_le_mul_right h hsz

/-- Two non-empty runs of one bitmap, one all occupied and one all free, do not meet. -/
theorem runs_apart (flags : List Bool) (i n j m : Nat) (hn : 0 < n) (hm : 0 < m)
    (hfree : free_run flags i n) (hocc : ∀ t, t < m → flags[j + t]? = some true) :
    j + m ≤ i ∨ i + n ≤ j := by
  by_contra hcon
  by_cases hij : i ≤ j
  · have hf := hfree (j - i) (by omega)
    have ho := hocc 0 hm
    have e1 : i + (j - i) = j := by omega
    rw [e1] at hf
    rw [Nat.add_zero, hf] at ho
    cases ho
  · have hf := hfree 0 hn
    have ho := hocc (i - j) (by omega)
    have e1 : j + (i - j) = i := by omega
    rw [e1] at ho
    rw [Nat.add_zero, ho] at hf
    cases hf

theorem inv_create (sz G fresh : Nat) (hG : G < SIZE_MOD) (hfit : G * sz < SIZE_MOD) :
    alloc_inv sz (⟨[memory_block.create fresh G]⟩, []) := by
  refine ⟨?_, ?_, ?_, List.Pairwise.nil, ?_⟩
  · intro b hb
    have e : b = memory_block.create fresh G := by simpa using hb
    subst e
    refine ⟨hG, by simp [memory_block.create], ?_⟩
    simp [memory_block.create, List.count_replicate]
  · simp [separated]
  · intro l hl; cases hl
  · intro b hb
    have e : b = memory_block.create fresh G := by simpa using hb
    subst e
    exact hfit

theorem inv_allocate_existing (sz : Nat) (s : custom_allocator × List (Nat × Nat))
    (hinv : alloc_inv sz s) (n p : Nat) (hn : 0 < n)
    (pre post : List memory_block) (b b' : memory_block) (a' : custom_allocator)
    (e : s.1.blocks = pre ++ b :: post) (e1 : a'.blocks = pre ++ b' :: post)
    (hal : b.allocate sz n = some (some p, b')) :
    alloc_inv sz (a', (p, n) :: s.2) := by
  obtain ⟨hI1, hI2, hI3, hI4, hI5⟩ := hinv
  have hbm : b ∈ s.1.blocks := by rw [e]; simp
  have hbok := hI1 b hbm
  obtain ⟨i, hi, hfree, hp, hb'⟩ :=
    block_allocate_inv sz b b' n p (wf_of_block_ok b hbok) (hI5 b hbm) hal
  obtain ⟨hs, hl, hu⟩ := hbok
  have hget := set_run_getElem? i n 0 b.allocated_flags (by omega) (by omega)
  have hcount := set_run_count i n 0 b.allocated_flags (by omega) (by omega)
    (by simpa using hfree)
  have hlen := set_run_length i n 0 b.allocated_flags
  have hbd : b'.data = b.data := by rw [hb']
  have hbs : b'.size = b.size := by rw [hb']
  have hbf : b'.allocated_flags = memory_block.set_run b.allocated_flags i n 0 := by rw [hb']
  have hbu : b'.used = (b.used + n) % SIZE_MOD := by rw [hb']
  have hsep := hI2
  unfold separated at hsep
  rw [e, List.pairwise_append, List.pairwise_cons] at hsep
  refine ⟨?_, ?_, ?_, ?_, ?_⟩
  rotate_right
  · intro c hc
    have hc0 : c ∈ pre ++ b' :: post := by rw [← e1]; exact hc
    rcases List.mem_append.mp hc0 with hc | hc
    · exact hI5 c (by rw [e]; exact List.mem_append_left _ hc)
    · rcases List.mem_cons.mp hc with rfl | hc
      · rw [hbs]; exact hI5 b hbm
      · exact hI5 c (by rw [e]; exact List.mem_append_right _ (List.mem_cons_of_mem _ hc))
  · intro c hc
    rw [e1] at hc
    rcases List.mem_append.mp hc with hc | hc
    · exact hI1 c (by rw [e]; exact List.mem_append_left _ hc)
    · rcases List.mem_cons.mp hc with rfl | hc
      · refine ⟨(by rw [hbs]; exact hs), (by rw [hbf, hlen, hbs]; exact hl), ?_⟩
        have hle := List.count_le_length true (memory_block.set_run b.allocated_flags i n 0)
        rw [hbu, hbf, hcount, Nat.mod_eq_of_lt (by omega), hu]
      · exact hI1 c (by rw [e]; exact List.mem_append_right _ (List.mem_cons_of_mem _ hc))
  · show separated sz a'.blocks
    rw [e1]
    exact separated_replace sz pre post b b' hbd hbs (by rw [← e]; exact hI2)
  · intro l hl'
    rcases List.mem_cons.mp hl' with rfl | hl'
    · refine ⟨hn, b', (by rw [e1]; simp), i, (by rw [hbd]; exact hp),
        (by rw [hbs]; exact hi), ?_⟩
      intro t ht
      rw [hbf, hget (i + t), if_pos (by omega)]
    · obtain ⟨hpos, c, hc, j, ej, hj, hall⟩ := hI3 l hl'
      rw [e] at hc
      rcases List.mem_append.mp hc with hc | hc
      · exact ⟨hpos, c, (by rw [e1]; exact List.mem_append_left _ hc), j, ej, hj, hall⟩
      · rcases List.mem_cons.mp hc with rfl | hc
        · refine ⟨hpos, b', (by rw [e1]; simp), j, (by rw [hbd]; exact ej),
            (by rw [hbs]; exact hj), ?_⟩
          intro t ht
          rw [hbf, hget (j + t)]
          split
          · rfl
          · exact hall t ht
        · have hc' : c ∈ a'.blocks := by
            rw [e1]; exact List.mem_append_right _ (List.mem_cons_of_mem _ hc)
          exact ⟨hpos, c, hc', j, ej, hj, hall⟩
  · rw [List.pairwise_cons]
    refine ⟨?_, hI4⟩
    intro l hl'
    obtain ⟨hpos, c, hc, j, ej, hj, hall⟩ := hI3 l hl'
    have hb1 := mul_bound i n b.size sz hi
    have hc1 := mul_bound j l.2 c.size sz hj
    have hdis : (c.data + c.size * sz ≤ b.data ∨ b.data + b.size * sz ≤ c.data) →
        apart sz (p, n) l := by
      intro h
      unfold apart
      simp only
      rcases h with h | h
      · right; omega
      · left; omega
    rw [e] at hc
    rcases List.mem_append.mp hc with hc | hc
    · exact hdis (hsep.2.2 c hc b (List.mem_cons_self _ _))
    · rcases List.mem_cons.mp hc with rfl | hc
      · unfold apart
        simp only
        rcases runs_apart c.allocated_flags i n j l.2 hn hpos hfree hall with h | h
        · right
          have := mul_bound j l.2 i sz h
          omega
        · left
          have := mul_bound i n j sz h
          omega
      · exact hdis ((hsep.2.1.1 c hc).symm)

theorem inv_allocate_new_block (sz G : Nat) (s : custom_allocator × List (Nat × Nat))
    (hinv : alloc_inv sz s) (n fresh : Nat) (hn : 0 < n) (hG : G < SIZE_MOD)
    (hfit : max n G * sz < SIZE_MOD)
    (hadm : admissible sz G s.1 n fresh) (a' : custom_allocator)
    (e1 : a'.blocks = s.1.blocks ++
      [⟨fresh, n, max n G, List.replicate n true ++ List.replicate (max n G - n) false⟩]) :
    alloc_inv sz (a', (fresh, n) :: s.2) := by
  obtain ⟨hI1, hI2, hI3, hI4, hI5⟩ := hinv
  obtain ⟨hnM, hadm⟩ := hadm
  have hN : n ≤ max n G := le_max_left _ _
  have hNM : max n G < SIZE_MOD := max_lt hnM hG
  refine ⟨?_, ?_, ?_, ?_, ?_⟩
  rotate_right
  · intro c hc
    have hc0 : c ∈ s.1.blocks ++ [⟨fresh, n, max n G,
        List.replicate n true ++ List.replicate (max n G - n) false⟩] := by
      rw [← e1]; exact hc
    rcases List.mem_append.mp hc0 with hc | hc
    · exact hI5 c hc
    · have ec : c = ⟨fresh, n, max n G,
          List.replicate n true ++ List.replicate (max n G - n) false⟩ := by simpa using hc
      subst ec
      exact hfit
  · intro c hc
    rw [e1] at hc
    rcases List.mem_append.mp hc with hc | hc
    · exact hI1 c hc
    · have ec : c = ⟨fresh, n, max n G,
          List.replicate n true ++ List.replicate (max n G - n) false⟩ := by simpa using hc
      subst ec
      refine ⟨hNM, ?_, ?_⟩
      · simp only [List.length_append, List.length_replicate]; omega
      · simp [List.count_replicate]
  · show separated sz a'.blocks
    unfold separated at hI2 ⊢
    rw [e1, List.pairwise_append]
    refine ⟨hI2, List.pairwise_singleton _ _, ?_⟩
    intro c hc d hd
    have ed : d = ⟨fresh, n, max n G,
        List.replicate n true ++ List.replicate (max n G - n) false⟩ := by simpa using hd
    subst ed
    exact hadm c hc
  · intro l hl'
    rcases List.mem_cons.mp hl' with rfl | hl'
    · refine ⟨hn, _, (by rw [e1]; exact List.mem_append_right _ (List.mem_singleton_self _)),
        0, (by simp), (by simp only []; omega), ?_⟩
      intro t ht
      simp only [Nat.zero_add]
      rw [List.getElem?_append_left (by simpa using ht)]
      exact List.getElem?_replicate_of_lt ht
    · obtain ⟨hpos, c, hc, j, ej, hj, hall⟩ := hI3 l hl'
      exact ⟨hpos, c, (by rw [e1]; exact List.mem_append_left _ hc), j, ej, hj, hall⟩
  · rw [List.pairwise_cons]
    refine ⟨?_, hI4⟩
    intro l hl'
    obtain ⟨hpos, c, hc, j, ej, hj, hall⟩ := hI3 l hl'
    have hc1 := mul_bound j l.2 c.size sz hj
    have hb1 : n * sz ≤ max n G * sz := Nat.mul_le_mul_right sz hN
    unfold apart
    simp only
    rcases hadm c hc with h | h
    · right; omega
    · left; omega

theorem inv_deallocate (sz : Nat) (s : custom_allocator × List (Nat × Nat))
    (hsz : 0 < sz) (hinv : alloc_inv sz s) (ptr n : Nat) (hn : 0 < n)
    (hlive : (ptr, n) ∈ s.2) :
    alloc_inv sz (custom_allocator.deallocate sz s.1 (some ptr) n, s.2.erase (ptr, n)) := by
  obtain ⟨hI1, hI2, hI3, hI4, hI5⟩ := hinv
  obtain ⟨_, b, hbm, i, hp, hi, hall⟩ := hI3 (ptr, n) hlive
  simp only at hp hi hall
  obtain ⟨pre, post, e⟩ := List.append_of_mem hbm
  obtain ⟨hs, hl, hu⟩ := hI1 b hbm
  have hsep := hI2
  unfold separated at hsep
  rw [e, List.pairwise_append, List.pairwise_cons] at hsep
  have hbel : b.belongs_to_block sz ptr = true := by
    rw [hp]; exact belongs_slot sz b i hsz (hI5 b hbm) (by omega)
  have hpre : ∀ c ∈ pre, c.belongs_to_block sz ptr = false := fun c hc =>
    not_belongs_of_separated sz b c ptr hbel (hsep.2.2 c hc b (List.mem_cons_self _ _))
  have hs1 : s.1 = { blocks := pre ++ b :: post } := by
    cases h : s.1; simp [h] at e; simp [e]
  have hd := deallocate_at sz ptr n pre post b hn hpre hbel
  rw [← hs1] at hd
  rw [hd]
  have hoff : (ptr - b.data) / sz = i := by rw [hp]; exact slot_offset sz b.data i hsz
  have hbf : (b.deallocate sz ptr n).allocated_flags
      = memory_block.clear_run b.allocated_flags i n 0 := by
    simp only [memory_block.deallocate, hoff]
  have hbu : (b.deallocate sz ptr n).used = (b.used + SIZE_MOD - n) % SIZE_MOD := rfl
  have hcount := clear_run_count i n 0 b.allocated_flags (by omega) (by omega)
    (by simpa using hall)
  have hlen := clear_run_length i n 0 b.allocated_flags
  have hget := fun x => clear_run_getElem?_of_le i n b.allocated_flags x (by omega)
  obtain ⟨l1, l2, _, el, eer⟩ := List.exists_erase_eq hlive
  have hpw := hI4
  rw [el, List.pairwise_append, List.pairwise_cons] at hpw
  have hap : ∀ l ∈ s.2.erase (ptr, n), apart sz l (ptr, n) ∨ apart sz (ptr, n) l := by
    intro l hl'
    rw [eer] at hl'
    rcases List.mem_append.mp hl' with h | h
    · exact Or.inl (hpw.2.2 l h (ptr, n) (List.mem_cons_self _ _))
    · exact Or.inr (hpw.2.1.1 l h)
  refine ⟨?_, ?_, ?_, List.Pairwise.erase _ hI4, ?_⟩
  rotate_right
  · intro c hc
    simp only at hc
    rcases List.mem_append.mp hc with hc | hc
    · exact hI5 c (by rw [e]; exact List.mem_append_left _ hc)
    · rcases List.mem_cons.mp hc with rfl | hc
      · exact hI5 b hbm
      · exact hI5 c (by rw [e]; exact List.mem_append_right _ (List.mem_cons_of_mem _ hc))
  · intro c hc
    simp only at hc
    rcases List.mem_append.mp hc with hc | hc
    · exact hI1 c (by rw [e]; exact List.mem_append_left _ hc)
    · rcases List.mem_cons.mp hc with rfl | hc
      · refine ⟨hs, (by rw [hbf, hlen]; exact hl), ?_⟩
        have hle := List.count_le_length true b.allocated_flags
        have e2 : b.used + SIZE_MOD - n
            = (memory_block.clear_run b.allocated_flags i n 0).count true + SIZE_MOD := by
          omega
        have hle2 := List.count_le_length true
          (memory_block.clear_run b.allocated_flags i n 0)
        rw [hbu, hbf, e2, Nat.add_mod_right, Nat.mod_eq_of_lt (by omega)]
      · exact hI1 c (by rw [e]; exact List.mem_append_right _ (List.mem_cons_of_mem _ hc))
  · show separated sz (pre ++ b.deallocate sz ptr n :: post)
    exact separated_replace sz pre post b _ rfl rfl (by rw [← e]; exact hI2)
  · intro l hl'
    have hl0 := List.mem_of_mem_erase hl'
    obtain ⟨hpos, c, hc, j, ej, hj, hallc⟩ := hI3 l hl0
    rw [e] at hc
    rcases List.mem_append.mp hc with hc | hc
    · exact ⟨hpos, c, List.mem_append_left _ hc, j, ej, hj, hallc⟩
    · rcases List.mem_cons.mp hc with rfl | hc
      · refine ⟨hpos, _, List.mem_append_right _ (List.mem_cons_self _ _), j, ej, hj, ?_⟩
        have hdis : j + l.2 ≤ i ∨ i + n ≤ j := by
          have hapl := hap l hl'
          unfold apart at hapl
          simp only at hapl
          rw [ej, hp] at hapl
          rcases hapl with (h | h) | (h | h)
          · left; exact idx_le_of_addr_le j i l.2 sz hsz (by omega)
          · right; exact idx_le_of_addr_le i j n sz hsz (by omega)
          · right; exact idx_le_of_addr_le i j n sz hsz (by omega)
          · left; exact idx_le_of_addr_le j i l.2 sz hsz (by omega)
        intro t ht
        rw [hbf, hget (j + t), if_neg (by omega)]
        exact hallc t ht
      · exact ⟨hpos, c, List.mem_append_right _ (List.mem_cons_of_mem _ hc), j, ej, hj,
          hallc⟩

theorem max_mul_lt (n G sz : Nat) (h1 : n * sz < SIZE_MOD) (h2 : G * sz < SIZE_MOD) :
    max n G * sz < SIZE_MOD := by
  rcases le_total n G with h | h
  · rw [max_eq_right h]; exact h2
  · rw [max_eq_left h]; exact h1

theorem inv_matched_step (sz G : Nat) (hsz : 0 < sz) (hG : G < SIZE_MOD)
    (hGs : G * sz < SIZE_MOD)
    (s s' : custom_allocator × List (Nat × Nat)) (o : op) (hinv : alloc_inv sz s)
    (ho : ∀ n fresh, o = op.allocate n fresh → n * sz < SIZE_MOD)
    (h : matched_step sz G s o = some s') : alloc_inv sz s' := by
  cases o with
  | allocate n fresh =>
    simp only [matched_step] at h
    split at h
    · rename_i hadm
      cases hal : custom_allocator.allocate sz G fresh s.1 n with
      | none => rw [hal] at h; simp at h
      | some ra =>
        obtain ⟨r, a'⟩ := ra
        rcases Nat.eq_zero_or_pos n with hn0 | hn
        · subst hn0
          have h0 : custom_allocator.allocate sz G fresh s.1 0 = some (none, s.1) := by
            simp [custom_allocator.allocate]
          rw [h0] at hal h
          simp at h
          subst h
          exact hinv
        · rcases allocate_inv sz G fresh s.1 n hn hadm.1 hG r a' hal with
            ⟨p, pre, b, post, b', hr, e, e1, halb⟩ | ⟨hr, e1⟩
          · subst hr
            rw [hal] at h
            simp at h
            subst h
            exact inv_allocate_existing sz s hinv n p hn pre post b b' a' e e1 halb
          · subst hr
            rw [hal] at h
            simp at h
            subst h
            rw [ite_eq_max] at e1
            exact inv_allocate_new_block sz G s hinv n fresh hn hG
              (max_mul_lt n G sz (ho n fresh rfl) hGs) hadm a' e1
    · simp at h
  | deallocate p n =>
    cases p with
    | none =>
      simp only [matched_step, custom_allocator.deallocate] at h
      cases h
      exact hinv
    | some ptr =>
      simp only [matched_step] at h
      split at h
      · rename_i hn0
        subst hn0
        simp [custom_allocator.deallocate] at h
        subst h
        exact hinv
      · rename_i hn0
        split at h
        · rename_i hlive
          cases h
          exact inv_deallocate sz s hsz hinv ptr n (Nat.pos_of_ne_zero hn0) hlive
        · simp at h
  | deallocate_all fresh =>
    simp only [matched_step] at h
    cases h
    have e : custom_allocator.deallocate_all G fresh s.1
        = ⟨[memory_block.create fresh G]⟩ := by
      simp [custom_allocator.deallocate_all, custom_allocator.expand_memory]
    rw [e]
    exact inv_create sz G fresh hG hGs

theorem inv_matched_run (sz G : Nat) (hsz : 0 < sz) (hG : G < SIZE_MOD)
    (hGs : G * sz < SIZE_MOD) :
    ∀ (ops : List op) (s s' : custom_allocator × List (Nat × Nat)), alloc_inv sz s →
      (∀ n fresh, op.allocate n fresh ∈ ops → n * sz < SIZE_MOD) →
      matched_run sz G s ops = some s' → alloc_inv sz s' := by
  intro ops
  induction ops with
  | nil =>
    intro s s' hinv _ h
    simp only [matched_run] at h
    cases h
    exact hinv
  | cons o os ih =>
    intro s s' hinv hops h
    simp only [matched_run] at h
    cases hst : matched_step sz G s o with
    | none => rw [hst] at h; simp at h
    | some s1 =>
      rw [hst] at h
      exact ih s1 s' (inv_matched_step sz G hsz hG hGs s s1 o hinv
        (fun n fresh e => hops n fresh (by rw [e]; exact List.mem_cons_self _ _)) hst)
        (fun n fresh hm => hops n fresh (List.mem_cons_of_mem _ hm)) h

/-- The two ways `custom_allocator::allocate` ends when the capacity check does not wrap
around: the first fitting block serves the request, or no block fits and a new block is
appended. -/
theorem allocate_cases (sz G fresh : Nat) (a : custom_allocator) (n : Nat)
    (hwf : a.wf) (hn : 0 < n) (hnM : n < SIZE_MOD) (hG : G < SIZE_MOD)
    (hov : no_overflow a n) :
    (∃ pre b post i, a.blocks = pre ++ b :: post ∧ least_run b n i ∧
      custom_allocator.allocate sz G fresh a n
        = some (some (b.data + (i * sz) % SIZE_MOD),
            { blocks := pre ++
                { b with
                  allocated_flags := memory_block.set_run b.allocated_flags i n 0
                  used := b.used + n } :: post })) ∨
    custom_allocator.allocate sz G fresh a n
      = some (some fresh,
          { blocks := a.blocks ++
              [⟨fresh, n, if n > G then n else G,
                List.replicate n true ++
                  List.replicate ((if n > G then n else G) - n) false⟩] }) := by
  rcases first_split (fun b => fits b n) a.blocks with hnone | ⟨pre, b, post, e, hpre, hb⟩
  · right
    have hfail : ∀ b ∈ a.blocks,
        b.can_allocate n = false ∨ b.allocate sz n = some (none, b) :=
      fun b hb => block_allocate_not_fits sz b n (hwf b hb) (hov b hb) (hnone b hb)
    exact allocate_new_block sz G fresh a n hn hnM hG (try_blocks_all_fail sz n a.blocks hfail)
  · left
    obtain ⟨i, hi⟩ := least_run_of_fits b n hb
    have hbm : b ∈ a.blocks := by rw [e]; simp
    have hfail : ∀ c ∈ pre,
        c.can_allocate n = false ∨ c.allocate sz n = some (none, c) := by
      intro c hc
      have hcm : c ∈ a.blocks := by rw [e]; simp [hc]
      exact block_allocate_not_fits sz c n (hwf c hcm) (hov c hcm) (hpre c hc)
    obtain ⟨hcan, hal⟩ := block_allocate_fits sz b n i (hwf b hbm) hb.1 hi
    have ht := try_blocks_first sz n _ b _ post hcan hal pre hfail
    rw [← e] at ht
    exact ⟨pre, b, post, i, e, hi, allocate_existing sz G fresh a n _ _ hn ht⟩

/-! ## The counting invariant is kept whatever the byte counts are -/

theorem live_in_range_cons (sz : Nat) (b : memory_block) (l : Nat × Nat)
    (live : List (Nat × Nat)) :
    live_in_range sz b (l :: live)
      = (if b.data ≤ l.1 ∧ l.1 < b.data + b.size * sz then l.2 else 0)
          + live_in_range sz b live := by
  unfold live_in_range
  by_cases h : b.data ≤ l.1 ∧ l.1 < b.data + b.size * sz
  · rw [List.filter_cons_of_pos (by simpa using h), if_pos h]
    simp
  · rw [List.filter_cons_of_neg (by simpa using h), if_neg h]
    simp

theorem live_in_range_append (sz : Nat) (b : memory_block) (l1 l2 : List (Nat × Nat)) :
    live_in_range sz b (l1 ++ l2) = live_in_range sz b l1 + live_in_range sz b l2 := by
  simp [live_in_range, List.filter_append]

theorem live_in_range_erase (sz : Nat) (b : memory_block) (l : Nat × Nat)
    (live : List (Nat × Nat)) (h : l ∈ live) :
    live_in_range sz b (live.erase l)
        + (if b.data ≤ l.1 ∧ l.1 < b.data + b.size * sz then l.2 else 0)
      = live_in_range sz b live := by
  obtain ⟨l1, l2, _, e, ee⟩ := List.exists_erase_eq h
  rw [ee, e, live_in_range_append, live_in_range_append, live_in_range_cons]
  generalize (if b.data ≤ l.1 ∧ l.1 < b.data + b.size * sz then l.2 else 0) = k
  omega

theorem live_in_range_congr (sz : Nat) (b b' : memory_block) (live : List (Nat × Nat))
    (hd : b'.data = b.data) (hs : b'.size = b.size) :
    live_in_range sz b' live = live_in_range sz b live := by
  unfold live_in_range
  rw [hd, hs]

theorem live_in_range_zero (sz : Nat) (b : memory_block) (live : List (Nat × Nat))
    (h : ∀ l ∈ live, ¬ (b.data ≤ l.1 ∧ l.1 < b.data + b.size * sz)) :
    live_in_range sz b live = 0 := by
  unfold live_in_range
  rw [List.filter_eq_nil_iff.mpr (fun l hl => by simpa using h l hl)]
  rfl

/-- The loop of `deallocate` clears at most `m` occupied slots. -/
theorem clear_run_count_ge (off : Nat) :
    ∀ (m j : Nat) (flags : List Bool),
      flags.count true ≤ (memory_block.clear_run flags off m j).count true + m := by
  intro m
  induction m with
  | zero => intro j flags; simp [memory_block.clear_run]
  | succ m ih =>
    intro j flags
    unfold memory_block.clear_run
    split
    · rename_i hlt
      have h1 := ih (j + 1) (flags.set ((off + j) % SIZE_MOD) false)
      have h2 : flags.count true
          ≤ (flags.set ((off + j) % SIZE_MOD) false).count true + 1 := by
        rw [List.count_set false true flags _ hlt]
        simp only [Bool.false_eq_true, if_false, Nat.add_zero, beq_iff_eq]
        split <;> omega
      omega
    · have := ih (j + 1) flags
      omega

/-- The method `deallocate` with a non-null address and a non-zero count either finds no
owner and changes nothing, or changes the first block that owns the address. -/
theorem deallocate_cases (sz : Nat) (a : custom_allocator) (ptr n : Nat) (hn : 0 < n) :
    custom_allocator.deallocate sz a (some ptr) n = a ∨
    ∃ pre b post, a.blocks = pre ++ b :: post ∧ b.belongs_to_block sz ptr = true ∧
      custom_allocator.deallocate sz a (some ptr) n
        = { blocks := pre ++ b.deallocate sz ptr n :: post } := by
  rcases first_split (fun b : memory_block => b.belongs_to_block sz ptr = true) a.blocks with
    h | ⟨pre, b, post, e, hpre, hb⟩
  · left
    unfold custom_allocator.deallocate
    simp only [find_block_none sz ptr a.blocks (fun b hb => by simpa using h b hb)]
    split <;> rfl
  · right
    refine ⟨pre, b, post, e, hb, ?_⟩
    have hd := deallocate_at sz ptr n pre post b hn (fun c hc => by simpa using hpre c hc) hb
    have ea : a = { blocks := pre ++ b :: post } := by
      cases a; simp at e; simp [e]
    rw [← hd, ← ea]

theorem count_create (sz G fresh : Nat) (hG : G < SIZE_MOD) :
    count_inv sz (⟨[memory_block.create fresh G]⟩, []) := by
  refine ⟨?_, by simp [separated], fun l hl => by cases hl⟩
  intro b hb
  have e : b = memory_block.create fresh G := by simpa using hb
  subst e
  refine ⟨hG, by simp [memory_block.create], ?_, ?_⟩
  · simp [memory_block.create]
  · simp [live_in_range]

theorem count_allocate_existing (sz : Nat) (hsz : 0 < sz)
    (s : custom_allocator × List (Nat × Nat))
    (hinv : count_inv sz s) (n p : Nat) (hn : 0 < n)
    (pre post : List memory_block) (b b' : memory_block) (a' : custom_allocator)
    (e : s.1.blocks = pre ++ b :: post) (e1 : a'.blocks = pre ++ b' :: post)
    (hal : b.allocate sz n = some (some p, b')) :
    count_inv sz (a', (p, n) :: s.2) := by
  obtain ⟨hC1, hC2, hC3⟩ := hinv
  have hbm : b ∈ s.1.blocks := by rw [e]; simp
  obtain ⟨hs, hl, hu, hlr⟩ := hC1 b hbm
  have hle := List.count_le_length true b.allocated_flags
  have hwf : b.wf := ⟨by omega, hs, hl⟩
  obtain ⟨i, hi, hfree, hp, hb'⟩ := block_allocate_inv_mod sz b b' n p hwf hal
  have hcount := set_run_count i n 0 b.allocated_flags (by omega) (by omega)
    (by simpa using hfree)
  have hlen := set_run_length i n 0 b.allocated_flags
  have hle2 := List.count_le_length true (memory_block.set_run b.allocated_flags i n 0)
  have hbd : b'.data = b.data := by rw [hb']
  have hbs : b'.size = b.size := by rw [hb']
  have hbf : b'.allocated_flags = memory_block.set_run b.allocated_flags i n 0 := by rw [hb']
  have hbu : b'.used = b.used + n := by
    rw [hb']
    show (b.used + n) % SIZE_MOD = b.used + n
    exact Nat.mod_eq_of_lt (by omega)
  have hpr := slot_in_range sz b i hsz (by omega)
  rw [← hp] at hpr
  have hsep := hC2
  unfold separated at hsep
  rw [e, List.pairwise_append, List.pairwise_cons] at hsep
  have hout : ∀ c : memory_block,
      (c.data + c.size * sz ≤ b.data ∨ b.data + b.size * sz ≤ c.data) →
      live_in_range sz c ((p, n) :: s.2) = live_in_range sz c s.2 := by
    intro c h
    rw [live_in_range_cons, if_neg (by simp only []; omega), Nat.zero_add]
  have hold : ∀ c ∈ s.1.blocks,
      (c.data + c.size * sz ≤ b.data ∨ b.data + b.size * sz ≤ c.data) →
      c.size < SIZE_MOD ∧ c.allocated_flags.length = c.size ∧
        c.used ≤ c.allocated_flags.count true ∧
        live_in_range sz c ((p, n) :: s.2) ≤ c.used := by
    intro c hc h
    obtain ⟨h1, h2, h3, h4⟩ := hC1 c hc
    exact ⟨h1, h2, h3, by rw [hout c h]; exact h4⟩
  refine ⟨?_, ?_, ?_⟩
  · intro c hc
    have hc0 : c ∈ pre ++ b' :: post := by rw [← e1]; exact hc
    rcases List.mem_append.mp hc0 with hc | hc
    · exact hold c (by rw [e]; exact List.mem_append_left _ hc)
        (hsep.2.2 c hc b (List.mem_cons_self _ _))
    · rcases List.mem_cons.mp hc with hcb | hc
      · rw [hcb]
        refine ⟨by rw [hbs]; exact hs, by rw [hbf, hlen, hbs]; exact hl,
          by rw [hbu, hbf, hcount]; omega, ?_⟩
        rw [live_in_range_cons, live_in_range_congr sz b b' s.2 hbd hbs, hbu]
        split <;> omega
      · exact hold c (by rw [e]; exact List.mem_append_right _ (List.mem_cons_of_mem _ hc))
          ((hsep.2.1.1 c hc).symm)
  · show separated sz a'.blocks
    rw [e1]
    exact separated_replace sz pre post b b' hbd hbs (by rw [← e]; exact hC2)
  · intro l hl'
    rcases List.mem_cons.mp hl' with rfl | hl'
    · exact ⟨b', by rw [e1]; simp, by rw [hbd]; exact hpr.1, by rw [hbd, hbs]; exact hpr.2⟩
    · obtain ⟨c, hc, h1, h2⟩ := hC3 l hl'
      rw [e] at hc
      rcases List.mem_append.mp hc with hc | hc
      · exact ⟨c, by rw [e1]; exact List.mem_append_left _ hc, h1, h2⟩
      · rcases List.mem_cons.mp hc with rfl | hc
        · exact ⟨b', by rw [e1]; simp, by rw [hbd]; exact h1, by rw [hbd, hbs]; exact h2⟩
        · exact ⟨c, by rw [e1]; exact List.mem_append_right _ (List.mem_cons_of_mem _ hc),
            h1, h2⟩

theorem count_allocate_new_block (sz G : Nat) (hsz : 0 < sz)
    (s : custom_allocator × List (Nat × Nat))
    (hinv : count_inv sz s) (n fresh : Nat) (hn : 0 < n) (hG : G < SIZE_MOD)
    (hadm : admissible sz G s.1 n fresh) (a' : custom_allocator)
    (e1 : a'.blocks = s.1.blocks ++
      [⟨fresh, n, max n G, List.replicate n true ++ List.replicate (max n G - n) false⟩]) :
    count_inv sz (a', (fresh, n) :: s.2) := by
  obtain ⟨hC1, hC2, hC3⟩ := hinv
  obtain ⟨hnM, hadm⟩ := hadm
  have hN : n ≤ max n G := le_max_left _ _
  have hNM : max n G < SIZE_MOD := max_lt hnM hG
  have hNs : sz ≤ max n G * sz := Nat.le_mul_of_pos_left sz (by omega)
  refine ⟨?_, ?_, ?_⟩
  · intro c hc
    have hc0 : c ∈ s.1.blocks ++ [⟨fresh, n, max n G,
        List.replicate n true ++ List.replicate (max n G - n) false⟩] := by
      rw [← e1]; exact hc
    rcases List.mem_append.mp hc0 with hc | hc
    · obtain ⟨h1, h2, h3, h4⟩ := hC1 c hc
      refine ⟨h1, h2, h3, ?_⟩
      rw [live_in_range_cons, if_neg (by
        have := hadm c hc
        simp only []
        omega), Nat.zero_add]
      exact h4
    · have ec : c = ⟨fresh, n, max n G,
          List.replicate n true ++ List.replicate (max n G - n) false⟩ := by simpa using hc
      subst ec
      refine ⟨hNM, ?_, ?_, ?_⟩
      · simp only [List.length_append, List.length_replicate]; omega
      · simp [List.count_replicate]
      · rw [live_in_range_cons, live_in_range_zero]
        · simp only []
          split <;> omega
        · intro l hl
          obtain ⟨d, hd, h1, h2⟩ := hC3 l hl
          have := hadm d hd
          simp only []
          omega
  · show separated sz a'.blocks
    unfold separated at hC2 ⊢
    rw [e1, List.pairwise_append]
    refine ⟨hC2, List.pairwise_singleton _ _, ?_⟩
    intro c hc d hd
    have ed : d = ⟨fresh, n, max n G,
        List.replicate n true ++ List.replicate (max n G - n) false⟩ := by simpa using hd
    subst ed
    exact hadm c hc
  · intro l hl'
    rcases List.mem_cons.mp hl' with rfl | hl'
    · refine ⟨_, (by rw [e1]; exact List.mem_append_right _ (List.mem_singleton_self _)),
        ?_, ?_⟩
      · exact le_refl _
      · simp only []
        omega
    · obtain ⟨c, hc, h1, h2⟩ := hC3 l hl'
      exact ⟨c, by rw [e1]; exact List.mem_append_left _ hc, h1, h2⟩

theorem count_deallocate (sz : Nat) (s : custom_allocator × List (Nat × Nat))
    (hinv : count_inv sz s) (ptr n : Nat) (hn : 0 < n) (hlive : (ptr, n) ∈ s.2) :
    count_inv sz (custom_allocator.deallocate sz s.1 (some ptr) n, s.2.erase (ptr, n)) := by
  obtain ⟨hC1, hC2, hC3⟩ := hinv
  have hmono : ∀ c : memory_block,
      live_in_range sz c (s.2.erase (ptr, n)) ≤ live_in_range sz c s.2 := by
    intro c
    have := live_in_range_erase sz c (ptr, n) s.2 hlive
    omega
  rcases deallocate_cases sz s.1 ptr n hn with hd | ⟨pre, b, post, e, hb, hd⟩
  · rw [hd]
    refine ⟨fun c hc => ?_, hC2, fun l hl => hC3 l (List.mem_of_mem_erase hl)⟩
    obtain ⟨h1, h2, h3, h4⟩ := hC1 c hc
    exact ⟨h1, h2, h3, le_trans (hmono c) h4⟩
  · rw [hd]
    have hbm : b ∈ s.1.blocks := by rw [e]; simp
    obtain ⟨hs, hl, hu, hlr⟩ := hC1 b hbm
    have hr := belongs_in_range sz b ptr hb
    have her := live_in_range_erase sz b (ptr, n) s.2 hlive
    rw [if_pos hr] at her
    simp only at her
    have hle := List.count_le_length true b.allocated_flags
    have hcg := clear_run_count_ge ((ptr - b.data) / sz) n 0 b.allocated_flags
    have hlen := clear_run_length ((ptr - b.data) / sz) n 0 b.allocated_flags
    have hbu : (b.deallocate sz ptr n).used = b.used - n := by
      show (b.used + SIZE_MOD - n) % SIZE_MOD = b.used - n
      have e2 : b.used + SIZE_MOD - n = (b.used - n) + SIZE_MOD := by omega
      rw [e2, Nat.add_mod_right, Nat.mod_eq_of_lt (by omega)]
    have hbf : (b.deallocate sz ptr n).allocated_flags
        = memory_block.clear_run b.allocated_flags ((ptr - b.data) / sz) n 0 := rfl
    refine ⟨?_, ?_, ?_⟩
    · intro c hc
      simp only at hc
      have hother : ∀ d ∈ s.1.blocks,
          d.size < SIZE_MOD ∧ d.allocated_flags.length = d.size ∧
            d.used ≤ d.allocated_flags.count true ∧
            live_in_range sz d (s.2.erase (ptr, n)) ≤ d.used := by
        intro d hd'
        obtain ⟨h1, h2, h3, h4⟩ := hC1 d hd'
        exact ⟨h1, h2, h3, le_trans (hmono d) h4⟩
      rcases List.mem_append.mp hc with hc | hc
      · exact hother c (by rw [e]; exact List.mem_append_left _ hc)
      · rcases List.mem_cons.mp hc with hcb | hc
        · rw [hcb]
          refine ⟨hs, by rw [hbf, hlen]; exact hl, by rw [hbu, hbf]; omega, ?_⟩
          show live_in_range sz (b.deallocate sz ptr n) (s.2.erase (ptr, n))
            ≤ (b.deallocate sz ptr n).used
          rw [live_in_range_congr sz b (b.deallocate sz ptr n) _ rfl rfl, hbu]
          omega
        · exact hother c (by rw [e]; exact List.mem_append_right _ (List.mem_cons_of_mem _ hc))
    · show separated sz (pre ++ b.deallocate sz ptr n :: post)
      exact separated_replace sz pre post b _ rfl rfl (by rw [← e]; exact hC2)
    · intro l hl'
      obtain ⟨c, hc, h1, h2⟩ := hC3 l (List.mem_of_mem_erase hl')
      rw [e] at hc
      rcases List.mem_append.mp hc with hc | hc
      · exact ⟨c, List.mem_append_left _ hc, h1, h2⟩
      · rcases List.mem_cons.mp hc with rfl | hc
        · exact ⟨_, List.mem_append_right _ (List.mem_cons_self _ _), h1, h2⟩
        · exact ⟨c, List.mem_append_right _ (List.mem_cons_of_mem _ hc), h1, h2⟩

theorem count_matched_step (sz G : Nat) (hsz : 0 < sz) (hG : G < SIZE_MOD)
    (s s' : custom_allocator × List (Nat × Nat)) (o : op) (hinv : count_inv sz s)
    (h : matched_step sz G s o = some s') : count_inv sz s' := by
  cases o with
  | allocate n fresh =>
    simp only [matched_step] at h
    split at h
    · rename_i hadm
      cases hal : custom_allocator.allocate sz G fresh s.1 n with
      | none => rw [hal] at h; simp at h
      | some ra =>
        obtain ⟨r, a'⟩ := ra
        rcases Nat.eq_zero_or_pos n with hn0 | hn
        · subst hn0
          have h0 : custom_allocator.allocate sz G fresh s.1 0 = some (none, s.1) := by
            simp [custom_allocator.allocate]
          rw [h0] at hal h
          simp at h
          subst h
          exact hinv
        · rcases allocate_inv sz G fresh s.1 n hn hadm.1 hG r a' hal with
            ⟨p, pre, b, post, b', hr, e, e1, halb⟩ | ⟨hr, e1⟩
          · subst hr
            rw [hal] at h
            simp at h
            subst h
            exact count_allocate_existing sz hsz s hinv n p hn pre post b b' a' e e1 halb
          · subst hr
            rw [hal] at h
            simp at h
            subst h
            rw [ite_eq_max] at e1
            exact count_allocate_new_block sz G hsz s hinv n fresh hn hG hadm a' e1
    · simp at h
  | deallocate p n =>
    cases p with
    | none =>
      simp only [matched_step, custom_allocator.deallocate] at h
      cases h
      exact hinv
    | some ptr =>
      simp only [matched_step] at h
      split at h
      · rename_i hn0
        subst hn0
        simp [custom_allocator.deallocate] at h
        subst h
        exact hinv
      · rename_i hn0
        split at h
        · rename_i hlive
          cases h
          exact count_deallocate sz s hinv ptr n (Nat.pos_of_ne_zero hn0) hlive
        · simp at h
  | deallocate_all fresh =>
    simp only [matched_step] at h
    cases h
    have e : custom_allocator.deallocate_all G fresh s.1
        = ⟨[memory_block.create fresh G]⟩ := by
      simp [custom_allocator.deallocate_all, custom_allocator.expand_memory]
    rw [e]
    exact count_create sz G fresh hG

theorem count_matched_run (sz G : Nat) (hsz : 0 < sz) (hG : G < SIZE_MOD) :
    ∀ (ops : List op) (s s' : custom_allocator × List (Nat × Nat)), count_inv sz s →
      matched_run sz G s ops = some s' → count_inv sz s' := by
  intro ops
  induction ops with
  | nil =>
    intro s s' hinv h
    simp only [matched_run] at h
    cases h
    exact hinv
  | cons o os ih =>
    intro s s' hinv h
    simp only [matched_run] at h
    cases hst : matched_step sz G s o with
    | none => rw [hst] at h; simp at h
    | some s1 =>
      rw [hst] at h
      exact ih s1 s' (count_matched_step sz G hsz hG s s1 o hinv hst) h

/-! ## Claims -/

/-- C1: `memory_block::allocate` is first-fit.  For a block and `n` with
`used + n <= size`: if some start index `i` with `i + n <= size` has slots `[i, i + n)`
all free, the call returns the address of slot `i` for the least such `i` (`data` plus the
`size_t` product `i * sizeof(T)`), sets exactly
the bits `[i, i + n)`, leaves every other bit and the fields `data`, `size` unchanged and
increases `used` by `n`; if there is no such index it returns `nullptr` and leaves the
block unchanged. -/
theorem block_allocate_first_fit (sz : Nat) (b : memory_block) (n : Nat) (hwf : b.wf)
    (hcap : b.used + n ≤ b.size) :
    ((∃ i, i + n ≤ b.size ∧ free_run b.allocated_flags i n) →
      ∃ i b', (i + n ≤ b.size ∧ free_run b.allocated_flags i n) ∧
        (∀ x, x < i → ¬ (x + n ≤ b.size ∧ free_run b.allocated_flags x n)) ∧
        b.allocate sz n = some (some (b.data + (i * sz) % SIZE_MOD), b') ∧
        b'.data = b.data ∧ b'.size = b.size ∧ b'.used = b.used + n ∧
        b'.allocated_flags.length = b.allocated_flags.length ∧
        ∀ x, b'.allocated_flags[x]? =
          if i ≤ x ∧ x < i + n then some true else b.allocated_flags[x]?) ∧
    ((¬ ∃ i, i + n ≤ b.size ∧ free_run b.allocated_flags i n) →
      b.allocate sz n = some (none, b)) := by
  constructor
  · intro hex
    classical
    have hP := Nat.find_spec hex
    have hmin : ∀ x, x < Nat.find hex →
        ¬ (x + n ≤ b.size ∧ free_run b.allocated_flags x n) :=
      fun x hx => Nat.find_min hex hx
    refine ⟨Nat.find hex, _, hP, hmin,
      block_allocate_found sz b n (Nat.find hex) hwf hcap hP.1 hP.2
        (fun x hx hf => hmin x hx ⟨by omega, hf⟩), rfl, rfl, rfl, ?_, ?_⟩
    · exact set_run_length _ _ _ _
    · intro x
      have hl := hwf.2.2
      have hs := hwf.2.1
      have := set_run_getElem? (Nat.find hex) n 0 b.allocated_flags (by omega) (by omega) x
      simpa using this
  · intro hno
    exact block_allocate_not_found sz b n hwf hcap (fun x hx hf => hno ⟨x, hx, hf⟩)

/-- Witness for C1: a block of four slots with slot 0 occupied and a request of two. -/
theorem block_allocate_first_fit_witness :
    (⟨100, 1, 4, [true, false, false, false]⟩ : memory_block).wf ∧
    ((∃ i, i + 2 ≤ 4 ∧ free_run [true, false, false, false] i 2) →
      ∃ i b', (i + 2 ≤ 4 ∧ free_run [true, false, false, false] i 2) ∧
        (∀ x, x < i → ¬ (x + 2 ≤ 4 ∧ free_run [true, false, false, false] x 2)) ∧
        memory_block.allocate 8 ⟨100, 1, 4, [true, false, false, false]⟩ 2
          = some (some (100 + (i * 8) % SIZE_MOD), b') ∧
        b'.data = 100 ∧ b'.size = 4 ∧ b'.used = 1 + 2 ∧
        b'.allocated_flags.length = [true, false, false, false].length ∧
        ∀ x, b'.allocated_flags[x]? =
          if i ≤ x ∧ x < i + 2 then some true else [true, false, false, false][x]?) ∧
    ((¬ ∃ i, i + 2 ≤ 4 ∧ free_run [true, false, false, false] i 2) →
      memory_block.allocate 8 ⟨100, 1, 4, [true, false, false, false]⟩ 2
        = some (none, ⟨100, 1, 4, [true, false, false, false]⟩)) :=
  ⟨by decide,
   block_allocate_first_fit 8 ⟨100, 1, 4, [true, false, false, false]⟩ 2
     (by decide) (by decide)⟩

/-- C2 (amended): `custom_allocator::allocate` succeeds for a non-zero request whenever
the capacity check `used + n` does not wrap around in any block.  For every allocator with
well-formed blocks and every `0 < n < 2 ^ 64` with `used + n < 2 ^ 64` in each block, the
call returns a non-null address that is slot `i` of a block `b` of the resulting allocator
with `i + n <= size`. -/
theorem allocate_succeeds (sz G fresh : Nat) (a : custom_allocator) (n : Nat)
    (hwf : a.wf) (hn : 0 < n) (hnM : n < SIZE_MOD) (hG : G < SIZE_MOD)
    (hov : no_overflow a n) :
    ∃ p a', custom_allocator.allocate sz G fresh a n = some (some p, a') ∧
      ∃ b ∈ a'.blocks, ∃ i, p = b.data + (i * sz) % SIZE_MOD ∧ i + n ≤ b.size := by
  rcases allocate_cases sz G fresh a n hwf hn hnM hG hov with
    ⟨pre, b, post, i, _, hi, h⟩ | h
  · exact ⟨_, _, h, _, List.mem_append_right _ (List.mem_cons_self _ _), i, rfl, hi.1⟩
  · refine ⟨fresh, _, h, _, List.mem_append_right _ (List.mem_singleton_self _), 0,
      by simp, ?_⟩
    simp only []
    split <;> omega

/-- Witness for C2: a fresh allocator with `BlockSize = 3` and a request of two slots. -/
theorem allocate_succeeds_witness :
    ∃ p a', custom_allocator.allocate 8 3 200 (custom_allocator.create 3 100) 2
        = some (some p, a') ∧
      ∃ b ∈ a'.blocks, ∃ i, p = b.data + (i * 8) % SIZE_MOD ∧ i + 2 ≤ b.size :=
  allocate_succeeds 8 3 200 (custom_allocator.create 3 100) 2 (by decide) (by decide)
    (by decide) (by decide) (by decide)

/-- C2 fails as stated.  In a block of three free slots whose used-count is `2 ^ 64 - 1`
the check `used + 4 <= size` wraps around and passes, and the scan for four slots reads
`allocated_flags[3]`: no address is returned.  The same happens after `allocate(1)` on a
fresh allocator for the request `2 ^ 64 - 1`. -/
theorem allocate_succeeds_counterexample :
    (¬ ∃ p a', custom_allocator.allocate 8 3 200
        ⟨[⟨100, 2 ^ 64 - 1, 3, [false, false, false]⟩]⟩ 4 = some (some p, a')) ∧
    custom_allocator.allocate 8 3 200 (custom_allocator.create 3 100) 1
      = some (some 100, ⟨[⟨100, 1, 3, [true, false, false]⟩]⟩) ∧
    (¬ ∃ p a', custom_allocator.allocate 8 3 200
        ⟨[⟨100, 1, 3, [true, false, false]⟩]⟩ (2 ^ 64 - 1) = some (some p, a')) := by
  have h1 : custom_allocator.allocate 8 3 200
      ⟨[⟨100, 2 ^ 64 - 1, 3, [false, false, false]⟩]⟩ 4 = none := by decide
  have h2 : custom_allocator.allocate 8 3 200
      ⟨[⟨100, 1, 3, [true, false, false]⟩]⟩ (2 ^ 64 - 1) = none := by decide
  refine ⟨?_, by decide, ?_⟩
  · rintro ⟨p, a', h⟩; rw [h1] at h; cases h
  · rintro ⟨p, a', h⟩; rw [h2] at h; cases h

/-- C4: growth is append-only and of size `max(n, BlockSize)`.  If every existing block
is skipped by `can_allocate(n)` or answers `nullptr` to `allocate(n)`, then
`custom_allocator::allocate(n)` keeps the old blocks as they are, appends one block of
`max(n, BlockSize)` slots whose slots `[0, n)` are occupied, whose other slots are free
and whose used-count is `n`, and returns the address of slot 0 of that block. -/
theorem allocate_grows (sz G fresh : Nat) (a : custom_allocator) (n : Nat)
    (hn : 0 < n) (hnM : n < SIZE_MOD) (hG : G < SIZE_MOD)
    (hfail : ∀ b ∈ a.blocks,
      b.can_allocate n = false ∨ b.allocate sz n = some (none, b)) :
    custom_allocator.allocate sz G fresh a n
      = some (some (fresh + 0 * sz),
          { blocks := a.blocks ++
              [⟨fresh, n, max n G,
                List.replicate n true ++ List.replicate (max n G - n) false⟩] }) := by
  have e : (if n > G then n else G) = max n G := by
    split
    · exact (max_eq_left (by omega)).symm
    · exact (max_eq_right (by omega)).symm
  rw [allocate_new_block sz G fresh a n hn hnM hG (try_blocks_all_fail sz n a.blocks hfail), e]
  simp

/-- Witness for C4: with `BlockSize = 3`, `allocate(2)` on a fresh allocator and then
`allocate(2)` again leaves two blocks of three slots, and the second result is slot 0 of
the second block. -/
theorem allocate_grows_witness :
    custom_allocator.allocate 8 3 200 (custom_allocator.create 3 100) 2
      = some (some 100, ⟨[⟨100, 2, 3, [true, true, false]⟩]⟩) ∧
    custom_allocator.allocate 8 3 200 ⟨[⟨100, 2, 3, [true, true, false]⟩]⟩ 2
      = some (some (200 + 0 * 8),
          { blocks := [⟨100, 2, 3, [true, true, false]⟩] ++
              [⟨200, 2, max 2 3,
                List.replicate 2 true ++ List.replicate (max 2 3 - 2) false⟩] }) :=
  ⟨by decide,
   allocate_grows 8 3 200 ⟨[⟨100, 2, 3, [true, true, false]⟩]⟩ 2 (by decide) (by decide)
     (by decide) (by decide)⟩

/-- C5 (amended): block routing is first-success in creation order when the capacity
check does not wrap around.  If the blocks are `pre ++ b :: post`, the blocks of `pre`
and `b` are well formed, `used + n < 2 ^ 64` in every block of `pre`, no block of `pre`
fits the request and `b` fits it, then `allocate(n)` returns the address of the least
free run of `b`, marks that run in `b`, adds `n` to its used-count, and leaves the number
of blocks and every other block unchanged. -/
theorem allocate_routes_first (sz G fresh : Nat) (pre post : List memory_block)
    (b : memory_block) (n : Nat) (hn : 0 < n)
    (hwf : ∀ c ∈ pre, c.wf) (hwfb : b.wf)
    (hov : ∀ c ∈ pre, c.used + n < SIZE_MOD)
    (hpre : ∀ c ∈ pre, ¬ fits c n) (hb : fits b n) :
    ∃ i, least_run b n i ∧
      custom_allocator.allocate sz G fresh { blocks := pre ++ b :: post } n
        = some (some (b.data + (i * sz) % SIZE_MOD),
            { blocks := pre ++
                { b with
                  allocated_flags := memory_block.set_run b.allocated_flags i n 0
                  used := b.used + n } :: post }) := by
  obtain ⟨i, hi⟩ := least_run_of_fits b n hb
  have hfail : ∀ c ∈ pre,
      c.can_allocate n = false ∨ c.allocate sz n = some (none, c) :=
    fun c hc => block_allocate_not_fits sz c n (hwf c hc) (hov c hc) (hpre c hc)
  obtain ⟨hcan, hal⟩ := block_allocate_fits sz b n i hwfb hb.1 hi
  exact ⟨i, hi, allocate_existing sz G fresh _ n _ _ hn
    (try_blocks_first sz n _ b _ post hcan hal pre hfail)⟩

/-- Witness for C5: the first block is full, the second one has a free run of two. -/
theorem allocate_routes_first_witness :
    ∃ i, least_run ⟨200, 1, 3, [true, false, false]⟩ 2 i ∧
      custom_allocator.allocate 8 3 300
          { blocks := [⟨100, 3, 3, [true, true, true]⟩] ++
              ⟨200, 1, 3, [true, false, false]⟩ :: [] } 2
        = some (some (200 + (i * 8) % SIZE_MOD),
            { blocks := [⟨100, 3, 3, [true, true, true]⟩] ++
                { (⟨200, 1, 3, [true, false, false]⟩ : memory_block) with
                  allocated_flags := memory_block.set_run [true, false, false] i 2 0
                  used := 1 + 2 } :: [] }) :=
  allocate_routes_first 8 3 300 [⟨100, 3, 3, [true, true, true]⟩] []
    ⟨200, 1, 3, [true, false, false]⟩ 2 (by decide) (by decide) (by decide) (by decide)
    (by
      intro c hc
      have e : c = ⟨100, 3, 3, [true, true, true]⟩ := by simpa using hc
      subst e
      intro h
      exact absurd h.1 (by decide))
    ⟨by decide, 1, by decide, by decide⟩

/-- C5 fails as stated.  The first block has three free slots and used-count
`2 ^ 64 - 1`, so it does not satisfy `used + 1 <= size`; the second block does and has a
free slot.  The check wraps around in the first block and `allocate(1)` returns slot 0 of
the first block and changes that block.  For a request of four slots the first block
passes the wrapped check although it has no run of four slots, the scan reads
`allocated_flags[3]`, and the slot of the second block, which fits, is not returned. -/
theorem allocate_routes_first_counterexample :
    (¬ fits ⟨100, 2 ^ 64 - 1, 3, [false, false, false]⟩ 1 ∧
      fits ⟨200, 0, 3, [false, false, false]⟩ 1 ∧
      custom_allocator.allocate 8 3 300
          ⟨[⟨100, 2 ^ 64 - 1, 3, [false, false, false]⟩,
            ⟨200, 0, 3, [false, false, false]⟩]⟩ 1
        = some (some 100,
            ⟨[⟨100, 0, 3, [true, false, false]⟩,
              ⟨200, 0, 3, [false, false, false]⟩]⟩)) ∧
    ((¬ ∃ i, i + 4 ≤ 3 ∧ free_run [false, false, false] i 4) ∧
      fits ⟨200, 0, 4, [false, false, false, false]⟩ 4 ∧
      custom_allocator.allocate 8 3 300
          ⟨[⟨100, 2 ^ 64 - 1, 3, [false, false, false]⟩,
            ⟨200, 0, 4, [false, false, false, false]⟩]⟩ 4
        = none) := by
  refine ⟨⟨fun h => absurd h.1 (by decide), ⟨by decide, 0, by decide, by decide⟩,
    by decide⟩, ⟨?_, ⟨by decide, 0, by decide, by decide⟩, by decide⟩⟩
  rintro ⟨i, hi, _⟩
  omega

/-- C7: degenerate requests are no-ops.  `allocate(0)` returns `nullptr` and leaves the
allocator unchanged; `deallocate(nullptr, n)` and `deallocate(p, 0)` leave it unchanged. -/
theorem degenerate_requests_noop :
    (∀ (sz G fresh : Nat) (a : custom_allocator),
      custom_allocator.allocate sz G fresh a 0 = some (none, a)) ∧
    (∀ (sz : Nat) (a : custom_allocator) (n : Nat),
      custom_allocator.deallocate sz a none n = a) ∧
    (∀ (sz : Nat) (a : custom_allocator) (p : Option Nat),
      custom_allocator.deallocate sz a p 0 = a) := by
  refine ⟨fun sz G fresh a => by simp [custom_allocator.allocate],
    fun sz a n => rfl, fun sz a p => ?_⟩
  cases p <;> simp [custom_allocator.deallocate]

/-- C10 (amended): `deallocate_all` followed by `allocate(BlockSize)` for a non-zero
`BlockSize`.  After `deallocate_all` the allocator has exactly one block, of `BlockSize`
slots, all free, with used-count 0; `allocate(BlockSize)` then returns slot 0 of that
block and the allocator still has exactly one block, now fully occupied. -/
theorem reset_then_allocate (sz G fresh fresh2 : Nat) (a : custom_allocator)
    (hG0 : 0 < G) (hG : G < SIZE_MOD) :
    custom_allocator.deallocate_all G fresh a
      = ⟨[⟨fresh, 0, G, List.replicate G false⟩]⟩ ∧
    custom_allocator.allocate sz G fresh2 (custom_allocator.deallocate_all G fresh a) G
      = some (some (fresh + 0 * sz), ⟨[⟨fresh, G, G, List.replicate G true⟩]⟩) := by
  have e : custom_allocator.deallocate_all G fresh a
      = ⟨[⟨fresh, 0, G, List.replicate G false⟩]⟩ := by
    simp [custom_allocator.deallocate_all, custom_allocator.expand_memory,
      memory_block.create]
  refine ⟨e, ?_⟩
  rw [e]
  have hal := fresh_block_allocate sz fresh G G (le_refl _) hG
  have hcan : (memory_block.create fresh G).can_allocate G = true := by
    apply (can_allocate_eq_true _ G (by simp [memory_block.create]; exact hG)).mpr
    simp [memory_block.create]
  have ht := try_blocks_first sz G _ _ _ [] hcan hal [] (fun c hc => by cases hc)
  have := allocate_existing sz G fresh2 ⟨[memory_block.create fresh G]⟩ G _ _ hG0 ht
  simpa [memory_block.create] using this

/-- Witness for C10: `BlockSize = 3`. -/
theorem reset_then_allocate_witness :
    custom_allocator.deallocate_all 3 100 ⟨[⟨50, 2, 3, [true, true, false]⟩]⟩
      = ⟨[⟨100, 0, 3, List.replicate 3 false⟩]⟩ ∧
    custom_allocator.allocate 8 3 200
        (custom_allocator.deallocate_all 3 100 ⟨[⟨50, 2, 3, [true, true, false]⟩]⟩) 3
      = some (some (100 + 0 * 8), ⟨[⟨100, 3, 3, List.replicate 3 true⟩]⟩) :=
  reset_then_allocate 8 3 100 200 ⟨[⟨50, 2, 3, [true, true, false]⟩]⟩ (by decide)
    (by decide)

/-- C10 fails as stated for `BlockSize = 0`: after `deallocate_all` the only block has no
slots and `allocate(0)` returns `nullptr`. -/
theorem reset_then_allocate_counterexample :
    custom_allocator.allocate 8 0 200
        (custom_allocator.deallocate_all 0 100 (custom_allocator.create 0 50)) 0
      = some (none, ⟨[⟨100, 0, 0, []⟩]⟩) := by
  decide

/-- C3 (amended): allocate/deallocate round trip when the byte counts of the blocks do
not wrap around.  Let the blocks be well formed with pairwise disjoint storage, let the
byte count `size * sizeof(T)` of every block and the byte count
`max(n, BlockSize) * sizeof(T)` of a new block be below `2 ^ 64`, let the storage of a new
block start outside every existing block, and let `0 < n < 2 ^ 64`.  If the capacity
check does not wrap around, `allocate(n)` returns; and whenever `allocate(n)` returns `r`,
the call `deallocate(r, n)` made right after it leaves every old block exactly as it was
before the `allocate`; a block that the `allocate` created is left with all slots free and
used-count 0; the total used-count is the one before the `allocate`. -/
theorem allocate_deallocate_round_trip (sz G fresh : Nat) (a : custom_allocator) (n : Nat)
    (hsz : 0 < sz) (hwf : a.wf) (hsep : separated sz a.blocks)
    (hfit : storage_fits sz a) (hnew : max n G * sz < SIZE_MOD)
    (hfresh : ∀ b ∈ a.blocks, b.belongs_to_block sz fresh = false)
    (hn : 0 < n) (hnM : n < SIZE_MOD) (hG : G < SIZE_MOD) :
    (no_overflow a n → ∃ p a1, custom_allocator.allocate sz G fresh a n = some (some p, a1)) ∧
    ∀ r a1, custom_allocator.allocate sz G fresh a n = some (r, a1) →
      ((custom_allocator.deallocate sz a1 r n).blocks = a.blocks ∨
        (custom_allocator.deallocate sz a1 r n).blocks
          = a.blocks ++ [⟨fresh, 0, max n G, List.replicate (max n G) false⟩]) ∧
      total_used (custom_allocator.deallocate sz a1 r n) = total_used a := by
  refine ⟨fun hov => ?_, fun r a1 h => ?_⟩
  · rcases allocate_cases sz G fresh a n hwf hn hnM hG hov with ⟨_, _, _, _, _, _, h⟩ | h
    · exact ⟨_, _, h⟩
    · exact ⟨_, _, h⟩
  · rcases allocate_inv sz G fresh a n hn hnM hG r a1 h with
      ⟨p, pre, b, post, b', hr, e, e1, hal⟩ | ⟨hr, e1⟩
    · have hbm : b ∈ a.blocks := by rw [e]; simp
      obtain ⟨i, hi, hfree, hp, hb'⟩ :=
        block_allocate_inv sz b b' n p (hwf b hbm) (hfit b hbm) hal
      have hbel : b.belongs_to_block sz p = true := by
        rw [hp]; exact belongs_slot sz b i hsz (hfit b hbm) (by omega)
      have hbel' : b'.belongs_to_block sz p = true := by
        rw [hb']; exact hbel
      have hpre : ∀ c ∈ pre, c.belongs_to_block sz p = false := by
        intro c hc
        have hs := hsep
        unfold separated at hs
        rw [e, List.pairwise_append] at hs
        exact not_belongs_of_separated sz b c p hbel (hs.2.2 c hc b (List.mem_cons_self _ _))
      have ha1 : a1 = { blocks := pre ++ b' :: post } := by
        cases a1; simp at e1; simp [e1]
      have hd : custom_allocator.deallocate sz a1 r n = { blocks := pre ++ b :: post } := by
        rw [ha1, hr, deallocate_at sz p n pre post b' hn hpre hbel']
        have : b'.deallocate sz p n = b := by
          rw [hb', hp]
          exact block_round_trip sz b n i hsz (hwf b hbm) hnM hi hfree
        rw [this]
      rw [hd]
      exact ⟨Or.inl e.symm, by simp [total_used, e]⟩
    · rw [ite_eq_max] at e1
      have hN : n ≤ max n G := le_max_left _ _
      have hNM : max n G < SIZE_MOD := max_lt hnM hG
      have hcwf : (memory_block.create fresh (max n G)).wf := by
        simp [memory_block.wf, memory_block.create, hNM, SIZE_MOD_pos]
      have hnb : (⟨fresh, n, max n G,
          List.replicate n true ++ List.replicate (max n G - n) false⟩ : memory_block)
          = { memory_block.create fresh (max n G) with
              allocated_flags := memory_block.set_run
                (memory_block.create fresh (max n G)).allocated_flags 0 n 0
              used := ((memory_block.create fresh (max n G)).used + n) % SIZE_MOD } := by
        simp [memory_block.create, set_run_replicate (max n G) n hN hNM,
          Nat.mod_eq_of_lt hnM]
      have hbel : memory_block.belongs_to_block sz (⟨fresh, n, max n G,
          List.replicate n true ++ List.replicate (max n G - n) false⟩ : memory_block)
          fresh = true := by
        have := belongs_slot sz ⟨fresh, n, max n G,
          List.replicate n true ++ List.replicate (max n G - n) false⟩ 0 hsz hnew
          (by simp only []; omega)
        simpa using this
      have ha1 : a1 = { blocks := a.blocks ++ (⟨fresh, n, max n G,
          List.replicate n true ++ List.replicate (max n G - n) false⟩ : memory_block)
          :: [] } := by
        cases a1; simp at e1; simp [e1]
      have hround : memory_block.deallocate sz (⟨fresh, n, max n G,
          List.replicate n true ++ List.replicate (max n G - n) false⟩ : memory_block)
          fresh n = memory_block.create fresh (max n G) := by
        rw [hnb]
        have := block_round_trip sz (memory_block.create fresh (max n G)) n 0 hsz hcwf hnM
          (by simp [memory_block.create]) (by
            intro t ht
            simp only [memory_block.create, Nat.zero_add]
            exact List.getElem?_replicate_of_lt (by omega))
        simpa [memory_block.create] using this
      have hd : custom_allocator.deallocate sz a1 r n
          = { blocks := a.blocks ++ [memory_block.create fresh (max n G)] } := by
        rw [ha1, hr, deallocate_at sz fresh n a.blocks [] _ hn hfresh hbel, hround]
      rw [hd]
      exact ⟨Or.inr (by simp [memory_block.create]), by simp [total_used, memory_block.create]⟩

/-- Witness for C3: a block of three slots with two occupied and a request of two, which
makes the allocator grow. -/
theorem allocate_deallocate_round_trip_witness :
    (no_overflow ⟨[⟨100, 2, 3, [true, true, false]⟩]⟩ 2 →
      ∃ p a1, custom_allocator.allocate 8 3 200 ⟨[⟨100, 2, 3, [true, true, false]⟩]⟩ 2
        = some (some p, a1)) ∧
    ∀ r a1, custom_allocator.allocate 8 3 200 ⟨[⟨100, 2, 3, [true, true, false]⟩]⟩ 2
        = some (r, a1) →
      ((custom_allocator.deallocate 8 a1 r 2).blocks = [⟨100, 2, 3, [true, true, false]⟩] ∨
        (custom_allocator.deallocate 8 a1 r 2).blocks
          = [⟨100, 2, 3, [true, true, false]⟩] ++
              [⟨200, 0, max 2 3, List.replicate (max 2 3) false⟩]) ∧
      total_used (custom_allocator.deallocate 8 a1 r 2)
        = total_used ⟨[⟨100, 2, 3, [true, true, false]⟩]⟩ :=
  allocate_deallocate_round_trip 8 3 200 ⟨[⟨100, 2, 3, [true, true, false]⟩]⟩ 2
    (by decide) (by decide) (by decide) (by decide) (by decide) (by decide) (by decide)
    (by decide) (by decide)

/-- C3 fails as stated.  With `sizeof(T) = 2 ^ 62` and `BlockSize = 0`, `allocate(4)` on a
fresh allocator appends a block of four slots whose byte count `4 * 2 ^ 62` wraps around
to 0, marks its four slots and returns its base address; the blocks are well formed with
disjoint storage.  `belongs_to_block` then rejects that address, `deallocate(p, 4)` leaves
the allocator unchanged, and the total used-count is 4 instead of 0. -/
theorem allocate_deallocate_round_trip_counterexample :
    (custom_allocator.create 0 100).wf ∧
    separated (2 ^ 62) (custom_allocator.create 0 100).blocks ∧
    (∀ b ∈ (custom_allocator.create 0 100).blocks,
      b.belongs_to_block (2 ^ 62) 200 = false) ∧
    custom_allocator.allocate (2 ^ 62) 0 200 (custom_allocator.create 0 100) 4
      = some (some 200, ⟨[⟨100, 0, 0, []⟩, ⟨200, 4, 4, [true, true, true, true]⟩]⟩) ∧
    memory_block.belongs_to_block (2 ^ 62) ⟨200, 4, 4, [true, true, true, true]⟩ 200
      = false ∧
    custom_allocator.deallocate (2 ^ 62)
        ⟨[⟨100, 0, 0, []⟩, ⟨200, 4, 4, [true, true, true, true]⟩]⟩ (some 200) 4
      = ⟨[⟨100, 0, 0, []⟩, ⟨200, 4, 4, [true, true, true, true]⟩]⟩ ∧
    total_used ⟨[⟨100, 0, 0, []⟩, ⟨200, 4, 4, [true, true, true, true]⟩]⟩ = 4 ∧
    total_used (custom_allocator.create 0 100) = 0 := by
  refine ⟨by decide, by decide, by decide, by decide, by decide, by decide, by decide,
    by decide⟩

/-- C6: deallocating an address that no block owns is ignored.  If `belongs_to_block` is
false for every block, `deallocate(p, n)` leaves the allocator unchanged. -/
theorem deallocate_unowned_ignored (sz : Nat) (a : custom_allocator) (p : Option Nat)
    (n : Nat)
    (h : ∀ ptr, p = some ptr → ∀ b ∈ a.blocks, b.belongs_to_block sz ptr = false) :
    custom_allocator.deallocate sz a p n = a := by
  cases p with
  | none => rfl
  | some ptr =>
    unfold custom_allocator.deallocate
    simp only [find_block_none sz ptr a.blocks (h ptr rfl)]
    split <;> rfl

/-- Witness for C6: address 500 lies outside the only block. -/
theorem deallocate_unowned_ignored_witness :
    custom_allocator.deallocate 8 ⟨[⟨100, 2, 3, [true, true, false]⟩]⟩ (some 500) 2
      = ⟨[⟨100, 2, 3, [true, true, false]⟩]⟩ :=
  deallocate_unowned_ignored 8 ⟨[⟨100, 2, 3, [true, true, false]⟩]⟩ (some 500) 2
    (by
      intro ptr hp b hb
      have e1 : ptr = 500 := by cases hp; rfl
      have e2 : b = ⟨100, 2, 3, [true, true, false]⟩ := by simpa using hb
      subst e1; subst e2
      decide)

/-- C8 (amended): `memory_block::deallocate` frees exactly the in-range part of the run
when neither the byte count of the block nor `k + n` wraps around.  For a well-formed
block `b` with `size * sizeof(T) < 2 ^ 64`, the address `p` of its slot `k` and `n` with
`k + n <= 2 ^ 64`: after `deallocate(p, n)` every slot `x` with `k <= x < k + n` and
`x < size` is free, every other bit is unchanged, `used` is the old value minus `n` modulo
`2 ^ 64`, and `data` and `size` are unchanged.  Reached through
`custom_allocator::deallocate` when no earlier block owns `p`, only that block changes. -/
theorem deallocate_frees_run (sz : Nat) (pre post : List memory_block) (b : memory_block)
    (k n : Nat) (hsz : 0 < sz) (hwf : b.wf) (hfit : b.size * sz < SIZE_MOD)
    (hk : k < b.size) (hkn : k + n ≤ SIZE_MOD)
    (hpre : ∀ c ∈ pre, c.belongs_to_block sz (b.data + k * sz) = false) :
    (b.deallocate sz (b.data + k * sz) n).data = b.data ∧
    (b.deallocate sz (b.data + k * sz) n).size = b.size ∧
    (b.deallocate sz (b.data + k * sz) n).used = (b.used + SIZE_MOD - n) % SIZE_MOD ∧
    (b.deallocate sz (b.data + k * sz) n).allocated_flags.length = b.size ∧
    (∀ x, (b.deallocate sz (b.data + k * sz) n).allocated_flags[x]? =
      if k ≤ x ∧ x < k + n ∧ x < b.size then some false else b.allocated_flags[x]?) ∧
    custom_allocator.deallocate sz { blocks := pre ++ b :: post } (some (b.data + k * sz)) n
      = { blocks := pre ++ b.deallocate sz (b.data + k * sz) n :: post } := by
  obtain ⟨hu, hs, hl⟩ := hwf
  refine ⟨rfl, rfl, rfl, ?_, ?_, ?_⟩
  · simp only [memory_block.deallocate]
    rw [clear_run_length, hl]
  · intro x
    simp only [memory_block.deallocate, slot_offset sz b.data k hsz]
    rw [clear_run_getElem?_of_le k n _ x hkn, hl]
  · rcases Nat.eq_zero_or_pos n with h0 | hn
    · subst h0
      have e : b.deallocate sz (b.data + k * sz) 0 = b := by
        simp [memory_block.deallocate, memory_block.clear_run, Nat.mod_eq_of_lt hu]
      rw [e]
      simp [custom_allocator.deallocate]
    · exact deallocate_at sz _ n pre post b hn hpre (belongs_slot sz b k hsz hfit hk)

/-- Witness for C8: release two slots starting at slot 1 of the second block. -/
theorem deallocate_frees_run_witness :
    (memory_block.deallocate 8 ⟨200, 3, 3, [true, true, true]⟩ (200 + 1 * 8) 2).data = 200 ∧
    (memory_block.deallocate 8 ⟨200, 3, 3, [true, true, true]⟩ (200 + 1 * 8) 2).size = 3 ∧
    (memory_block.deallocate 8 ⟨200, 3, 3, [true, true, true]⟩ (200 + 1 * 8) 2).used
      = (3 + SIZE_MOD - 2) % SIZE_MOD ∧
    (memory_block.deallocate 8 ⟨200, 3, 3, [true, true, true]⟩
      (200 + 1 * 8) 2).allocated_flags.length = 3 ∧
    (∀ x, (memory_block.deallocate 8 ⟨200, 3, 3, [true, true, true]⟩
        (200 + 1 * 8) 2).allocated_flags[x]? =
      if 1 ≤ x ∧ x < 1 + 2 ∧ x < 3 then some false else [true, true, true][x]?) ∧
    custom_allocator.deallocate 8
        { blocks := [⟨100, 1, 3, [true, false, false]⟩] ++
            ⟨200, 3, 3, [true, true, true]⟩ :: [] } (some (200 + 1 * 8)) 2
      = { blocks := [⟨100, 1, 3, [true, false, false]⟩] ++
            memory_block.deallocate 8 ⟨200, 3, 3, [true, true, true]⟩ (200 + 1 * 8) 2
              :: [] } :=
  deallocate_frees_run 8 [⟨100, 1, 3, [true, false, false]⟩] []
    ⟨200, 3, 3, [true, true, true]⟩ 1 2 (by decide) (by decide) (by decide) (by decide)
    (by decide)
    (by
      intro c hc
      have e : c = ⟨100, 1, 3, [true, false, false]⟩ := by simpa using hc
      subst e
      decide)

/-- C8 fails as stated.  In a full block of three slots, `deallocate` at slot 2 with
`n = 2 ^ 64 - 1` computes the index `2 + (2 ^ 64 - 2)`, which wraps around to 0, and
frees slot 0, a slot outside `[2, 2 + n)`.  And with `sizeof(T) = 2 ^ 62` the byte count
of a block of four slots wraps around to 0: `custom_allocator::deallocate(p, 4)` at the
address of slot 0 of such a block, the only block, finds no owner and frees no slot. -/
theorem deallocate_frees_run_counterexample :
    ((memory_block.deallocate 8 ⟨100, 3, 3, [true, true, true]⟩ (100 + 2 * 8)
        (2 ^ 64 - 1)).allocated_flags[0]? = some false ∧
      ¬ (2 ≤ 0 ∧ 0 < 2 + (2 ^ 64 - 1) ∧ 0 < 3) ∧
      (⟨100, 3, 3, [true, true, true]⟩ : memory_block).allocated_flags[0]? = some true) ∧
    (custom_allocator.deallocate (2 ^ 62) ⟨[⟨200, 4, 4, [true, true, true, true]⟩]⟩
        (some (200 + 0 * 2 ^ 62)) 4
      = ⟨[⟨200, 4, 4, [true, true, true, true]⟩]⟩ ∧
      (0 ≤ 0 ∧ 0 < 0 + 4 ∧ 0 < 4) ∧
      (⟨200, 4, 4, [true, true, true, true]⟩ : memory_block).allocated_flags[0]?
        = some true) := by
  refine ⟨⟨?_, by omega, rfl⟩, by decide, by omega, rfl⟩
  simp only [memory_block.deallocate, slot_offset 8 100 2 (by decide)]
  rw [clear_run_getElem?]
  exact if_pos ⟨⟨2 ^ 64 - 2, by norm_num, by norm_num [SIZE_MOD]⟩, by decide⟩

/-- C9 (amended): the block invariant `used <= size` for a client that keeps the contract.
Start from a freshly constructed allocator and run any sequence of calls in which every
`allocate(n)` returns (with each new block's storage disjoint from the existing blocks),
every `deallocate(p, n)` with non-null `p` and non-zero `n` releases one live allocation
(an address returned by `allocate` with that same `n` and not released since), and
`deallocate_all` may occur anywhere.  Then every block's used-count is at most its
capacity. -/
theorem used_le_size_invariant (sz G fresh : Nat) (hsz : 0 < sz) (hG : G < SIZE_MOD)
    (ops : List op) (s : custom_allocator × List (Nat × Nat))
    (h : matched_run sz G (custom_allocator.create G fresh, []) ops = some s) :
    ∀ b ∈ s.1.blocks, b.used ≤ b.size := by
  have e : custom_allocator.create G fresh = ⟨[memory_block.create fresh G]⟩ := by
    simp [custom_allocator.create, custom_allocator.expand_memory]
  rw [e] at h
  have hinv := count_matched_run sz G hsz hG ops _ s (count_create sz G fresh hG) h
  intro b hb
  obtain ⟨_, hl, hu, _⟩ := hinv.1 b hb
  have := List.count_le_length true b.allocated_flags
  omega

/-- Witness for C9: `allocate(2)`, `allocate(2)`, then release of the first allocation,
with `BlockSize = 3`. -/
theorem used_le_size_invariant_witness :
    matched_run 8 3 (custom_allocator.create 3 100, [])
        [op.allocate 2 200, op.allocate 2 200, op.deallocate (some 100) 2]
      = some (⟨[⟨100, 0, 3, [false, false, false]⟩, ⟨200, 2, 3, [true, true, false]⟩]⟩,
          [(200, 2)]) ∧
    ∀ b ∈ ((⟨[⟨100, 0, 3, [false, false, false]⟩, ⟨200, 2, 3, [true, true, false]⟩]⟩,
        [(200, 2)]) : custom_allocator × List (Nat × Nat)).1.blocks, b.used ≤ b.size :=
  ⟨by decide,
   used_le_size_invariant 8 3 100 (by decide) (by decide)
    [op.allocate 2 200, op.allocate 2 200, op.deallocate (some 100) 2]
    (⟨[⟨100, 0, 3, [false, false, false]⟩, ⟨200, 2, 3, [true, true, false]⟩]⟩, [(200, 2)])
    (by decide)⟩

/-- C9 fails as stated.  With `BlockSize = 3`, `allocate(1)` followed by two calls
`deallocate(p, 1)` on the returned address leaves the block with used-count
`2 ^ 64 - 1`, which exceeds its capacity 3. -/
theorem used_le_size_counterexample :
    run_ops 8 3 (custom_allocator.create 3 100)
        [op.allocate 1 200, op.deallocate (some 100) 1, op.deallocate (some 100) 1]
      = some ⟨[⟨100, 2 ^ 64 - 1, 3, [false, false, false]⟩]⟩ ∧
    ∃ b ∈ ([⟨100, 2 ^ 64 - 1, 3, [false, false, false]⟩] : List memory_block),
      ¬ b.used ≤ b.size := by
  refine ⟨by decide, ⟨100, 2 ^ 64 - 1, 3, [false, false, false]⟩, by simp, by decide⟩

/-! ## The full invariant is kept by a client that keeps the contract -/

theorem total_used_replace (pre post : List memory_block) (b b' : memory_block) :
    total_used ⟨pre ++ b' :: post⟩ + b.used = total_used ⟨pre ++ b :: post⟩ + b'.used := by
  simp only [total_used, List.map_append, List.map_cons, List.sum_append, List.sum_cons]
  omega

theorem full_create (sz G fresh : Nat) (hG : G < SIZE_MOD) (hfit : G * sz < SIZE_MOD) :
    alloc_inv_full sz (⟨[memory_block.create fresh G]⟩, []) := by
  refine ⟨inv_create sz G fresh hG hfit, ?_, ?_⟩
  · intro b hb x hx
    have e : b = memory_block.create fresh G := by simpa using hb
    subst e
    simp only [memory_block.create, List.getElem?_replicate] at hx
    split at hx <;> simp at hx
  · simp [total_used, live_slots, memory_block.create]

theorem full_allocate_existing (sz : Nat) (s : custom_allocator × List (Nat × Nat))
    (hfull : alloc_inv_full sz s) (n p : Nat) (hn : 0 < n)
    (pre post : List memory_block) (b b' : memory_block) (a' : custom_allocator)
    (e : s.1.blocks = pre ++ b :: post) (e1 : a'.blocks = pre ++ b' :: post)
    (hal : b.allocate sz n = some (some p, b')) :
    alloc_inv_full sz (a', (p, n) :: s.2) := by
  obtain ⟨hinv, hcov, htot⟩ := hfull
  refine ⟨inv_allocate_existing sz s hinv n p hn pre post b b' a' e e1 hal, ?_, ?_⟩
  · have hbm : b ∈ s.1.blocks := by rw [e]; simp
    have hbok := hinv.1 b hbm
    obtain ⟨i, hi, hfree, hp, hb'⟩ :=
      block_allocate_inv sz b b' n p (wf_of_block_ok b hbok) (hinv.2.2.2.2 b hbm) hal
    obtain ⟨hs, hl, hu⟩ := hbok
    have hget := set_run_getElem? i n 0 b.allocated_flags (by omega) (by omega)
    have hbd : b'.data = b.data := by rw [hb']
    have hbf : b'.allocated_flags = memory_block.set_run b.allocated_flags i n 0 := by
      rw [hb']
    intro c hc x hx
    have hc0 : c ∈ pre ++ b' :: post := by rw [← e1]; exact hc
    have old : ∀ d ∈ s.1.blocks, d.allocated_flags[x]? = some true →
        ∃ l ∈ (p, n) :: s.2, ∃ j, l.1 = d.data + j * sz ∧ j ≤ x ∧ x < j + l.2 := by
      intro d hd hdx
      obtain ⟨l, hl', j, h1, h2, h3⟩ := hcov d hd x hdx
      exact ⟨l, List.mem_cons_of_mem _ hl', j, h1, h2, h3⟩
    rcases List.mem_append.mp hc0 with hc1 | hc1
    · exact old c (by rw [e]; exact List.mem_append_left _ hc1) hx
    · rcases List.mem_cons.mp hc1 with rfl | hc1
      · rw [hbf, hget x] at hx
        by_cases hr : i + 0 ≤ x ∧ x < i + 0 + n
        · exact ⟨(p, n), List.mem_cons_self _ _, i, by rw [hbd]; exact hp, by omega,
            by simp only []; omega⟩
        · rw [if_neg hr] at hx
          obtain ⟨l, hl', j, h1, h2, h3⟩ := old b hbm hx
          exact ⟨l, hl', j, by rw [hbd]; exact h1, h2, h3⟩
      · exact old c (by rw [e]; exact List.mem_append_right _ (List.mem_cons_of_mem _ hc1)) hx
  · have hbm : b ∈ s.1.blocks := by rw [e]; simp
    have hbok := hinv.1 b hbm
    obtain ⟨i, hi, hfree, hp, hb'⟩ :=
      block_allocate_inv sz b b' n p (wf_of_block_ok b hbok) (hinv.2.2.2.2 b hbm) hal
    obtain ⟨hs, hl, hu⟩ := hbok
    have hcount := set_run_count i n 0 b.allocated_flags (by omega) (by omega)
      (by simpa using hfree)
    have hlen := set_run_length i n 0 b.allocated_flags
    have hle := List.count_le_length true (memory_block.set_run b.allocated_flags i n 0)
    have hbu : b'.used = b.used + n := by
      rw [hb']
      show (b.used + n) % SIZE_MOD = b.used + n
      exact Nat.mod_eq_of_lt (by omega)
    have ea' : a' = ⟨pre ++ b' :: post⟩ := by cases a'; simp at e1; simp [e1]
    have es : s.1 = ⟨pre ++ b :: post⟩ := by cases h : s.1; simp [h] at e; simp [e]
    have := total_used_replace pre post b b'
    rw [ea']
    simp only [live_slots, List.map_cons, List.sum_cons]
    rw [es] at htot
    simp only [live_slots] at htot
    omega

theorem full_allocate_new_block (sz G : Nat) (s : custom_allocator × List (Nat × Nat))
    (hfull : alloc_inv_full sz s) (n fresh : Nat) (hn : 0 < n) (hG : G < SIZE_MOD)
    (hfit : max n G * sz < SIZE_MOD)
    (hadm : admissible sz G s.1 n fresh) (a' : custom_allocator)
    (e1 : a'.blocks = s.1.blocks ++
      [⟨fresh, n, max n G, List.replicate n true ++ List.replicate (max n G - n) false⟩]) :
    alloc_inv_full sz (a', (fresh, n) :: s.2) := by
  obtain ⟨hinv, hcov, htot⟩ := hfull
  refine ⟨inv_allocate_new_block sz G s hinv n fresh hn hG hfit hadm a' e1, ?_, ?_⟩
  · intro c hc x hx
    have hc0 := hc
    simp only [e1] at hc0
    rcases List.mem_append.mp hc0 with hc1 | hc1
    · obtain ⟨l, hl', j, h1, h2, h3⟩ := hcov c hc1 x hx
      exact ⟨l, List.mem_cons_of_mem _ hl', j, h1, h2, h3⟩
    · have ec : c = ⟨fresh, n, max n G,
          List.replicate n true ++ List.replicate (max n G - n) false⟩ := by simpa using hc1
      subst ec
      refine ⟨(fresh, n), List.mem_cons_self _ _, 0, by simp, Nat.zero_le _, ?_⟩
      simp only [Nat.zero_add]
      by_contra hge
      rw [List.getElem?_append_right (by simp; omega)] at hx
      simp only [List.getElem?_replicate] at hx
      split at hx <;> simp at hx
  · have ea' : a' = ⟨s.1.blocks ++ [⟨fresh, n, max n G,
        List.replicate n true ++ List.replicate (max n G - n) false⟩]⟩ := by
      cases a'; simp at e1; simp [e1]
    rw [ea']
    simp only [total_used, live_slots, List.map_append, List.map_cons, List.sum_append,
      List.sum_cons, List.map_nil, List.sum_nil] at htot ⊢
    omega

theorem live_slots_erase (live : List (Nat × Nat)) (l : Nat × Nat) (h : l ∈ live) :
    live_slots (live.erase l) + l.2 = live_slots live := by
  obtain ⟨l1, l2, _, e, ee⟩ := List.exists_erase_eq h
  rw [ee, e]
  simp only [live_slots, List.map_append, List.map_cons, List.sum_append, List.sum_cons]
  omega

theorem full_deallocate (sz : Nat) (s : custom_allocator × List (Nat × Nat))
    (hsz : 0 < sz) (hfull : alloc_inv_full sz s) (ptr n : Nat) (hn : 0 < n)
    (hlive : (ptr, n) ∈ s.2) :
    alloc_inv_full sz
      (custom_allocator.deallocate sz s.1 (some ptr) n, s.2.erase (ptr, n)) := by
  obtain ⟨hinv, hcov, htot⟩ := hfull
  refine ⟨inv_deallocate sz s hsz hinv ptr n hn hlive, ?_, ?_⟩
  all_goals
    obtain ⟨hI1, hI2, hI3, hI4, hI5⟩ := hinv
    obtain ⟨_, b, hbm, i, hp, hi, hall⟩ := hI3 (ptr, n) hlive
    simp only at hp hi hall
    obtain ⟨pre, post, e⟩ := List.append_of_mem hbm
    obtain ⟨hs, hl, hu⟩ := hI1 b hbm
    have hsep := hI2
    unfold separated at hsep
    rw [e, List.pairwise_append, List.pairwise_cons] at hsep
    have hbel : b.belongs_to_block sz ptr = true := by
      rw [hp]; exact belongs_slot sz b i hsz (hI5 b hbm) (by omega)
    have hpre : ∀ c ∈ pre, c.belongs_to_block sz ptr = false := fun c hc =>
      not_belongs_of_separated sz b c ptr hbel (hsep.2.2 c hc b (List.mem_cons_self _ _))
    have hpost : ∀ c ∈ post, c.belongs_to_block sz ptr = false := fun c hc =>
      not_belongs_of_separated sz b c ptr hbel ((hsep.2.1.1 c hc).symm)
    have hs1 : s.1 = { blocks := pre ++ b :: post } := by
      cases h : s.1; simp [h] at e; simp [e]
    have hd := deallocate_at sz ptr n pre post b hn hpre hbel
    rw [← hs1] at hd
    rw [hd]
    have hoff : (ptr - b.data) / sz = i := by rw [hp]; exact slot_offset sz b.data i hsz
    have hbf : (b.deallocate sz ptr n).allocated_flags
        = memory_block.clear_run b.allocated_flags i n 0 := by
      simp only [memory_block.deallocate, hoff]
    have hget := fun x => clear_run_getElem?_of_le i n b.allocated_flags x (by omega)
  · intro c hc x hx
    simp only at hc
    have other : ∀ d ∈ s.1.blocks, d.belongs_to_block sz ptr = false →
        d.allocated_flags[x]? = some true →
        ∃ l ∈ s.2.erase (ptr, n), ∃ j, l.1 = d.data + j * sz ∧ j ≤ x ∧ x < j + l.2 := by
      intro d hd hnb hdx
      obtain ⟨l, hl', j, h1, h2, h3⟩ := hcov d hd x hdx
      refine ⟨l, ?_, j, h1, h2, h3⟩
      apply (List.mem_erase_of_ne ?_).mpr hl'
      intro el
      subst el
      simp only at h1 h3
      have hxl : x < d.allocated_flags.length := by
        by_contra hge
        rw [List.getElem?_eq_none (by omega)] at hdx
        cases hdx
      have hdl := (hI1 d hd).2.1
      have := belongs_slot sz d j hsz (hI5 d hd) (by omega)
      rw [← h1, hnb] at this
      cases this
    rcases List.mem_append.mp hc with hc1 | hc1
    · exact other c (by rw [e]; exact List.mem_append_left _ hc1) (hpre c hc1) hx
    · rcases List.mem_cons.mp hc1 with rfl | hc1
      · rw [hbf, hget x] at hx
        by_cases hr : i ≤ x ∧ x < i + n ∧ x < b.allocated_flags.length
        · rw [if_pos hr] at hx; cases hx
        · rw [if_neg hr] at hx
          have hxl : x < b.allocated_flags.length := by
            by_contra hge
            rw [List.getElem?_eq_none (by omega)] at hx
            cases hx
          obtain ⟨l, hl', j, h1, h2, h3⟩ := hcov b hbm x hx
          refine ⟨l, ?_, j, h1, h2, h3⟩
          apply (List.mem_erase_of_ne ?_).mpr hl'
          intro el
          subst el
          simp only at h1 h3
          have hij : j = i := by
            have h4 : j * sz = i * sz := by omega
            exact Nat.eq_of_mul_eq_mul_right hsz h4
          omega
      · exact other c (by rw [e]; exact List.mem_append_right _ (List.mem_cons_of_mem _ hc1))
          (hpost c hc1) hx
  · have hcount := clear_run_count i n 0 b.allocated_flags (by omega) (by omega)
      (by simpa using hall)
    have hle := List.count_le_length true b.allocated_flags
    have hbu : (b.deallocate sz ptr n).used + n = b.used := by
      show (b.used + SIZE_MOD - n) % SIZE_MOD + n = b.used
      have e2 : b.used + SIZE_MOD - n = (b.used - n) + SIZE_MOD := by omega
      rw [e2, Nat.add_mod_right, Nat.mod_eq_of_lt (by omega)]
      omega
    have h1 := total_used_replace pre post b (b.deallocate sz ptr n)
    have h2 := live_slots_erase s.2 (ptr, n) hlive
    rw [hs1] at htot
    simp only at h2
    show total_used ⟨pre ++ b.deallocate sz ptr n :: post⟩ = live_slots (s.2.erase (ptr, n))
    omega

theorem full_matched_step (sz G : Nat) (hsz : 0 < sz) (hG : G < SIZE_MOD)
    (hGs : G * sz < SIZE_MOD)
    (s s' : custom_allocator × List (Nat × Nat)) (o : op) (hfull : alloc_inv_full sz s)
    (ho : ∀ n fresh, o = op.allocate n fresh → n * sz < SIZE_MOD)
    (h : matched_step sz G s o = some s') : alloc_inv_full sz s' := by
  cases o with
  | allocate n fresh =>
    simp only [matched_step] at h
    split at h
    · rename_i hadm
      cases hal : custom_allocator.allocate sz G fresh s.1 n with
      | none => rw [hal] at h; simp at h
      | some ra =>
        obtain ⟨r, a'⟩ := ra
        rcases Nat.eq_zero_or_pos n with hn0 | hn
        · subst hn0
          have h0 : custom_allocator.allocate sz G fresh s.1 0 = some (none, s.1) := by
            simp [custom_allocator.allocate]
          rw [h0] at hal h
          simp at h
          subst h
          exact hfull
        · rcases allocate_inv sz G fresh s.1 n hn hadm.1 hG r a' hal with
            ⟨p, pre, b, post, b', hr, e, e1, halb⟩ | ⟨hr, e1⟩
          · subst hr
            rw [hal] at h
            simp at h
            subst h
            exact full_allocate_existing sz s hfull n p hn pre post b b' a' e e1 halb
          · subst hr
            rw [hal] at h
            simp at h
            subst h
            rw [ite_eq_max] at e1
            exact full_allocate_new_block sz G s hfull n fresh hn hG
              (max_mul_lt n G sz (ho n fresh rfl) hGs) hadm a' e1
    · simp at h
  | deallocate p n =>
    cases p with
    | none =>
      simp only [matched_step, custom_allocator.deallocate] at h
      cases h
      exact hfull
    | some ptr =>
      simp only [matched_step] at h
      split at h
      · rename_i hn0
        subst hn0
        simp [custom_allocator.deallocate] at h
        subst h
        exact hfull
      · rename_i hn0
        split at h
        · rename_i hlive
          cases h
          exact full_deallocate sz s hsz hfull ptr n (Nat.pos_of_ne_zero hn0) hlive
        · simp at h
  | deallocate_all fresh =>
    simp only [matched_step] at h
    cases h
    have e : custom_allocator.deallocate_all G fresh s.1
        = ⟨[memory_block.create fresh G]⟩ := by
      simp [custom_allocator.deallocate_all, custom_allocator.expand_memory]
    rw [e]
    exact full_create sz G fresh hG hGs

theorem full_matched_run (sz G : Nat) (hsz : 0 < sz) (hG : G < SIZE_MOD)
    (hGs : G * sz < SIZE_MOD) :
    ∀ (ops : List op) (s s' : custom_allocator × List (Nat × Nat)), alloc_inv_full sz s →
      (∀ n fresh, op.allocate n fresh ∈ ops → n * sz < SIZE_MOD) →
      matched_run sz G s ops = some s' → alloc_inv_full sz s' := by
  intro ops
  induction ops with
  | nil =>
    intro s s' hinv _ h
    simp only [matched_run] at h
    cases h
    exact hinv
  | cons o os ih =>
    intro s s' hinv hops h
    simp only [matched_run] at h
    cases hst : matched_step sz G s o with
    | none => rw [hst] at h; simp at h
    | some s1 =>
      rw [hst] at h
      exact ih s1 s' (full_matched_step sz G hsz hG hGs s s1 o hinv
        (fun n fresh e => hops n fresh (by rw [e]; exact List.mem_cons_self _ _)) hst)
        (fun n fresh hm => hops n fresh (List.mem_cons_of_mem _ hm)) h

/-- Under the invariant a slot position inside a live run of a block is occupied. -/
theorem live_bits_set (sz : Nat) (hsz : 0 < sz) (s : custom_allocator × List (Nat × Nat))
    (hinv : alloc_inv sz s) (b : memory_block) (hb : b ∈ s.1.blocks) (l : Nat × Nat)
    (hl : l ∈ s.2) (i x : Nat) (e : l.1 = b.data + i * sz) (h1 : i ≤ x) (h2 : x < i + l.2)
    (hx : x < b.size) : b.allocated_flags[x]? = some true := by
  obtain ⟨hI1, hI2, hI3, _⟩ := hinv
  obtain ⟨hpos, c, hc, j, ej, hj, hall⟩ := hI3 l hl
  have hsym : Symmetric (fun b c : memory_block =>
      b.data + b.size * sz ≤ c.data ∨ c.data + c.size * sz ≤ b.data) :=
    fun _ _ h => h.symm
  have hxs : x * sz + sz ≤ b.size * sz := by
    have := mul_bound x 1 b.size sz (by omega)
    omega
  have hjs := mul_bound j l.2 c.size sz hj
  have hix : i * sz ≤ x * sz := Nat.mul_le_mul_right sz h1
  have hxi : x * sz + sz ≤ i * sz + l.2 * sz := by
    have := mul_bound x 1 (i + l.2) sz (by omega)
    rw [Nat.add_mul] at this
    omega
  by_cases hbc : b = c
  · subst hbc
    have hij : j = i := by
      have h4 : j * sz = i * sz := by omega
      exact Nat.eq_of_mul_eq_mul_right hsz h4
    subst hij
    have := hall (x - j) (by omega)
    have e2 : j + (x - j) = x := by omega
    rwa [e2] at this
  · have := hI2.forall hsym hb hc hbc
    omega

/-! ## Claims C11, C18, C19 -/

/-- C11: copy construction never copies blocks.  For every source allocator the
copy-constructed allocator and the converting-constructed (rebound) allocator have exactly
one block, of `BlockSize` slots, all free, with used-count 0, and the source is
unchanged. -/
theorem copy_never_copies_blocks (G fresh : Nat) (other : custom_allocator) :
    custom_allocator.copy_construct G fresh other
      = (other, ⟨[⟨fresh, 0, G, List.replicate G false⟩]⟩) ∧
    custom_allocator.convert_construct G fresh other
      = (other, ⟨[⟨fresh, 0, G, List.replicate G false⟩]⟩) := by
  constructor <;>
    simp [custom_allocator.copy_construct, custom_allocator.convert_construct,
      custom_allocator.expand_memory, memory_block.create]

/-- C18: the capacity check is not a contiguity check, and fragmentation forces growth.
With `BlockSize = 3`: `allocate(1)` twice and `deallocate` of the first address lead to a
block with bitmap free, occupied, free and used-count 1.  For `n = 2` that block passes
`can_allocate(2)`, its `allocate(2)` returns `nullptr`, and `custom_allocator::allocate(2)`
appends a second block although the first block holds two free slots. -/
theorem fragmentation_forces_growth :
    matched_run 8 3 (custom_allocator.create 3 100, [])
        [op.allocate 1 200, op.allocate 1 200, op.deallocate (some 100) 1]
      = some (⟨[⟨100, 1, 3, [false, true, false]⟩]⟩, [(108, 1)]) ∧
    memory_block.can_allocate ⟨100, 1, 3, [false, true, false]⟩ 2 = true ∧
    memory_block.allocate 8 ⟨100, 1, 3, [false, true, false]⟩ 2
      = some (none, ⟨100, 1, 3, [false, true, false]⟩) ∧
    custom_allocator.allocate 8 3 200 ⟨[⟨100, 1, 3, [false, true, false]⟩]⟩ 2
      = some (some 200,
          ⟨[⟨100, 1, 3, [false, true, false]⟩, ⟨200, 2, 3, [true, true, false]⟩]⟩) ∧
    2 ≤ List.count false [false, true, false] := by
  refine ⟨by decide, by decide, by decide, by decide, by decide⟩

/-- C19 (amended): no slot is handed out twice when the byte counts do not wrap around.
Let `BlockSize * sizeof(T)` and, for every call `allocate(n)` of the run, `n * sizeof(T)`
be below `2 ^ 64`.  In every state that a client keeping the contract reaches from a fresh
allocator, the address ranges of the live allocations are pairwise disjoint, every live
allocation is a run inside one block, a slot of a block is occupied exactly when it lies
in the run of a live allocation, and every block's used-count is its number of occupied
slots. -/
theorem no_slot_handed_out_twice (sz G fresh : Nat) (hsz : 0 < sz) (hG : G < SIZE_MOD)
    (hGs : G * sz < SIZE_MOD)
    (ops : List op) (s : custom_allocator × List (Nat × Nat))
    (hops : ∀ n f, op.allocate n f ∈ ops → n * sz < SIZE_MOD)
    (h : matched_run sz G (custom_allocator.create G fresh, []) ops = some s) :
    s.2.Pairwise (apart sz) ∧
    (∀ l ∈ s.2, ∃ b ∈ s.1.blocks, ∃ i, l.1 = b.data + i * sz ∧ i + l.2 ≤ b.size) ∧
    (∀ b ∈ s.1.blocks, ∀ x, b.allocated_flags[x]? = some true ↔
      (x < b.size ∧ ∃ l ∈ s.2, ∃ i, l.1 = b.data + i * sz ∧ i ≤ x ∧ x < i + l.2)) ∧
    (∀ b ∈ s.1.blocks, b.used = b.allocated_flags.count true) := by
  have e : custom_allocator.create G fresh = ⟨[memory_block.create fresh G]⟩ := by
    simp [custom_allocator.create, custom_allocator.expand_memory]
  rw [e] at h
  obtain ⟨hinv, hcov, _⟩ := full_matched_run sz G hsz hG hGs ops _ s
    (full_create sz G fresh hG hGs) hops h
  refine ⟨hinv.2.2.2.1, ?_, ?_, fun b hb => (hinv.1 b hb).2.2⟩
  · intro l hl
    obtain ⟨_, b, hb, i, e1, e2, _⟩ := hinv.2.2.1 l hl
    exact ⟨b, hb, i, e1, e2⟩
  · intro b hb x
    constructor
    · intro hx
      have hxl : x < b.allocated_flags.length := by
        by_contra hge
        rw [List.getElem?_eq_none (by omega)] at hx
        cases hx
      exact ⟨by rw [← (hinv.1 b hb).2.1]; exact hxl, hcov b hb x hx⟩
    · rintro ⟨hx, l, hl, i, e1, h1, h2⟩
      exact live_bits_set sz hsz s hinv b hb l hl i x e1 h1 h2 hx

/-- Witness for C19: two allocations, the first one released, with `BlockSize = 3`. -/
theorem no_slot_handed_out_twice_witness :
    matched_run 8 3 (custom_allocator.create 3 100, [])
        [op.allocate 1 200, op.allocate 1 200, op.deallocate (some 100) 1]
      = some (⟨[⟨100, 1, 3, [false, true, false]⟩]⟩, [(108, 1)]) ∧
    ([(108, 1)] : List (Nat × Nat)).Pairwise (apart 8) ∧
    (∀ l ∈ ([(108, 1)] : List (Nat × Nat)),
      ∃ b ∈ ([⟨100, 1, 3, [false, true, false]⟩] : List memory_block),
        ∃ i, l.1 = b.data + i * 8 ∧ i + l.2 ≤ b.size) ∧
    (∀ b ∈ ([⟨100, 1, 3, [false, true, false]⟩] : List memory_block),
      ∀ x, b.allocated_flags[x]? = some true ↔
        (x < b.size ∧ ∃ l ∈ ([(108, 1)] : List (Nat × Nat)),
          ∃ i, l.1 = b.data + i * 8 ∧ i ≤ x ∧ x < i + l.2)) ∧
    (∀ b ∈ ([⟨100, 1, 3, [false, true, false]⟩] : List memory_block),
      b.used = b.allocated_flags.count true) :=
  ⟨by decide,
   no_slot_handed_out_twice 8 3 100 (by decide) (by decide) (by decide)
    [op.allocate 1 200, op.allocate 1 200, op.deallocate (some 100) 1]
    (⟨[⟨100, 1, 3, [false, true, false]⟩]⟩, [(108, 1)])
    (by
      intro n f hm
      have e : n = 1 := by
        simp at hm
        omega
      subst e
      decide)
    (by decide)⟩

/-- C19 fails as stated.  With `sizeof(T) = 2 ^ 62` and `BlockSize = 0`, a client that
keeps the contract calls `allocate(4)` and releases the returned address: the byte count
`4 * 2 ^ 62` of the new block wraps around to 0, `belongs_to_block` rejects the address,
and the four slots stay occupied although no allocation is live.  With `BlockSize = 8`,
`allocate(4)` and `allocate(1)` on a fresh allocator return the same address, because the
offset `4 * 2 ^ 62` of slot 4 wraps around to 0: the two live allocations are not
disjoint. -/
theorem no_slot_handed_out_twice_counterexample :
    (matched_run (2 ^ 62) 0 (custom_allocator.create 0 100, [])
        [op.allocate 4 200, op.deallocate (some 200) 4]
      = some (⟨[⟨100, 0, 0, []⟩, ⟨200, 4, 4, [true, true, true, true]⟩]⟩, []) ∧
      (⟨200, 4, 4, [true, true, true, true]⟩ : memory_block).allocated_flags[0]?
        = some true) ∧
    (custom_allocator.allocate (2 ^ 62) 8 300 (custom_allocator.create 8 100) 4
      = some (some 100,
          ⟨[⟨100, 4, 8, [true, true, true, true, false, false, false, false]⟩]⟩) ∧
      custom_allocator.allocate (2 ^ 62) 8 300
          ⟨[⟨100, 4, 8, [true, true, true, true, false, false, false, false]⟩]⟩ 1
        = some (some 100,
            ⟨[⟨100, 5, 8, [true, true, true, true, true, false, false, false]⟩]⟩) ∧
      ¬ apart (2 ^ 62) (100, 1) (100, 4)) := by
  refine ⟨⟨by decide, rfl⟩, by decide, by decide, ?_⟩
  unfold apart
  simp only []
  have : 0 < 2 ^ 62 := by norm_num
  omega

/-! ## A single-slot request under the invariant -/

theorem all_true_of_count (l : List Bool) (h : l.count true = l.length) (x : Nat) :
    l[x]? ≠ some false := by
  intro hx
  obtain ⟨hlt, hv⟩ := List.getElem?_eq_some_iff.mp hx
  have := List.count_eq_length.mp h (l[x]) (List.getElem_mem hlt)
  rw [hv] at this
  cases this

/-- A block with consistent bookkeeping answers a request for one slot without reading
its bitmap out of range. -/
theorem block_allocate_one (sz : Nat) (b : memory_block) (hok : block_ok b) :
    (b.can_allocate 1 = false ∨ b.allocate sz 1 = some (none, b)) ∨
    (b.can_allocate 1 = true ∧ ∃ p b', b.allocate sz 1 = some (some p, b')) := by
  have hwf := wf_of_block_ok b hok
  obtain ⟨hs, hl, hu⟩ := hok
  have hle := List.count_le_length true b.allocated_flags
  by_cases hov : b.used + 1 < SIZE_MOD
  · by_cases hf : fits b 1
    · right
      obtain ⟨i, hi⟩ := least_run_of_fits b 1 hf
      obtain ⟨h1, h2⟩ := block_allocate_fits sz b 1 i hwf hf.1 hi
      exact ⟨h1, _, _, h2⟩
    · left
      exact block_allocate_not_fits sz b 1 hwf hov hf
  · left
    right
    have hM2 : 2 ≤ SIZE_MOD := by unfold SIZE_MOD; norm_num
    have hfull : b.allocated_flags.count true = b.allocated_flags.length := by omega
    have h1s : 1 ≤ b.size := by omega
    have hc : b.can_allocate 1 = true := by
      unfold memory_block.can_allocate
      have e : b.used + 1 = SIZE_MOD := by omega
      rw [e, Nat.mod_self]
      simp
    unfold memory_block.allocate
    rw [hc, fuel_eq b.size 1 hs h1s]
    rw [first_fit_not_found b.allocated_flags 1 (by omega) (b.size - 1 + 1) 0
      (fun x _ hx => by omega)
      (fun x _ _ hf => all_true_of_count b.allocated_flags hfull (x + 0)
        (hf 0 (Nat.lt_succ_self 0)))]
    simp

theorem allocate_one_defined (sz G fresh : Nat) (a : custom_allocator) (hG : G < SIZE_MOD)
    (hok : ∀ b ∈ a.blocks, block_ok b) :
    ∃ p a', custom_allocator.allocate sz G fresh a 1 = some (some p, a') := by
  have hM : 1 < SIZE_MOD := by unfold SIZE_MOD; norm_num
  rcases first_split (fun b : memory_block =>
      b.can_allocate 1 = true ∧ ∃ p b', b.allocate sz 1 = some (some p, b')) a.blocks with
    hnone | ⟨pre, b, post, e, hpre, hcan, p, b', hal⟩
  · have hfail : ∀ b ∈ a.blocks,
        b.can_allocate 1 = false ∨ b.allocate sz 1 = some (none, b) := by
      intro b hb
      rcases block_allocate_one sz b (hok b hb) with h | h
      · exact h
      · exact absurd h (hnone b hb)
    exact ⟨_, _, allocate_new_block sz G fresh a 1 (by omega) hM hG
      (try_blocks_all_fail sz 1 a.blocks hfail)⟩
  · have hfail : ∀ c ∈ pre,
        c.can_allocate 1 = false ∨ c.allocate sz 1 = some (none, c) := by
      intro c hc
      rcases block_allocate_one sz c (hok c (by rw [e]; simp [hc])) with h | h
      · exact h
      · exact absurd h (hpre c hc)
    have ht := try_blocks_first sz 1 p b b' post hcan hal pre hfail
    rw [← e] at ht
    exact ⟨_, _, allocate_existing sz G fresh a 1 _ _ (by omega) ht⟩

theorem apart_symm (sz : Nat) {x y : Nat × Nat} (h : apart sz x y) : apart sz y x :=
  Or.symm h

theorem alloc_inv_full_perm (sz : Nat) (a : custom_allocator) (live live' : List (Nat × Nat))
    (hp : live.Perm live') (h : alloc_inv_full sz (a, live)) :
    alloc_inv_full sz (a, live') := by
  obtain ⟨⟨hI1, hI2, hI3, hI4, hI5⟩, hcov, htot⟩ := h
  refine ⟨⟨hI1, hI2, fun l hl => hI3 l (hp.mem_iff.mpr hl),
    (hp.pairwise_iff (fun h => apart_symm sz h)).mp hI4, hI5⟩, ?_, ?_⟩
  · intro b hb x hx
    obtain ⟨l, hl, r⟩ := hcov b hb x hx
    exact ⟨l, hp.mem_iff.mp hl, r⟩
  · show total_used a = live_slots live'
    have : live_slots live = live_slots live' := by
      unfold live_slots
      exact (hp.map _).sum_eq
    rw [← this]
    exact htot

theorem addrs_nodup (sz : Nat) (hsz : 0 < sz) (addrs : List Nat)
    (h : (addrs.map (fun a => (a, 1))).Pairwise (apart sz)) : addrs.Nodup := by
  rw [List.pairwise_map] at h
  exact h.imp (fun {a b} hab => by
    unfold apart at hab
    simp only at hab
    omega)

/-- The result of `allocate(1)` in a well-formed state of a client: a fresh address, and
the invariant with that address added to the live allocations. -/
theorem allocate_one_step (sz G fresh : Nat) (hsz : 0 < sz) (hG : G < SIZE_MOD)
    (hfit : max 1 G * sz < SIZE_MOD)
    (a : custom_allocator) (live : List (Nat × Nat))
    (hfull : alloc_inv_full sz (a, live)) (hadm : admissible sz G a 1 fresh) :
    ∃ p a', custom_allocator.allocate sz G fresh a 1 = some (some p, a') ∧
      alloc_inv_full sz (a', (p, 1) :: live) := by
  obtain ⟨p, a', hal⟩ := allocate_one_defined sz G fresh a hG hfull.1.1
  refine ⟨p, a', hal, ?_⟩
  have hstep : matched_step sz G (a, live) (op.allocate 1 fresh)
      = some (a', (p, 1) :: live) := by
    simp only [matched_step]
    rw [if_pos hadm, hal]
  have h1 : 1 * sz < SIZE_MOD :=
    lt_of_le_of_lt (Nat.mul_le_mul_right sz (le_max_left 1 G)) hfit
  have hGs : G * sz < SIZE_MOD :=
    lt_of_le_of_lt (Nat.mul_le_mul_right sz (le_max_right 1 G)) hfit
  exact full_matched_step sz G hsz hG hGs (a, live) _ _ hfull
    (fun n f e => by cases e; exact h1) hstep

/-! ## Linked nodes -/

theorem chain_length {T : Type} (h : heap T) :
    ∀ (addrs : List Nat) (p : Option Nat) (xs : List T), chain h p addrs xs →
      addrs.length = xs.length := by
  intro addrs
  induction addrs with
  | nil =>
    intro p xs hc
    cases xs with
    | nil => rfl
    | cons x xs => simp [chain] at hc
  | cons a as ih =>
    intro p xs hc
    cases xs with
    | nil => simp [chain] at hc
    | cons x xs =>
      simp only [chain] at hc
      obtain ⟨_, nxt, _, hr⟩ := hc
      simp [ih nxt xs hr]

theorem chain_head_none {T : Type} (h : heap T) (addrs : List Nat) (p : Option Nat)
    (xs : List T) (hc : chain h p addrs xs) : p = none ↔ addrs = [] := by
  cases addrs with
  | nil =>
    cases xs with
    | nil => simp only [chain] at hc; simp [hc]
    | cons x xs => simp [chain] at hc
  | cons a as =>
    cases xs with
    | nil => simp [chain] at hc
    | cons x xs =>
      simp only [chain] at hc
      simp [hc.1]

theorem chain_frame {T : Type} (h h' : heap T) :
    ∀ (addrs : List Nat) (p : Option Nat) (xs : List T), (∀ a ∈ addrs, h' a = h a) →
      chain h p addrs xs → chain h' p addrs xs := by
  intro addrs
  induction addrs with
  | nil =>
    intro p xs _ hc
    cases xs with
    | nil => simpa [chain] using hc
    | cons x xs => simp [chain] at hc
  | cons a as ih =>
    intro p xs hag hc
    cases xs with
    | nil => simp [chain] at hc
    | cons x xs =>
      simp only [chain] at hc ⊢
      obtain ⟨hp, nxt, hn, hr⟩ := hc
      refine ⟨hp, nxt, ?_, ih nxt xs (fun b hb => hag b (List.mem_cons_of_mem _ hb)) hr⟩
      rw [hag a (List.mem_cons_self _ _)]
      exact hn

theorem chain_to_list {T : Type} (h : heap T) :
    ∀ (addrs : List Nat) (p : Option Nat) (xs : List T), chain h p addrs xs →
      ∀ fuel, xs.length ≤ fuel → custom_container.to_list h fuel p = some xs := by
  intro addrs
  induction addrs with
  | nil =>
    intro p xs hc fuel _
    cases xs with
    | nil =>
      simp only [chain] at hc
      subst hc
      cases fuel <;> rfl
    | cons x xs => simp [chain] at hc
  | cons a as ih =>
    intro p xs hc fuel hf
    cases xs with
    | nil => simp [chain] at hc
    | cons x xs =>
      simp only [chain] at hc
      obtain ⟨hp, nxt, hn, hr⟩ := hc
      subst hp
      cases fuel with
      | zero => simp at hf
      | succ fuel =>
        simp only [custom_container.to_list, hn]
        rw [ih nxt xs hr fuel (by simpa using hf)]
        rfl

theorem chain_last {T : Type} (h : heap T) :
    ∀ (addrs : List Nat) (p : Option Nat) (xs : List T) (t : Nat), chain h p addrs xs →
      addrs.getLast? = some t → ∃ nd, h t = some nd ∧ nd.next = none := by
  intro addrs
  induction addrs with
  | nil => intro p xs t _ ht; simp at ht
  | cons a as ih =>
    intro p xs t hc ht
    cases xs with
    | nil => simp [chain] at hc
    | cons x xs =>
      simp only [chain] at hc
      obtain ⟨_, nxt, hn, hr⟩ := hc
      cases as with
      | nil =>
        simp at ht
        subst ht
        have := (chain_head_none h [] nxt xs hr).mpr rfl
        exact ⟨_, hn, this⟩
      | cons a2 as2 =>
        rw [List.getLast?_cons_cons] at ht
        exact ih nxt xs t hr ht

/-- Linking a new node behind the last one appends its value to the sequence. -/
theorem chain_snoc {T : Type} (h : heap T) (pnew t : Nat) (v : T) (nd : node T)
    (ht : h t = some nd) :
    ∀ (addrs : List Nat) (p : Option Nat) (xs : List T), chain h p addrs xs →
      addrs.Nodup → pnew ∉ addrs → addrs.getLast? = some t →
      chain (custom_container.heap_write
          (custom_container.heap_write h pnew { data := v, next := none }) t
          { nd with next := some pnew }) p (addrs ++ [pnew]) (xs ++ [v]) := by
  intro addrs
  induction addrs with
  | nil => intro p xs _ _ _ hl; simp at hl
  | cons a as ih =>
    intro p xs hc hnd hnew hl
    cases xs with
    | nil => simp [chain] at hc
    | cons x xs =>
      simp only [chain] at hc
      obtain ⟨hp, nxt, hn, hr⟩ := hc
      have hane : a ≠ pnew := fun e => hnew (by rw [e]; exact List.mem_cons_self _ _)
      cases as with
      | nil =>
        simp at hl
        subst hl
        have hx : xs = [] := by
          have := chain_length h [] nxt xs hr
          cases xs with
          | nil => rfl
          | cons y ys => simp at this
        subst hx
        rw [hn] at ht
        cases ht
        simp only [List.cons_append, List.nil_append, chain]
        refine ⟨hp, some pnew, ?_, rfl, none, ?_, rfl⟩
        · simp [custom_container.heap_write]
        · simp [custom_container.heap_write, Ne.symm hane]
      | cons a2 as2 =>
        rw [List.getLast?_cons_cons] at hl
        have htm : t ∈ a2 :: as2 := List.mem_of_getLast?_eq_some hl
        have hat : a ≠ t := by
          intro e
          rw [e] at hnd
          exact (List.nodup_cons.mp hnd).1 htm
        simp only [List.cons_append, chain]
        refine ⟨hp, nxt, ?_, ?_⟩
        · simp [custom_container.heap_write, hat, hane, hn]
        · exact ih nxt xs hr (List.nodup_cons.mp hnd).2
            (fun hm => hnew (List.mem_cons_of_mem _ hm)) hl

/-! ## `push_back` and `pop_front` on a well-formed sequence -/

theorem getLast?_of_ne_nil (addrs : List Nat) (h : addrs ≠ []) :
    ∃ t, addrs.getLast? = some t := by
  cases hl : addrs.getLast? with
  | none => exact absurd (List.getLast?_eq_none_iff.mp hl) h
  | some t => exact ⟨t, rfl⟩

theorem push_back_spec {T : Type} (sz G fresh : Nat) (hsz : 0 < sz) (hG : G < SIZE_MOD)
    (hfit : max 1 G * sz < SIZE_MOD)
    (s : heap T × custom_container T) (addrs : List Nat) (xs : List T) (v : T)
    (hinv : seq_inv sz s addrs xs) (hadm : admissible sz G s.2.alloc 1 fresh)
    (hlen : addrs.length + 1 < SIZE_MOD) :
    ∃ p s', custom_container.push_back sz G fresh s v = some s' ∧
      seq_inv sz s' (addrs ++ [p]) (xs ++ [v]) ∧
      custom_allocator.allocate sz G fresh s.2.alloc 1 = some (some p, s'.2.alloc) ∧
      s'.2.container_size = s.2.container_size + 1 ∧ p ∉ addrs ∧
      (∀ q, q ≠ p → (∀ t, s.2.tail = some t → q ≠ t) → s'.1 q = s.1 q) := by
  obtain ⟨hch, htl, hsize, hlt, hfull⟩ := hinv
  obtain ⟨p, a', hal, hfull'⟩ :=
    allocate_one_step sz G fresh hsz hG hfit s.2.alloc _ hfull hadm
  have hpn : p ∉ addrs := by
    intro hm
    have hpw := hfull'.1.2.2.2.1
    simp only [List.pairwise_cons] at hpw
    have := hpw.1 (p, 1) (List.mem_map.mpr ⟨p, hm, rfl⟩)
    unfold apart at this
    simp only at this
    omega
  have hnd : addrs.Nodup := addrs_nodup sz hsz addrs hfull.1.2.2.2.1
  have hperm : ((p, 1) :: addrs.map (fun a => (a, 1))).Perm
      ((addrs ++ [p]).map (fun a => (a, 1))) := by
    rw [List.map_append]
    exact (List.perm_append_singleton _ _).symm
  have hfull2 := alloc_inv_full_perm sz a' _ _ hperm hfull'
  have hsz2 : (s.2.container_size + 1) % SIZE_MOD = s.2.container_size + 1 :=
    Nat.mod_eq_of_lt (by omega)
  cases addrs with
  | nil =>
    have hx : xs = [] := by
      have := chain_length s.1 [] s.2.head xs hch
      cases xs with
      | nil => rfl
      | cons y ys => simp at this
    subst hx
    have hhead : s.2.head = none := by simpa [chain] using hch
    refine ⟨p, (custom_container.heap_write s.1 p { data := v, next := none },
      { head := some p, tail := some p,
        container_size := (s.2.container_size + 1) % SIZE_MOD, alloc := a' }),
      ?_, ?_, ?_, ?_, hpn, ?_⟩
    · simp only [custom_container.push_back, hal, hhead]
    · refine ⟨?_, rfl, ?_, by simpa using hlen, hfull2⟩
      · show chain _ (some p) [p] [v]
        exact ⟨rfl, none, by simp [custom_container.heap_write], rfl⟩
      · simp only [hsz2, hsize]; rfl
    · exact hal
    · exact hsz2
    · intro q hq _
      simp [custom_container.heap_write, hq]
  | cons a as =>
    have hhead : s.2.head = some a := by
      cases xs with
      | nil => simp [chain] at hch
      | cons x xs => simp only [chain] at hch; exact hch.1
    obtain ⟨t, ht⟩ := getLast?_of_ne_nil (a :: as) (by simp)
    obtain ⟨nd, hnd1, _⟩ := chain_last s.1 (a :: as) s.2.head xs t hch ht
    have htp : t ≠ p := by
      intro e
      rw [e] at ht
      exact hpn (List.mem_of_getLast?_eq_some ht)
    have h1t : custom_container.heap_write s.1 p { data := v, next := none } t = some nd := by
      simp [custom_container.heap_write, htp, hnd1]
    refine ⟨p, (custom_container.heap_write
        (custom_container.heap_write s.1 p { data := v, next := none }) t
        { nd with next := some p },
      { head := some a, tail := some p,
        container_size := (s.2.container_size + 1) % SIZE_MOD, alloc := a' }),
      ?_, ?_, ?_, ?_, hpn, ?_⟩
    · simp only [custom_container.push_back, hal, hhead, htl, ht, h1t]
    · refine ⟨?_, ?_, ?_, by simpa using hlen, hfull2⟩
      · have := chain_snoc s.1 p t v nd hnd1 (a :: as) s.2.head xs hch hnd hpn ht
        rw [hhead] at this
        exact this
      · show some p = (a :: as ++ [p]).getLast?
        rw [List.getLast?_concat]
      · show (s.2.container_size + 1) % SIZE_MOD = (a :: as ++ [p]).length
        rw [hsz2, hsize]
        simp
    · exact hal
    · exact hsz2
    · intro q hq hqt
      have hqt' : q ≠ t := hqt t (by rw [htl, ht])
      simp [custom_container.heap_write, hq, hqt']

theorem pop_front_empty {T : Type} (sz : Nat) (s : heap T × custom_container T)
    (xs : List T) (hinv : seq_inv sz s [] xs) :
    custom_container.pop_front sz s = some s := by
  have hh := (chain_head_none s.1 [] s.2.head xs hinv.1).mpr rfl
  simp only [custom_container.pop_front, hh]

theorem pop_front_spec {T : Type} (sz : Nat) (hsz : 0 < sz)
    (s : heap T × custom_container T) (a : Nat) (as : List Nat) (x : T) (xs : List T)
    (hinv : seq_inv sz s (a :: as) (x :: xs)) :
    ∃ s', custom_container.pop_front sz s = some s' ∧ seq_inv sz s' as xs ∧
      s.2.head = some a ∧
      s'.2.alloc = custom_allocator.deallocate sz s.2.alloc (some a) 1 ∧
      s'.2.container_size + 1 = s.2.container_size ∧
      s'.1 = custom_container.heap_erase s.1 a ∧ (s'.2.tail = none ↔ as = []) := by
  obtain ⟨hch, htl, hsize, hlt, hfull⟩ := hinv
  simp only [chain] at hch
  obtain ⟨hhead, nxt, hn, hr⟩ := hch
  have hnd : (a :: as).Nodup := addrs_nodup sz hsz _ hfull.1.2.2.2.1
  have hna : a ∉ as := (List.nodup_cons.mp hnd).1
  have hnone := chain_head_none s.1 as nxt xs hr
  have hfull' := full_deallocate sz (s.2.alloc, (a :: as).map (fun a => (a, 1))) hsz hfull a 1
    (by omega) (by simp)
  have herase : ((a :: as).map (fun a => ((a, 1) : Nat × Nat))).erase (a, 1)
      = as.map (fun a => (a, 1)) := by
    simp
  simp only [herase] at hfull'
  have hsz2 : (s.2.container_size + SIZE_MOD - 1) % SIZE_MOD + 1 = s.2.container_size := by
    rw [hsize]
    have e : (a :: as).length + SIZE_MOD - 1 = as.length + SIZE_MOD := by
      rw [List.length_cons]; omega
    rw [e, Nat.add_mod_right, Nat.mod_eq_of_lt (by rw [List.length_cons] at hlt; omega)]
    rw [List.length_cons]
  have htail : (if nxt = none then none else s.2.tail) = as.getLast? := by
    by_cases hnx : nxt = none
    · rw [if_pos hnx]
      have := hnone.mp hnx
      subst this
      rfl
    · rw [if_neg hnx]
      have hne : as ≠ [] := fun e => hnx (hnone.mpr e)
      cases as with
      | nil => exact absurd rfl hne
      | cons a2 as2 =>
        simp only [htl, List.getLast?_cons_cons]
  refine ⟨(custom_container.heap_erase s.1 a,
      { head := nxt,
        tail := if nxt = none then none else s.2.tail
        container_size := (s.2.container_size + SIZE_MOD - 1) % SIZE_MOD
        alloc := custom_allocator.deallocate sz s.2.alloc (some a) 1 }),
    ?_, ?_, hhead, rfl, hsz2, rfl, ?_⟩
  · simp only [custom_container.pop_front, hhead, hn]
  · refine ⟨?_, htail, ?_, by rw [List.length_cons] at hlt; omega, hfull'⟩
    · apply chain_frame s.1 _ as nxt xs _ hr
      intro b hb
      have : b ≠ a := fun e => hna (e ▸ hb)
      simp [custom_container.heap_erase, this]
    · show (s.2.container_size + SIZE_MOD - 1) % SIZE_MOD = as.length
      have h3 := hsz2
      rw [hsize, List.length_cons] at h3
      rw [hsize, List.length_cons]
      omega
  · show (if nxt = none then none else s.2.tail) = none ↔ as = []
    rw [htail]
    exact List.getLast?_eq_none_iff

theorem seq_inv_create {T : Type} (sz G fresh : Nat) (hG : G < SIZE_MOD)
    (hfit : max 1 G * sz < SIZE_MOD) (h : heap T) :
    seq_inv sz (h, (custom_container.create G fresh : custom_container T)) [] [] := by
  have e : custom_allocator.create G fresh = ⟨[memory_block.create fresh G]⟩ := by
    simp [custom_allocator.create, custom_allocator.expand_memory]
  refine ⟨rfl, rfl, rfl, SIZE_MOD_pos, ?_⟩
  show alloc_inv_full sz (custom_allocator.create G fresh, [])
  rw [e]
  exact full_create sz G fresh hG
    (lt_of_le_of_lt (Nat.mul_le_mul_right sz (le_max_right 1 G)) hfit)

theorem emplace_back_eq {T : Type} (sz G fresh : Nat) (s : heap T × custom_container T)
    (v : T) :
    custom_container.emplace_back sz G fresh s v = custom_container.push_back sz G fresh s v :=
  rfl

/-! ## Claims C12, C13 -/

/-- C12: `push_back` appends at the tail.  Let a block of `max(1, BlockSize)` nodes have a
byte count below `2 ^ 64`, so that the storage of a block holds its nodes.  For a
well-formed sequence holding `xs`, with fewer than `2 ^ 64 - 1` elements, and a value
`v`: `push_back(v)` returns, and so does `emplace_back` with the same result; iteration
from `begin()` to `end()` then yields
`xs ++ [v]`, `size()` is the old size plus 1, the allocator afterwards is the result of
exactly one call `allocate(1)` on the allocator before, and the sequence is well formed
again with the new node at the returned address. -/
theorem push_back_appends_at_tail {T : Type} (sz G fresh : Nat)
    (s : heap T × custom_container T) (addrs : List Nat) (xs : List T) (v : T)
    (hsz : 0 < sz) (hG : G < SIZE_MOD)
    (hfit : max 1 G * sz < SIZE_MOD) (hinv : seq_inv sz s addrs xs)
    (hadm : admissible sz G s.2.alloc 1 fresh) (hlen : xs.length + 1 < SIZE_MOD) :
    ∃ p s', custom_container.push_back sz G fresh s v = some s' ∧
      custom_container.emplace_back sz G fresh s v = some s' ∧
      (∀ fuel, xs.length + 1 ≤ fuel →
        custom_container.to_list s'.1 fuel s'.2.begin = some (xs ++ [v])) ∧
      s'.2.size = s.2.size + 1 ∧
      custom_allocator.allocate sz G fresh s.2.alloc 1 = some (some p, s'.2.alloc) ∧
      seq_inv sz s' (addrs ++ [p]) (xs ++ [v]) := by
  have hl := chain_length s.1 addrs s.2.head xs hinv.1
  obtain ⟨p, s', h1, h2, h3, h4, _, _⟩ :=
    push_back_spec sz G fresh hsz hG hfit s addrs xs v hinv hadm (by omega)
  refine ⟨p, s', h1, h1, ?_, h4, h3, h2⟩
  intro fuel hf
  exact chain_to_list s'.1 _ _ _ h2.1 fuel (by simpa using hf)

/-- Witness for C12: `push_back(10)`, `push_back(20)`, `push_back(30)` on an empty sequence
give size 3 and the iteration 10, 20, 30; the theorem is applied to the first call. -/
theorem push_back_appends_at_tail_witness :
    (((custom_container.push_back 8 3 200
          ((fun _ => none), custom_container.create 3 100) (10 : Nat)).bind
        (fun s => (custom_container.push_back 8 3 200 s 20).bind
          (fun s => custom_container.push_back 8 3 200 s 30))).map
        (fun s => (custom_container.to_list s.1 3 s.2.begin, s.2.size))
      = some (some [10, 20, 30], 3)) ∧
    ∃ p s', custom_container.push_back 8 3 200
        ((fun _ => none), custom_container.create 3 100) (10 : Nat) = some s' ∧
      custom_container.emplace_back 8 3 200
        ((fun _ => none), custom_container.create 3 100) (10 : Nat) = some s' ∧
      (∀ fuel, ([] : List Nat).length + 1 ≤ fuel →
        custom_container.to_list s'.1 fuel s'.2.begin = some ([] ++ [10])) ∧
      s'.2.size = (custom_container.create 3 100 : custom_container Nat).size + 1 ∧
      custom_allocator.allocate 8 3 200
        (custom_container.create 3 100 : custom_container Nat).alloc 1
          = some (some p, s'.2.alloc) ∧
      seq_inv 8 s' ([] ++ [p]) ([] ++ [10]) :=
  ⟨by decide,
   push_back_appends_at_tail 8 3 200 ((fun _ => none), custom_container.create 3 100) [] []
     10 (by decide) (by decide) (by decide)
     (seq_inv_create 8 3 100 (by decide) (by decide) _) (by decide) (by decide)⟩

/-- C13: `pop_front` removes exactly the first element.  On a well-formed sequence: if it
is empty, `pop_front()` leaves the state unchanged; if it holds `x :: xs`, `pop_front()`
returns, iteration then yields `xs`, `size()` is the old size minus 1, the allocator
afterwards is the result of `deallocate(head, 1)`, the old head node is dead, `tail` is
`nullptr` exactly when `xs` is empty, and the sequence is well formed again. -/
theorem pop_front_removes_first {T : Type} (sz : Nat) (s : heap T × custom_container T)
    (addrs : List Nat) (xs : List T) (hsz : 0 < sz) (hinv : seq_inv sz s addrs xs) :
    (xs = [] → custom_container.pop_front sz s = some s) ∧
    (∀ x xs', xs = x :: xs' →
      ∃ a s', s.2.head = some a ∧ custom_container.pop_front sz s = some s' ∧
        (∀ fuel, xs'.length ≤ fuel →
          custom_container.to_list s'.1 fuel s'.2.begin = some xs') ∧
        s'.2.size + 1 = s.2.size ∧
        s'.2.alloc = custom_allocator.deallocate sz s.2.alloc (some a) 1 ∧
        s'.1 a = none ∧ (s'.2.tail = none ↔ xs' = []) ∧
        seq_inv sz s' addrs.tail xs') := by
  have hl := chain_length s.1 addrs s.2.head xs hinv.1
  constructor
  · intro hx
    subst hx
    have ha : addrs = [] := by
      cases addrs with
      | nil => rfl
      | cons a as => simp at hl
    subst ha
    exact pop_front_empty sz s [] hinv
  · intro x xs' hx
    subst hx
    cases addrs with
    | nil => simp at hl
    | cons a as =>
      obtain ⟨s', h1, h2, h3, h4, h5, h6, h7⟩ := pop_front_spec sz hsz s a as x xs' hinv
      have hl2 := chain_length s'.1 as s'.2.head xs' h2.1
      refine ⟨a, s', h3, h1, fun fuel hf => chain_to_list s'.1 _ _ _ h2.1 fuel hf, h5, h4,
        ?_, ?_, h2⟩
      · rw [h6]; simp [custom_container.heap_erase]
      · rw [h7]
        constructor
        · intro e; subst e
          cases xs' with
          | nil => rfl
          | cons y ys => simp at hl2
        · intro e; subst e
          cases as with
          | nil => rfl
          | cons b bs => simp at hl2

/-- Witness for C13: `pop_front` on the sequence built by `push_back(10)`. -/
theorem pop_front_removes_first_witness :
    ∃ (p : Nat) (s : heap Nat × custom_container Nat),
      custom_container.push_back 8 3 200
        ((fun _ => none), custom_container.create 3 100) (10 : Nat) = some s ∧
      (([10] : List Nat) = [] → custom_container.pop_front 8 s = some s) ∧
      (∀ x xs', ([10] : List Nat) = x :: xs' →
        ∃ a s', s.2.head = some a ∧ custom_container.pop_front 8 s = some s' ∧
          (∀ fuel, xs'.length ≤ fuel →
            custom_container.to_list s'.1 fuel s'.2.begin = some xs') ∧
          s'.2.size + 1 = s.2.size ∧
          s'.2.alloc = custom_allocator.deallocate 8 s.2.alloc (some a) 1 ∧
          s'.1 a = none ∧ (s'.2.tail = none ↔ xs' = []) ∧
          seq_inv 8 s' [p].tail xs') := by
  obtain ⟨p, s, h1, h2, _⟩ := push_back_spec 8 3 200 (by decide) (by decide) (by decide)
    ((fun _ => none), (custom_container.create 3 100 : custom_container Nat)) [] [] 10
    (seq_inv_create 8 3 100 (by decide) (by decide) _) (by decide) (by decide)
  exact ⟨p, s, h1, pop_front_removes_first 8 s [p] [10] (by decide) h2⟩

/-! ## Storage owned by an allocator -/

theorem update_at_mem (f : memory_block → memory_block) :
    ∀ (bs : List memory_block) (k : Nat) (b' : memory_block),
      b' ∈ custom_allocator.update_at f bs k → b' ∈ bs ∨ ∃ b ∈ bs, b' = f b := by
  intro bs
  induction bs with
  | nil => intro k b' h; simp [custom_allocator.update_at] at h
  | cons c cs ih =>
    intro k b' h
    cases k with
    | zero =>
      simp only [custom_allocator.update_at, List.mem_cons] at h
      rcases h with h | h
      · exact Or.inr ⟨c, List.mem_cons_self _ _, h⟩
      · exact Or.inl (List.mem_cons_of_mem _ h)
    | succ k =>
      simp only [custom_allocator.update_at, List.mem_cons] at h
      rcases h with h | h
      · exact Or.inl (by rw [h]; exact List.mem_cons_self _ _)
      · rcases ih k b' h with h2 | ⟨b, hb, e⟩
        · exact Or.inl (List.mem_cons_of_mem _ h2)
        · exact Or.inr ⟨b, List.mem_cons_of_mem _ hb, e⟩

/-- The method `deallocate` keeps the storage range of every block. -/
theorem deallocate_blocks (sz : Nat) (a : custom_allocator) (p : Option Nat) (n : Nat) :
    ∀ b' ∈ (custom_allocator.deallocate sz a p n).blocks,
      ∃ b ∈ a.blocks, b'.data = b.data ∧ b'.size = b.size := by
  intro b' hb'
  unfold custom_allocator.deallocate at hb'
  split at hb'
  · exact ⟨b', hb', rfl, rfl⟩
  · split at hb'
    · exact ⟨b', hb', rfl, rfl⟩
    · split at hb'
      · exact ⟨b', hb', rfl, rfl⟩
      · rcases update_at_mem _ _ _ _ hb' with h | ⟨b, hb, e⟩
        · exact ⟨b', h, rfl, rfl⟩
        · exact ⟨b, hb, by rw [e]; rfl, by rw [e]; rfl⟩

/-- After `allocate(1)` every block has the storage range of an old block or is the new
block of `max(1, BlockSize)` slots at `fresh`. -/
theorem allocate_one_blocks (sz G fresh : Nat) (a a' : custom_allocator) (p : Nat)
    (hG : G < SIZE_MOD) (hok : ∀ b ∈ a.blocks, block_ok b)
    (hal : custom_allocator.allocate sz G fresh a 1 = some (some p, a')) :
    ∀ b' ∈ a'.blocks, (∃ b ∈ a.blocks, b'.data = b.data ∧ b'.size = b.size) ∨
      (b'.data = fresh ∧ b'.size = max 1 G) := by
  have hM : 1 < SIZE_MOD := by unfold SIZE_MOD; norm_num
  intro b' hb'
  rcases allocate_inv sz G fresh a 1 (by omega) hM hG _ a' hal with
    ⟨q, pre, b, post, b1, _, e, e1, halb⟩ | ⟨_, e1⟩
  · have hbm : b ∈ a.blocks := by rw [e]; simp
    obtain ⟨i, _, _, _, hb1⟩ :=
      block_allocate_inv_mod sz b b1 1 q (wf_of_block_ok b (hok b hbm)) halb
    rw [e1] at hb'
    rcases List.mem_append.mp hb' with h | h
    · exact Or.inl ⟨b', by rw [e]; exact List.mem_append_left _ h, rfl, rfl⟩
    · rcases List.mem_cons.mp h with h | h
      · exact Or.inl ⟨b, hbm, by rw [h, hb1], by rw [h, hb1]⟩
      · exact Or.inl ⟨b', by rw [e]; exact List.mem_append_right _ (List.mem_cons_of_mem _ h),
          rfl, rfl⟩
  · rw [e1] at hb'
    rcases List.mem_append.mp hb' with h | h
    · exact Or.inl ⟨b', h, rfl, rfl⟩
    · have e2 : b' = ⟨fresh, 1, if 1 > G then 1 else G,
          List.replicate 1 true ++ List.replicate ((if 1 > G then 1 else G) - 1) false⟩ := by
        simpa using h
      right
      rw [e2]
      exact ⟨rfl, ite_eq_max 1 G⟩

theorem owns_of_same_range (sz : Nat) (a : custom_allocator) (b' : memory_block) (q : Nat)
    (h : ∃ b ∈ a.blocks, b'.data = b.data ∧ b'.size = b.size)
    (hq : b'.belongs_to_block sz q = true) : owns sz a q := by
  obtain ⟨b, hb, e1, e2⟩ := h
  refine ⟨b, hb, ?_⟩
  simp only [memory_block.belongs_to_block] at hq ⊢
  rw [← e1, ← e2]
  exact hq

theorem owns_deallocate (sz : Nat) (a : custom_allocator) (p : Option Nat) (n q : Nat)
    (h : owns sz (custom_allocator.deallocate sz a p n) q) : owns sz a q := by
  obtain ⟨b', hb', hq⟩ := h
  exact owns_of_same_range sz a b' q (deallocate_blocks sz a p n b' hb') hq

theorem owns_allocate_one (sz G fresh : Nat) (a a' : custom_allocator) (p q : Nat)
    (hG : G < SIZE_MOD) (hok : ∀ b ∈ a.blocks, block_ok b)
    (hal : custom_allocator.allocate sz G fresh a 1 = some (some p, a'))
    (h : owns sz a' q) : owns sz a q ∨ in_block sz G fresh q := by
  obtain ⟨b', hb', hq⟩ := h
  rcases allocate_one_blocks sz G fresh a a' p hG hok hal b' hb' with h1 | ⟨h1, h2⟩
  · exact Or.inl (owns_of_same_range sz a b' q h1 hq)
  · right
    have hq2 := belongs_in_range sz b' q hq
    rw [h1, h2] at hq2
    exact hq2

/-- Under the invariant the address of a live single-slot allocation is owned. -/
theorem owns_of_live (sz : Nat) (hsz : 0 < sz) (a : custom_allocator)
    (live : List (Nat × Nat)) (hinv : alloc_inv sz (a, live)) (l : Nat × Nat)
    (hl : l ∈ live) : owns sz a l.1 := by
  obtain ⟨hpos, b, hb, i, e, hi, _⟩ := hinv.2.2.1 l hl
  refine ⟨b, hb, ?_⟩
  rw [e]
  exact belongs_slot sz b i hsz (hinv.2.2.2.2 b hb) (by omega)

theorem owns_of_node {T : Type} (sz : Nat) (hsz : 0 < sz) (s : heap T × custom_container T)
    (addrs : List Nat) (xs : List T) (hinv : seq_inv sz s addrs xs) (a : Nat)
    (ha : a ∈ addrs) : owns sz s.2.alloc a :=
  owns_of_live sz hsz s.2.alloc _ hinv.2.2.2.2.1 (a, 1) (List.mem_map.mpr ⟨a, ha, rfl⟩)

theorem admissible_of_env_ok (sz G : Nat) (a : custom_allocator) (env : Nat → Nat)
    (h : env_ok sz G a.blocks env) (k : Nat) : admissible sz G a 1 (env k) :=
  ⟨by unfold SIZE_MOD; norm_num, fun b hb => h.1 k b hb⟩

theorem env_ok_step (sz G : Nat) (a a' : custom_allocator) (p : Nat) (env : Nat → Nat)
    (hG : G < SIZE_MOD) (hok : ∀ b ∈ a.blocks, block_ok b) (h : env_ok sz G a.blocks env)
    (hal : custom_allocator.allocate sz G (env 0) a 1 = some (some p, a')) :
    env_ok sz G a'.blocks (fun k => env (k + 1)) := by
  refine ⟨?_, fun j k hjk => h.2 (j + 1) (k + 1) (by omega)⟩
  intro k b' hb'
  rcases allocate_one_blocks sz G (env 0) a a' p hG hok hal b' hb' with
    ⟨b, hb, e1, e2⟩ | ⟨e1, e2⟩
  · rw [e1, e2]
    exact h.1 (k + 1) b hb
  · rw [e1, e2]
    exact h.2 0 (k + 1) (by omega)

theorem env_ok_of_same_range (sz G : Nat) (bs bs' : List memory_block) (env : Nat → Nat)
    (hb : ∀ b' ∈ bs', ∃ b ∈ bs, b'.data = b.data ∧ b'.size = b.size)
    (h : env_ok sz G bs env) : env_ok sz G bs' env := by
  refine ⟨?_, h.2⟩
  intro k b' hb'
  obtain ⟨b, hbm, e1, e2⟩ := hb b' hb'
  rw [e1, e2]
  exact h.1 k b hbm

/-! ## Repeated calls -/

theorem push_all_spec {T : Type} (sz G : Nat) (hsz : 0 < sz) (hG : G < SIZE_MOD)
    (hfit : max 1 G * sz < SIZE_MOD) :
    ∀ (vs : List T) (env : Nat → Nat) (s : heap T × custom_container T) (addrs : List Nat)
      (xs : List T), seq_inv sz s addrs xs → env_ok sz G s.2.alloc.blocks env →
      addrs.length + vs.length < SIZE_MOD →
      ∃ s' new, push_all sz G env s vs = some s' ∧
        seq_inv sz s' (addrs ++ new) (xs ++ vs) ∧ new.length = vs.length := by
  intro vs
  induction vs with
  | nil =>
    intro env s addrs xs hinv _ _
    exact ⟨s, [], rfl, by simpa using hinv, rfl⟩
  | cons v vs ih =>
    intro env s addrs xs hinv henv hlen
    simp only [List.length_cons] at hlen
    obtain ⟨p, s1, h1, h2, h3, _, _, _⟩ := push_back_spec sz G (env 0) hsz hG hfit s addrs xs v hinv
      (admissible_of_env_ok sz G s.2.alloc env henv 0) (by omega)
    have henv1 := env_ok_step sz G s.2.alloc s1.2.alloc p env hG hinv.2.2.2.2.1.1 henv h3
    obtain ⟨s', new, h4, h5, h6⟩ := ih (fun k => env (k + 1)) s1 (addrs ++ [p]) (xs ++ [v]) h2
      henv1 (by simp only [List.length_append, List.length_cons, List.length_nil]; omega)
    refine ⟨s', p :: new, ?_, ?_, by simp [h6]⟩
    · simp only [push_all, h1, h4]
    · simpa using h5

theorem pop_n_spec {T : Type} (sz : Nat) (hsz : 0 < sz) :
    ∀ (k : Nat) (s : heap T × custom_container T) (addrs : List Nat) (xs : List T),
      seq_inv sz s addrs xs → k ≤ addrs.length →
      ∃ s', pop_n sz k s = some s' ∧ seq_inv sz s' (addrs.drop k) (xs.drop k) := by
  intro k
  induction k with
  | zero =>
    intro s addrs xs hinv _
    exact ⟨s, rfl, by simpa using hinv⟩
  | succ k ih =>
    intro s addrs xs hinv hk
    have hl := chain_length s.1 addrs s.2.head xs hinv.1
    cases addrs with
    | nil => simp at hk
    | cons a as =>
      cases xs with
      | nil => simp at hl
      | cons x xs =>
        obtain ⟨s1, h1, h2, _⟩ := pop_front_spec sz hsz s a as x xs hinv
        obtain ⟨s', h3, h4⟩ := ih s1 as xs h2 (by simpa using hk)
        refine ⟨s', ?_, by simpa using h4⟩
        simp only [pop_n, h1, h3]

theorem clear_spec {T : Type} (sz : Nat) (hsz : 0 < sz) :
    ∀ (addrs : List Nat) (xs : List T) (s : heap T × custom_container T) (fuel : Nat),
      seq_inv sz s addrs xs → addrs.length ≤ fuel →
      ∃ s', custom_container.clear sz fuel s = some (s', addrs.length) ∧
        seq_inv sz s' [] [] ∧ (∀ q, q ∉ addrs → s'.1 q = s.1 q) ∧
        (∀ b' ∈ s'.2.alloc.blocks, ∃ b ∈ s.2.alloc.blocks,
          b'.data = b.data ∧ b'.size = b.size) := by
  intro addrs
  induction addrs with
  | nil =>
    intro xs s fuel hinv _
    have hx : xs = [] := by
      have := chain_length s.1 [] s.2.head xs hinv.1
      cases xs with
      | nil => rfl
      | cons y ys => simp at this
    subst hx
    have he : s.2.empty = true := by
      simp [custom_container.empty, hinv.2.2.1]
    refine ⟨s, ?_, hinv, fun q _ => rfl, fun b' hb' => ⟨b', hb', rfl, rfl⟩⟩
    cases fuel <;> simp [custom_container.clear, he]
  | cons a as ih =>
    intro xs s fuel hinv hf
    have hl := chain_length s.1 (a :: as) s.2.head xs hinv.1
    cases xs with
    | nil => simp at hl
    | cons x xs =>
      have he : s.2.empty = false := by
        simp [custom_container.empty, hinv.2.2.1]
      obtain ⟨s1, h1, h2, _, h4, _, h6, _⟩ := pop_front_spec sz hsz s a as x xs hinv
      cases fuel with
      | zero => simp at hf
      | succ fuel =>
        obtain ⟨s', h7, h8, h9, h10⟩ := ih xs s1 fuel h2 (by simpa using hf)
        refine ⟨s', ?_, h8, ?_, ?_⟩
        · simp [custom_container.clear, he, h1, h7]
        · intro q hq
          rw [h9 q (fun hm => hq (List.mem_cons_of_mem _ hm)), h6]
          have : q ≠ a := fun e => hq (by rw [e]; exact List.mem_cons_self _ _)
          simp [custom_container.heap_erase, this]
        · intro b' hb'
          obtain ⟨b1, hb1, e1, e2⟩ := h10 b' hb'
          rw [h4] at hb1
          obtain ⟨b, hb, e3, e4⟩ := deallocate_blocks sz s.2.alloc (some a) 1 b1 hb1
          exact ⟨b, hb, by rw [e1, e3], by rw [e2, e4]⟩

/-! ## Copying a sequence -/

/-- What `push_back` does to memory that its own allocator does not own. -/
theorem push_back_frame {T : Type} (sz G fresh : Nat) (hsz : 0 < sz) (hG : G < SIZE_MOD)
    (hfit : max 1 G * sz < SIZE_MOD)
    (s : heap T × custom_container T) (addrs : List Nat) (xs : List T) (v : T)
    (hinv : seq_inv sz s addrs xs) (hadm : admissible sz G s.2.alloc 1 fresh)
    (hlen : addrs.length + 1 < SIZE_MOD) :
    ∃ p s', custom_container.push_back sz G fresh s v = some s' ∧
      seq_inv sz s' (addrs ++ [p]) (xs ++ [v]) ∧
      custom_allocator.allocate sz G fresh s.2.alloc 1 = some (some p, s'.2.alloc) ∧
      (∀ q, ¬ owns sz s.2.alloc q → ¬ in_block sz G fresh q → s'.1 q = s.1 q) ∧
      (∀ q, owns sz s'.2.alloc q → owns sz s.2.alloc q ∨ in_block sz G fresh q) := by
  obtain ⟨p, s', h1, h2, h3, _, _, h6⟩ :=
    push_back_spec sz G fresh hsz hG hfit s addrs xs v hinv hadm hlen
  have hok := hinv.2.2.2.2.1.1
  have hown := fun q => owns_allocate_one sz G fresh s.2.alloc s'.2.alloc p q hG hok h3
  refine ⟨p, s', h1, h2, h3, ?_, hown⟩
  intro q hq1 hq2
  apply h6 q
  · intro e
    have hp := owns_of_node sz hsz s' (addrs ++ [p]) (xs ++ [v]) h2 p (by simp)
    rw [← e] at hp
    rcases hown q hp with h | h
    · exact hq1 h
    · exact hq2 h
  · intro t ht e
    have htm : t ∈ addrs := by
      rw [hinv.2.1] at ht
      exact List.mem_of_getLast?_eq_some ht
    exact hq1 (by rw [e]; exact owns_of_node sz hsz s addrs xs hinv t htm)

theorem copy_loop_spec {T : Type} (sz G : Nat) (hsz : 0 < sz) (hG : G < SIZE_MOD)
    (hfit : max 1 G * sz < SIZE_MOD) :
    ∀ (addrs2 : List Nat) (xs2 : List T) (it : Option Nat) (env : Nat → Nat)
      (s : heap T × custom_container T) (addrs1 : List Nat) (xs1 : List T) (fuel : Nat),
      seq_inv sz s addrs1 xs1 → chain s.1 it addrs2 xs2 →
      (∀ q ∈ addrs2, ¬ owns sz s.2.alloc q) →
      (∀ k, ∀ q ∈ addrs2, ¬ in_block sz G (env k) q) →
      env_ok sz G s.2.alloc.blocks env → addrs1.length + addrs2.length < SIZE_MOD →
      addrs2.length ≤ fuel →
      ∃ s' new, custom_container.copy_loop sz G fuel env it s = some s' ∧
        seq_inv sz s' (addrs1 ++ new) (xs1 ++ xs2) ∧
        (∀ q, ¬ owns sz s.2.alloc q → (∀ k, ¬ in_block sz G (env k) q) → s'.1 q = s.1 q) ∧
        (∀ b' ∈ s'.2.alloc.blocks,
          (∃ b ∈ s.2.alloc.blocks, b'.data = b.data ∧ b'.size = b.size) ∨
            ∃ k, b'.data = env k ∧ b'.size = max 1 G) := by
  intro addrs2
  induction addrs2 with
  | nil =>
    intro xs2 it env s addrs1 xs1 fuel hinv hch _ _ _ _ _
    have hx : xs2 = [] := by
      have := chain_length s.1 [] it xs2 hch
      cases xs2 with
      | nil => rfl
      | cons y ys => simp at this
    subst hx
    have hit : it = none := by simpa [chain] using hch
    subst hit
    refine ⟨s, [], ?_, by simpa using hinv, fun q _ _ => rfl,
      fun b' hb' => Or.inl ⟨b', hb', rfl, rfl⟩⟩
    cases fuel <;> rfl
  | cons a2 as2 ih =>
    intro xs2 it env s addrs1 xs1 fuel hinv hch hf1 hf2 henv hlen hfuel
    cases xs2 with
    | nil => simp [chain] at hch
    | cons x xs2 =>
      simp only [chain] at hch
      obtain ⟨hit, nxt, hn, hr⟩ := hch
      subst hit
      simp only [List.length_cons] at hlen hfuel
      cases fuel with
      | zero => omega
      | succ fuel =>
        obtain ⟨p, s1, h1, h2, h3, h4, h5⟩ := push_back_frame sz G (env 0) hsz hG hfit s addrs1 xs1 x
          hinv (admissible_of_env_ok sz G s.2.alloc env henv 0) (by omega)
        have hok := hinv.2.2.2.2.1.1
        have hsame : ∀ q ∈ a2 :: as2, s1.1 q = s.1 q :=
          fun q hq => h4 q (hf1 q hq) (hf2 0 q hq)
        have hn1 : s1.1 a2 = some ⟨x, nxt⟩ := by
          rw [hsame a2 (List.mem_cons_self _ _)]; exact hn
        have hr1 : chain s1.1 nxt as2 xs2 :=
          chain_frame s.1 s1.1 as2 nxt xs2
            (fun q hq => hsame q (List.mem_cons_of_mem _ hq)) hr
        have hf1' : ∀ q ∈ as2, ¬ owns sz s1.2.alloc q := by
          intro q hq ho
          rcases h5 q ho with h | h
          · exact hf1 q (List.mem_cons_of_mem _ hq) h
          · exact hf2 0 q (List.mem_cons_of_mem _ hq) h
        obtain ⟨s', new, h6, h7, h8, h9⟩ := ih xs2 nxt (fun k => env (k + 1)) s1
          (addrs1 ++ [p]) (xs1 ++ [x]) fuel h2 hr1 hf1'
          (fun k q hq => hf2 (k + 1) q (List.mem_cons_of_mem _ hq))
          (env_ok_step sz G s.2.alloc s1.2.alloc p env hG hok henv h3)
          (by simp only [List.length_append, List.length_cons, List.length_nil]; omega)
          (by omega)
        refine ⟨s', p :: new, ?_, by simpa using h7, ?_, ?_⟩
        · simp only [custom_container.copy_loop, hn, h1, hn1, h6]
        · intro q hq1 hq2
          rw [h8 q ?_ (fun k => hq2 (k + 1)), h4 q hq1 (hq2 0)]
          intro ho
          rcases h5 q ho with h | h
          · exact hq1 h
          · exact hq2 0 h
        · intro b' hb'
          rcases h9 b' hb' with ⟨b1, hb1, e1, e2⟩ | ⟨k, e1, e2⟩
          · rcases allocate_one_blocks sz G (env 0) s.2.alloc s1.2.alloc p hG hok h3 b1 hb1 with
              ⟨b, hb, e3, e4⟩ | ⟨e3, e4⟩
            · exact Or.inl ⟨b, hb, by rw [e1, e3], by rw [e2, e4]⟩
            · exact Or.inr ⟨0, by rw [e1, e3], by rw [e2, e4]⟩
          · exact Or.inr ⟨k + 1, e1, e2⟩

theorem not_owns_of_apart (sz : Nat) (a1 a2 : custom_allocator) (q : Nat)
    (hap : blocks_apart sz a1.blocks a2.blocks) (h2 : owns sz a2 q) : ¬ owns sz a1 q := by
  rintro ⟨b1, hb1, hq1⟩
  obtain ⟨b2, hb2, hq2⟩ := h2
  have := hap b1 hb1 b2 hb2
  have hr1 := belongs_in_range sz b1 q hq1
  have hr2 := belongs_in_range sz b2 q hq2
  omega

theorem not_in_block_of_env_ok (sz G : Nat) (a : custom_allocator) (env : Nat → Nat)
    (q k : Nat) (henv : ∀ k, ∀ b ∈ a.blocks,
      b.data + b.size * sz ≤ env k ∨ env k + max 1 G * sz ≤ b.data)
    (ho : owns sz a q) : ¬ in_block sz G (env k) q := by
  rintro ⟨h1, h2⟩
  obtain ⟨b, hb, hq⟩ := ho
  have := henv k b hb
  have hr := belongs_in_range sz b q hq
  omega

theorem seq_inv_frame {T : Type} (sz : Nat) (h h' : heap T) (c : custom_container T)
    (addrs : List Nat) (xs : List T) (hinv : seq_inv sz (h, c) addrs xs)
    (hsame : ∀ q ∈ addrs, h' q = h q) : seq_inv sz (h', c) addrs xs :=
  ⟨chain_frame h h' addrs c.head xs hsame hinv.1, hinv.2.1, hinv.2.2.1, hinv.2.2.2.1,
    hinv.2.2.2.2⟩

theorem two_seqs_symm {T : Type} (sz : Nat) (h : heap T) (c1 c2 : custom_container T)
    (addrs1 : List Nat) (xs1 : List T) (addrs2 : List Nat) (xs2 : List T)
    (hts : two_seqs sz h c1 c2 addrs1 xs1 addrs2 xs2) :
    two_seqs sz h c2 c1 addrs2 xs2 addrs1 xs1 :=
  ⟨hts.2.1, hts.1, fun b hb c hc => (hts.2.2 c hc b hb).symm⟩

/-- Appending the elements of `src` to an empty sequence `dst` with storage of its own. -/
theorem copy_into_spec {T : Type} (sz G : Nat) (hsz : 0 < sz) (hG : G < SIZE_MOD)
    (hfit : max 1 G * sz < SIZE_MOD)
    (h : heap T) (dst src : custom_container T) (addrs2 : List Nat) (xs2 : List T)
    (env : Nat → Nat) (fuel : Nat)
    (hts : two_seqs sz h dst src [] [] addrs2 xs2)
    (henv : env_ok sz G (dst.alloc.blocks ++ src.alloc.blocks) env)
    (hlen : addrs2.length < SIZE_MOD) (hfuel : addrs2.length ≤ fuel) :
    ∃ s' new, custom_container.copy_loop sz G fuel env src.head (h, dst) = some s' ∧
      two_seqs sz s'.1 s'.2 src new xs2 addrs2 xs2 := by
  obtain ⟨hd, hs, hap⟩ := hts
  have hown2 : ∀ q ∈ addrs2, owns sz src.alloc q :=
    fun q hq => owns_of_node sz hsz (h, src) addrs2 xs2 hs q hq
  have henv1 : env_ok sz G dst.alloc.blocks env :=
    ⟨fun k b hb => henv.1 k b (List.mem_append_left _ hb), henv.2⟩
  have henv2 : ∀ k, ∀ b ∈ src.alloc.blocks,
      b.data + b.size * sz ≤ env k ∨ env k + max 1 G * sz ≤ b.data :=
    fun k b hb => henv.1 k b (List.mem_append_right _ hb)
  obtain ⟨s', new, h1, h2, h3, h4⟩ := copy_loop_spec sz G hsz hG hfit addrs2 xs2 src.head env
    (h, dst) [] [] fuel hd hs.1
    (fun q hq => not_owns_of_apart sz dst.alloc src.alloc q hap (hown2 q hq))
    (fun k q hq => not_in_block_of_env_ok sz G src.alloc env q k henv2 (hown2 q hq))
    henv1 (by simpa using hlen) hfuel
  refine ⟨s', new, h1, by simpa using h2, ?_, ?_⟩
  · apply seq_inv_frame sz h s'.1 src addrs2 xs2 hs
    intro q hq
    exact h3 q (not_owns_of_apart sz dst.alloc src.alloc q hap (hown2 q hq))
      (fun k => not_in_block_of_env_ok sz G src.alloc env q k henv2 (hown2 q hq))
  · intro b' hb' c hc
    rcases h4 b' hb' with ⟨b, hb, e1, e2⟩ | ⟨k, e1, e2⟩
    · rw [e1, e2]; exact hap b hb c hc
    · rw [e1, e2]; exact (henv2 k c hc).symm

theorem assign_spec {T : Type} (sz G : Nat) (hsz : 0 < sz) (hG : G < SIZE_MOD)
    (hfit : max 1 G * sz < SIZE_MOD)
    (h : heap T) (dst src : custom_container T) (addrs1 : List Nat) (xs1 : List T)
    (addrs2 : List Nat) (xs2 : List T) (env : Nat → Nat) (fuel : Nat)
    (hts : two_seqs sz h dst src addrs1 xs1 addrs2 xs2)
    (henv : env_ok sz G (dst.alloc.blocks ++ src.alloc.blocks) env)
    (hlen : addrs2.length < SIZE_MOD) (hf1 : addrs1.length ≤ fuel)
    (hf2 : addrs2.length ≤ fuel) :
    ∃ s' new, custom_container.assign sz G env fuel (h, dst) src false = some s' ∧
      two_seqs sz s'.1 s'.2 src new xs2 addrs2 xs2 := by
  obtain ⟨hd, hs, hap⟩ := hts
  obtain ⟨s1, h1, h2, h3, h4⟩ := clear_spec sz hsz addrs1 xs1 (h, dst) fuel hd hf1
  have hown2 : ∀ q ∈ addrs2, owns sz src.alloc q :=
    fun q hq => owns_of_node sz hsz (h, src) addrs2 xs2 hs q hq
  have hs1 : seq_inv sz (s1.1, src) addrs2 xs2 := by
    apply seq_inv_frame sz h s1.1 src addrs2 xs2 hs
    intro q hq
    apply h3 q
    intro hq1
    exact not_owns_of_apart sz dst.alloc src.alloc q hap (hown2 q hq)
      (owns_of_node sz hsz (h, dst) addrs1 xs1 hd q hq1)
  have hap1 : blocks_apart sz s1.2.alloc.blocks src.alloc.blocks := by
    intro b' hb' c hc
    obtain ⟨b, hb, e1, e2⟩ := h4 b' hb'
    rw [e1, e2]; exact hap b hb c hc
  have henv1 : env_ok sz G (s1.2.alloc.blocks ++ src.alloc.blocks) env := by
    apply env_ok_of_same_range sz G (dst.alloc.blocks ++ src.alloc.blocks) _ env _ henv
    intro b' hb'
    rcases List.mem_append.mp hb' with hm | hm
    · obtain ⟨b, hb, e⟩ := h4 b' hm
      exact ⟨b, List.mem_append_left _ hb, e⟩
    · exact ⟨b', List.mem_append_right _ hm, rfl, rfl⟩
  obtain ⟨s', new, h5, h6⟩ := copy_into_spec sz G hsz hG hfit s1.1 s1.2 src addrs2 xs2 env fuel
    ⟨h2, hs1, hap1⟩ henv1 hlen hf2
  refine ⟨s', new, ?_, h6⟩
  simp only [custom_container.assign, h1]
  exact h5

/-! ## Reachable states of a sequence are well formed -/

theorem chain_node_addrs {T : Type} (h : heap T) :
    ∀ (addrs : List Nat) (p : Option Nat) (xs : List T), chain h p addrs xs →
      ∀ fuel, addrs.length ≤ fuel → custom_container.node_addrs h fuel p = some addrs := by
  intro addrs
  induction addrs with
  | nil =>
    intro p xs hc fuel _
    have hp := (chain_head_none h [] p xs hc).mpr rfl
    subst hp
    cases fuel <;> rfl
  | cons a as ih =>
    intro p xs hc fuel hf
    cases xs with
    | nil => simp [chain] at hc
    | cons x xs =>
      simp only [chain] at hc
      obtain ⟨hp, nxt, hn, hr⟩ := hc
      subst hp
      cases fuel with
      | zero => simp at hf
      | succ fuel =>
        simp only [custom_container.node_addrs, hn]
        rw [ih nxt xs hr fuel (by simpa using hf)]
        rfl

theorem seq_reach_inv {T : Type} (sz G : Nat) (hsz : 0 < sz) (hG : G < SIZE_MOD)
    (hfit : max 1 G * sz < SIZE_MOD)
    (s : heap T × custom_container T) (hr : seq_reach sz G s) :
    ∃ addrs xs, seq_inv sz s addrs xs := by
  induction hr with
  | init h fresh => exact ⟨[], [], seq_inv_create sz G fresh hG hfit h⟩
  | push_back s s' v fresh _ hadm hlen hp ih =>
    obtain ⟨addrs, xs, hinv⟩ := ih
    obtain ⟨p, s1, h1, h2, _⟩ := push_back_spec sz G fresh hsz hG hfit s addrs xs v hinv hadm
      (by rw [← hinv.2.2.1]; exact hlen)
    rw [hp] at h1
    cases h1
    exact ⟨_, _, h2⟩
  | emplace_back s s' v fresh _ hadm hlen hp ih =>
    obtain ⟨addrs, xs, hinv⟩ := ih
    obtain ⟨p, s1, h1, h2, _⟩ := push_back_spec sz G fresh hsz hG hfit s addrs xs v hinv hadm
      (by rw [← hinv.2.2.1]; exact hlen)
    rw [emplace_back_eq, h1] at hp
    cases hp
    exact ⟨_, _, h2⟩
  | pop_front s s' _ hp ih =>
    obtain ⟨addrs, xs, hinv⟩ := ih
    have hl := chain_length s.1 addrs s.2.head xs hinv.1
    cases addrs with
    | nil =>
      rw [pop_front_empty sz s xs hinv] at hp
      cases hp
      exact ⟨_, _, hinv⟩
    | cons a as =>
      cases xs with
      | nil => simp at hl
      | cons x xs =>
        obtain ⟨s1, h1, h2, _⟩ := pop_front_spec sz hsz s a as x xs hinv
        rw [hp] at h1
        cases h1
        exact ⟨_, _, h2⟩
  | clear s s' fuel k _ hf hc ih =>
    obtain ⟨addrs, xs, hinv⟩ := ih
    obtain ⟨s1, h1, h2, _⟩ := clear_spec sz hsz addrs xs s fuel hinv
      (by rw [← hinv.2.2.1]; exact hf)
    rw [hc] at h1
    cases h1
    exact ⟨_, _, h2⟩
  | assign s s' other addrs2 xs2 env fuel _ ho hap henv hlen hf1 hf2 ha ih =>
    obtain ⟨addrs, xs, hinv⟩ := ih
    have hl2 := chain_length s.1 addrs2 other.head xs2 ho.1
    obtain ⟨s1, new, h1, h2⟩ := assign_spec sz G hsz hG hfit s.1 s.2 other addrs xs addrs2 xs2 env
      fuel ⟨hinv, ho, hap⟩ henv (by omega) (by rw [← hinv.2.2.1]; exact hf1) (by omega)
    have e : (s.1, s.2) = s := rfl
    rw [e, ha] at h1
    cases h1
    exact ⟨_, _, h2.1⟩
  | assign_self s s' env fuel _ ha ih =>
    simp only [custom_container.assign] at ha
    cases ha
    exact ih
  | frame s h' _ hfr ih =>
    obtain ⟨addrs, xs, hinv⟩ := ih
    exact ⟨addrs, xs, seq_inv_frame sz s.1 h' s.2 addrs xs hinv
      (fun q hq => hfr q (owns_of_node sz hsz s addrs xs hinv q hq))⟩

/-! ## Two sequences with storage of their own do not disturb each other -/

theorem two_seqs_push_back {T : Type} (sz G fresh : Nat) (hsz : 0 < sz) (hG : G < SIZE_MOD)
    (hfit : max 1 G * sz < SIZE_MOD)
    (h : heap T) (c1 c2 : custom_container T) (addrs1 : List Nat) (xs1 : List T)
    (addrs2 : List Nat) (xs2 : List T) (v : T)
    (hts : two_seqs sz h c1 c2 addrs1 xs1 addrs2 xs2)
    (hadm : admissible sz G c1.alloc 1 fresh)
    (hnew : ∀ c ∈ c2.alloc.blocks,
      c.data + c.size * sz ≤ fresh ∨ fresh + max 1 G * sz ≤ c.data)
    (hlen : addrs1.length + 1 < SIZE_MOD) :
    ∃ p s', custom_container.push_back sz G fresh (h, c1) v = some s' ∧
      two_seqs sz s'.1 s'.2 c2 (addrs1 ++ [p]) (xs1 ++ [v]) addrs2 xs2 := by
  obtain ⟨h1, h2, hap⟩ := hts
  obtain ⟨p, s', e1, e2, e3, e4, _⟩ :=
    push_back_frame sz G fresh hsz hG hfit (h, c1) addrs1 xs1 v h1 hadm hlen
  have hown2 : ∀ q ∈ addrs2, owns sz c2.alloc q :=
    fun q hq => owns_of_node sz hsz (h, c2) addrs2 xs2 h2 q hq
  refine ⟨p, s', e1, e2, ?_, ?_⟩
  · apply seq_inv_frame sz h s'.1 c2 addrs2 xs2 h2
    intro q hq
    apply e4 q (not_owns_of_apart sz c1.alloc c2.alloc q hap (hown2 q hq))
    rintro ⟨g1, g2⟩
    obtain ⟨b, hb, hq2⟩ := hown2 q hq
    have := hnew b hb
    have hr := belongs_in_range sz b q hq2
    omega
  · intro b' hb' c hc
    rcases allocate_one_blocks sz G fresh c1.alloc s'.2.alloc p hG h1.2.2.2.2.1.1 e3 b' hb' with
      ⟨b, hb, g1, g2⟩ | ⟨g1, g2⟩
    · rw [g1, g2]; exact hap b hb c hc
    · rw [g1, g2]; exact (hnew c hc).symm

theorem two_seqs_pop_front {T : Type} (sz : Nat) (hsz : 0 < sz)
    (h : heap T) (c1 c2 : custom_container T) (addrs1 : List Nat) (xs1 : List T)
    (addrs2 : List Nat) (xs2 : List T)
    (hts : two_seqs sz h c1 c2 addrs1 xs1 addrs2 xs2) :
    ∃ s', custom_container.pop_front sz (h, c1) = some s' ∧
      two_seqs sz s'.1 s'.2 c2 addrs1.tail xs1.tail addrs2 xs2 := by
  obtain ⟨h1, h2, hap⟩ := hts
  have hl := chain_length h addrs1 c1.head xs1 h1.1
  cases addrs1 with
  | nil =>
    have hx : xs1 = [] := by
      cases xs1 with
      | nil => rfl
      | cons y ys => simp at hl
    subst hx
    exact ⟨(h, c1), pop_front_empty sz (h, c1) [] h1, h1, h2, hap⟩
  | cons a as =>
    cases xs1 with
    | nil => simp at hl
    | cons x xs =>
      obtain ⟨s', e1, e2, _, e4, _, e6, _⟩ := pop_front_spec sz hsz (h, c1) a as x xs h1
      refine ⟨s', e1, e2, ?_, ?_⟩
      · apply seq_inv_frame sz h s'.1 c2 addrs2 xs2 h2
        intro q hq
        rw [e6]
        have : q ≠ a := by
          intro e
          have ho2 := owns_of_node sz hsz (h, c2) addrs2 xs2 h2 q hq
          have ho1 := owns_of_node sz hsz (h, c1) (a :: as) (x :: xs) h1 a
            (List.mem_cons_self _ _)
          rw [← e] at ho1
          exact not_owns_of_apart sz c1.alloc c2.alloc q hap ho2 ho1
        simp [custom_container.heap_erase, this]
      · intro b' hb' c hc
        rw [e4] at hb'
        obtain ⟨b, hb, g1, g2⟩ := deallocate_blocks sz c1.alloc (some a) 1 b' hb'
        rw [g1, g2]; exact hap b hb c hc

/-! ## Claims C14, C15, C16, C17, C20 -/

/-- C14: the size invariant of the sequence.  Let a block of `max(1, BlockSize)` nodes
have a byte count below `2 ^ 64`, so that the storage of a block holds its nodes.  In
every reachable state, following the
links from `head` reaches `nullptr` after exactly `size()` nodes; `head` is `nullptr`
exactly when `tail` is, and exactly when `size()` is 0; `tail` is the last node reached
and its link is `nullptr`. -/
theorem size_invariant {T : Type} (sz G : Nat) (s : heap T × custom_container T)
    (hsz : 0 < sz) (hG : G < SIZE_MOD)
    (hfit : max 1 G * sz < SIZE_MOD) (hr : seq_reach sz G s) :
    ∃ addrs, custom_container.node_addrs s.1 s.2.size s.2.begin = some addrs ∧
      addrs.length = s.2.size ∧ (s.2.head = none ↔ s.2.tail = none) ∧
      (s.2.tail = none ↔ s.2.size = 0) ∧ s.2.tail = addrs.getLast? ∧
      ∀ t, s.2.tail = some t → ∃ nd, s.1 t = some nd ∧ nd.next = none := by
  obtain ⟨addrs, xs, hch, htl, hsize, _, _⟩ := seq_reach_inv sz G hsz hG hfit s hr
  have h1 := chain_head_none s.1 addrs s.2.head xs hch
  have h2 : s.2.tail = none ↔ addrs = [] := by rw [htl]; exact List.getLast?_eq_none_iff
  have h3 : s.2.size = 0 ↔ addrs = [] := by
    show s.2.container_size = 0 ↔ addrs = []
    rw [hsize]; exact List.length_eq_zero
  refine ⟨addrs, ?_, hsize.symm, h1.trans h2.symm, h2.trans h3.symm, htl, ?_⟩
  · exact chain_node_addrs s.1 addrs s.2.head xs hch _ (by
      show addrs.length ≤ s.2.container_size
      omega)
  · intro t ht
    exact chain_last s.1 addrs s.2.head xs t hch (by rw [← htl]; exact ht)

/-- Witness for C14: the state after `push_back(10)` on an empty sequence. -/
theorem size_invariant_witness :
    ∃ (s : heap Nat × custom_container Nat),
      custom_container.push_back 8 3 200
        ((fun _ => none), custom_container.create 3 100) (10 : Nat) = some s ∧
      ∃ addrs, custom_container.node_addrs s.1 s.2.size s.2.begin = some addrs ∧
        addrs.length = s.2.size ∧ (s.2.head = none ↔ s.2.tail = none) ∧
        (s.2.tail = none ↔ s.2.size = 0) ∧ s.2.tail = addrs.getLast? ∧
        ∀ t, s.2.tail = some t → ∃ nd, s.1 t = some nd ∧ nd.next = none := by
  obtain ⟨p, s, h1, _⟩ := push_back_spec 8 3 200 (by decide) (by decide) (by decide)
    ((fun _ => none), (custom_container.create 3 100 : custom_container Nat)) [] [] 10
    (seq_inv_create 8 3 100 (by decide) (by decide) _) (by decide) (by decide)
  exact ⟨s, h1, size_invariant 8 3 s (by decide) (by decide) (by decide)
    (seq_reach.push_back _ s 10 200 (seq_reach.init _ 100) (by decide) (by decide) h1)⟩

/-- C15: balanced pushes and pops empty the sequence.  Starting from an empty sequence,
`push_back` of the `k` values `vs` (with admissible storage from the environment, `k`
below `2 ^ 64`, and a byte count below `2 ^ 64` for a block of `max(1, BlockSize)` nodes)
returns, `k` calls of `pop_front` then return, and afterwards `size()` is 0, `empty()` is
true and `begin() == end()`. -/
theorem balanced_push_pop {T : Type} (sz G fresh : Nat) (env : Nat → Nat) (h : heap T)
    (vs : List T) (hsz : 0 < sz) (hG : G < SIZE_MOD)
    (hfit : max 1 G * sz < SIZE_MOD)
    (henv : env_ok sz G (custom_container.create G fresh : custom_container T).alloc.blocks
      env)
    (hlen : vs.length < SIZE_MOD) :
    ∃ s1 s2, push_all sz G env (h, custom_container.create G fresh) vs = some s1 ∧
      pop_n sz vs.length s1 = some s2 ∧ s2.2.size = 0 ∧ s2.2.empty = true ∧
      s2.2.begin = s2.2.end_ := by
  obtain ⟨s1, new, h1, h2, h3⟩ := push_all_spec sz G hsz hG hfit vs env
    (h, custom_container.create G fresh) [] [] (seq_inv_create sz G fresh hG hfit h) henv
    (by simpa using hlen)
  obtain ⟨s2, h4, h5⟩ := pop_n_spec sz hsz vs.length s1 _ _ h2 (by simp [h3])
  have e : ([] ++ new).drop vs.length = [] := by simp [h3]
  rw [e] at h5
  have hs : s2.2.container_size = 0 := h5.2.2.1
  refine ⟨s1, s2, h1, h4, hs, by simp [custom_container.empty, hs], ?_⟩
  exact (chain_head_none s2.1 [] s2.2.head _ h5.1).mpr rfl

/-- Witness for C15: three pushes and three pops with `BlockSize = 2`, the environment
handing out the addresses 200, 300, 400, ... -/
theorem balanced_push_pop_witness :
    ∃ s1 s2, push_all 8 2 (fun k => 200 + 100 * k)
        ((fun _ => none), custom_container.create 2 100) [10, 20, 30] = some s1 ∧
      pop_n 8 [10, 20, 30].length s1 = some s2 ∧ s2.2.size = 0 ∧ s2.2.empty = true ∧
      s2.2.begin = s2.2.end_ :=
  balanced_push_pop 8 2 100 (fun k => 200 + 100 * k) (fun _ => none) [10, 20, 30]
    (by decide) (by decide) (by decide)
    (by
      refine ⟨?_, ?_⟩
      · intro k b hb
        have e : b = memory_block.create 100 2 := by
          simpa [custom_container.create, custom_allocator.create,
            custom_allocator.expand_memory] using hb
        subst e
        simp only [memory_block.create]
        omega
      · intro j k hjk
        have : max 1 2 = 2 := by decide
        rw [this]
        dsimp only
        omega)
    (by decide)

/-- C16: `clear` empties any reachable sequence and terminates.  Let a block of
`max(1, BlockSize)` nodes have a byte count below `2 ^ 64`.  For a reachable state
with `size() = n` and every fuel of at least `n` rounds, the loop of `clear()` ends after
exactly `n` calls of `pop_front`, and afterwards `size()` is 0, `empty()` is true, `head`
and `tail` are `nullptr` and `begin() == end()`. -/
theorem clear_empties {T : Type} (sz G : Nat) (s : heap T × custom_container T)
    (hsz : 0 < sz) (hG : G < SIZE_MOD)
    (hfit : max 1 G * sz < SIZE_MOD) (hr : seq_reach sz G s) :
    ∀ fuel, s.2.size ≤ fuel →
      ∃ s', custom_container.clear sz fuel s = some (s', s.2.size) ∧ s'.2.size = 0 ∧
        s'.2.empty = true ∧ s'.2.head = none ∧ s'.2.tail = none ∧
        s'.2.begin = s'.2.end_ := by
  obtain ⟨addrs, xs, hinv⟩ := seq_reach_inv sz G hsz hG hfit s hr
  have hsize : s.2.size = addrs.length := hinv.2.2.1
  intro fuel hf
  obtain ⟨s', h1, h2, _⟩ := clear_spec sz hsz addrs xs s fuel hinv (by omega)
  have hs : s'.2.container_size = 0 := h2.2.2.1
  have hh : s'.2.head = none := (chain_head_none s'.1 [] s'.2.head _ h2.1).mpr rfl
  exact ⟨s', by rw [hsize]; exact h1, hs, by simp [custom_container.empty, hs], hh,
    h2.2.1, hh⟩

/-- Witness for C16: `clear` on the state after `push_back(10)`. -/
theorem clear_empties_witness :
    ∃ (s : heap Nat × custom_container Nat),
      custom_container.push_back 8 3 200
        ((fun _ => none), custom_container.create 3 100) (10 : Nat) = some s ∧
      ∀ fuel, s.2.size ≤ fuel →
        ∃ s', custom_container.clear 8 fuel s = some (s', s.2.size) ∧ s'.2.size = 0 ∧
          s'.2.empty = true ∧ s'.2.head = none ∧ s'.2.tail = none ∧
          s'.2.begin = s'.2.end_ := by
  obtain ⟨p, s, h1, _⟩ := push_back_spec 8 3 200 (by decide) (by decide) (by decide)
    ((fun _ => none), (custom_container.create 3 100 : custom_container Nat)) [] [] 10
    (seq_inv_create 8 3 100 (by decide) (by decide) _) (by decide) (by decide)
  exact ⟨s, h1, clear_empties 8 3 s (by decide) (by decide) (by decide)
    (seq_reach.push_back _ s 10 200 (seq_reach.init _ 100) (by decide) (by decide) h1)⟩

theorem live_slots_single (addrs : List Nat) :
    live_slots (addrs.map (fun a => (a, 1))) = addrs.length := by
  induction addrs with
  | nil => rfl
  | cons a as ih =>
    simp only [live_slots, List.map_cons, List.sum_cons, List.length_cons] at ih ⊢
    omega

/-- C20: the sequence never leaks or over-releases pool slots.  Let a block of
`max(1, BlockSize)` nodes have a byte count below `2 ^ 64`.  In every reachable state
the sum of the used-counts of the blocks of the sequence's allocator equals `size()`; and
`clear()` (with fuel for `size()` rounds) ends in a state where every block has used-count
0 and all its slots free. -/
theorem no_leak {T : Type} (sz G : Nat) (s : heap T × custom_container T)
    (hsz : 0 < sz) (hG : G < SIZE_MOD)
    (hfit : max 1 G * sz < SIZE_MOD) (hr : seq_reach sz G s) :
    total_used s.2.alloc = s.2.size ∧
    ∀ fuel, s.2.size ≤ fuel →
      ∃ s' k, custom_container.clear sz fuel s = some (s', k) ∧
        ∀ b ∈ s'.2.alloc.blocks, b.used = 0 ∧
          ∀ x, x < b.size → b.allocated_flags[x]? = some false := by
  obtain ⟨addrs, xs, hinv⟩ := seq_reach_inv sz G hsz hG hfit s hr
  have hsize : s.2.size = addrs.length := hinv.2.2.1
  constructor
  · have := hinv.2.2.2.2.2.2
    simp only at this
    rw [this, live_slots_single, hsize]
  · intro fuel hf
    obtain ⟨s', h1, h2, _⟩ := clear_spec sz hsz addrs xs s fuel hinv (by omega)
    refine ⟨s', _, h1, ?_⟩
    obtain ⟨⟨hI1, _⟩, hcov, _⟩ := h2.2.2.2.2
    intro b hb
    obtain ⟨_, hl, hu⟩ := hI1 b hb
    have hnt : ∀ x : Nat, b.allocated_flags[x]? ≠ some true := by
      intro x hx
      obtain ⟨l, hl', _⟩ := hcov b hb x hx
      simp at hl'
    constructor
    · rw [hu]
      apply List.count_eq_zero.mpr
      intro hm
      obtain ⟨x, hx⟩ := List.mem_iff_getElem?.mp hm
      exact hnt x hx
    · intro x hx
      have hxl : x < b.allocated_flags.length := by omega
      rw [List.getElem?_eq_getElem hxl]
      cases hv : b.allocated_flags[x] with
      | false => rfl
      | true =>
        have ht : b.allocated_flags[x]? = some true := by
          rw [List.getElem?_eq_getElem hxl, hv]
        exact absurd ht (hnt x)

/-- Witness for C20: the state after `push_back(10)` on an empty sequence. -/
theorem no_leak_witness :
    ∃ (s : heap Nat × custom_container Nat),
      custom_container.push_back 8 3 200
        ((fun _ => none), custom_container.create 3 100) (10 : Nat) = some s ∧
      total_used s.2.alloc = s.2.size ∧
      ∀ fuel, s.2.size ≤ fuel →
        ∃ s' k, custom_container.clear 8 fuel s = some (s', k) ∧
          ∀ b ∈ s'.2.alloc.blocks, b.used = 0 ∧
            ∀ x, x < b.size → b.allocated_flags[x]? = some false := by
  obtain ⟨p, s, h1, _⟩ := push_back_spec 8 3 200 (by decide) (by decide) (by decide)
    ((fun _ => none), (custom_container.create 3 100 : custom_container Nat)) [] [] 10
    (seq_inv_create 8 3 100 (by decide) (by decide) _) (by decide) (by decide)
  exact ⟨s, h1, no_leak 8 3 s (by decide) (by decide) (by decide)
    (seq_reach.push_back _ s 10 200 (seq_reach.init _ 100) (by decide) (by decide) h1)⟩

/-- C17: copy is deep and order-preserving.  Let a block of `max(1, BlockSize)` nodes
have a byte count below `2 ^ 64`, and let `src` be a well-formed sequence holding
`xs`.  Copy construction, and copy assignment to a well-formed sequence `dst` with storage
of its own, return when the environment hands out storage that overlaps no block of
either allocator and the loops have fuel for the element counts; afterwards the
destination yields exactly `xs` with `size() = length xs`, the source is unchanged and
still holds `xs`, and the two sequences have storage of their own.  For any two such
sequences, `push_back` or `pop_front` on one of them leaves the other's element list and
size unchanged, whichever of the two is operated on. -/
theorem copy_is_deep {T : Type} (sz G : Nat) (h : heap T) (src : custom_container T)
    (addrs : List Nat) (xs : List T) (hsz : 0 < sz) (hG : G < SIZE_MOD)
    (hfit : max 1 G * sz < SIZE_MOD)
    (hsrc : seq_inv sz (h, src) addrs xs) :
    (∀ fresh env fuel,
      blocks_apart sz [memory_block.create fresh G] src.alloc.blocks →
      env_ok sz G ([memory_block.create fresh G] ++ src.alloc.blocks) env →
      xs.length ≤ fuel →
      ∃ s' new, custom_container.copy_construct sz G fresh env fuel h src = some s' ∧
        custom_container.to_list s'.1 xs.length s'.2.begin = some xs ∧
        s'.2.size = xs.length ∧ two_seqs sz s'.1 s'.2 src new xs addrs xs) ∧
    (∀ dst addrs1 xs1 env fuel, seq_inv sz (h, dst) addrs1 xs1 →
      blocks_apart sz dst.alloc.blocks src.alloc.blocks →
      env_ok sz G (dst.alloc.blocks ++ src.alloc.blocks) env →
      xs1.length ≤ fuel → xs.length ≤ fuel →
      ∃ s' new, custom_container.assign sz G env fuel (h, dst) src false = some s' ∧
        custom_container.to_list s'.1 xs.length s'.2.begin = some xs ∧
        s'.2.size = xs.length ∧ two_seqs sz s'.1 s'.2 src new xs addrs xs) ∧
    (∀ (h1 : heap T) (c1 c2 : custom_container T) (a1 : List Nat) (x1 : List T)
      (a2 : List Nat) (x2 : List T), two_seqs sz h1 c1 c2 a1 x1 a2 x2 →
      two_seqs sz h1 c2 c1 a2 x2 a1 x1 ∧
      (∀ v fresh, admissible sz G c1.alloc 1 fresh →
        (∀ c ∈ c2.alloc.blocks,
          c.data + c.size * sz ≤ fresh ∨ fresh + max 1 G * sz ≤ c.data) →
        x1.length + 1 < SIZE_MOD →
        ∃ p s', custom_container.push_back sz G fresh (h1, c1) v = some s' ∧
          custom_container.to_list s'.1 x2.length c2.begin = some x2 ∧
          two_seqs sz s'.1 s'.2 c2 (a1 ++ [p]) (x1 ++ [v]) a2 x2) ∧
      (∃ s', custom_container.pop_front sz (h1, c1) = some s' ∧
        custom_container.to_list s'.1 x2.length c2.begin = some x2 ∧
        two_seqs sz s'.1 s'.2 c2 a1.tail x1.tail a2 x2)) := by
  have hl := chain_length h addrs src.head xs hsrc.1
  have hlt := hsrc.2.2.2.1
  refine ⟨?_, ?_, ?_⟩
  · intro fresh env fuel hap henv hfuel
    have hd : seq_inv sz (h, (custom_container.create G fresh : custom_container T)) [] [] :=
      seq_inv_create sz G fresh hG hfit h
    have eb : (custom_container.create G fresh : custom_container T).alloc.blocks
        = [memory_block.create fresh G] := by
      simp [custom_container.create, custom_allocator.create, custom_allocator.expand_memory]
    obtain ⟨s', new, h1, h2⟩ := copy_into_spec sz G hsz hG hfit h
      (custom_container.create G fresh) src addrs xs env fuel
      ⟨hd, hsrc, by rw [eb]; exact hap⟩ (by rw [eb]; exact henv) hlt (by omega)
    have h1' : custom_container.copy_construct sz G fresh env fuel h src = some s' := h1
    have hl2 := chain_length s'.1 new s'.2.head xs h2.1.1
    exact ⟨s', new, h1', chain_to_list s'.1 new s'.2.head xs h2.1.1 _ (le_refl _),
      by show s'.2.container_size = xs.length; rw [h2.1.2.2.1, hl2], h2⟩
  · intro dst addrs1 xs1 env fuel hd hap henv hf1 hf2
    have hl1 := chain_length h addrs1 dst.head xs1 hd.1
    obtain ⟨s', new, h1, h2⟩ := assign_spec sz G hsz hG hfit h dst src addrs1 xs1 addrs xs env fuel
      ⟨hd, hsrc, hap⟩ henv hlt (by omega) (by omega)
    have hl2 := chain_length s'.1 new s'.2.head xs h2.1.1
    exact ⟨s', new, h1, chain_to_list s'.1 new s'.2.head xs h2.1.1 _ (le_refl _),
      by show s'.2.container_size = xs.length; rw [h2.1.2.2.1, hl2], h2⟩
  · intro h1 c1 c2 a1 x1 a2 x2 hts
    have hl1 := chain_length h1 a1 c1.head x1 hts.1.1
    refine ⟨two_seqs_symm sz h1 c1 c2 a1 x1 a2 x2 hts, ?_, ?_⟩
    · intro v fresh hadm hnew hlen
      obtain ⟨p, s', e1, e2⟩ := two_seqs_push_back sz G fresh hsz hG hfit h1 c1 c2 a1 x1 a2 x2 v
        hts hadm hnew (by omega)
      exact ⟨p, s', e1, chain_to_list s'.1 a2 c2.head x2 e2.2.1.1 _ (le_refl _), e2⟩
    · obtain ⟨s', e1, e2⟩ := two_seqs_pop_front sz hsz h1 c1 c2 a1 x1 a2 x2 hts
      exact ⟨s', e1, chain_to_list s'.1 a2 c2.head x2 e2.2.1.1 _ (le_refl _), e2⟩

/-- Witness for C17: the sequence 1, 2, 3 is built by three calls of `push_back`, copy
constructed, and `pop_front` is called on the original: the copy still yields 1, 2, 3
with size 3, the original yields 2, 3.  The theorem is applied to the copy construction
of that sequence. -/
theorem copy_is_deep_witness :
    ((push_all 8 3 (fun k => 200 + 100 * k)
        ((fun _ => none), custom_container.create 3 100) [1, 2, 3]).bind
      (fun s1 =>
        (custom_container.copy_construct 8 3 300 (fun k => 400 + 100 * k) 3 s1.1 s1.2).bind
          (fun s2 => (custom_container.pop_front 8 (s2.1, s1.2)).map
            (fun s3 => (custom_container.to_list s3.1 3 s2.2.begin, s2.2.size,
              custom_container.to_list s3.1 3 s3.2.begin, s3.2.size))))
      = some (some [1, 2, 3], 3, some [2, 3], 2)) ∧
    ∃ (s1 : heap Nat × custom_container Nat) (new : List Nat),
      push_all 8 3 (fun k => 200 + 100 * k)
        ((fun _ => none), custom_container.create 3 100) [1, 2, 3] = some s1 ∧
      ∃ s' new', custom_container.copy_construct 8 3 300 (fun k => 400 + 100 * k) 3
          s1.1 s1.2 = some s' ∧
        custom_container.to_list s'.1 ([1, 2, 3] : List Nat).length s'.2.begin
          = some [1, 2, 3] ∧
        s'.2.size = ([1, 2, 3] : List Nat).length ∧
        two_seqs 8 s'.1 s'.2 s1.2 new' [1, 2, 3] new [1, 2, 3] := by
  refine ⟨by decide, ?_⟩
  have henv0 : env_ok 8 3
      (custom_container.create 3 100 : custom_container Nat).alloc.blocks
      (fun k => 200 + 100 * k) := by
    refine ⟨?_, ?_⟩
    · intro k b hb
      have e : b = memory_block.create 100 3 := by
        simpa [custom_container.create, custom_allocator.create,
          custom_allocator.expand_memory] using hb
      subst e
      simp only [memory_block.create]
      omega
    · intro j k hjk
      have : max 1 3 = 3 := by decide
      rw [this]
      dsimp only
      omega
  obtain ⟨s1, new, h1, h2, _⟩ := push_all_spec 8 3 (by decide) (by decide) (by decide) [1, 2, 3]
    (fun k => 200 + 100 * k)
    ((fun _ => none), (custom_container.create 3 100 : custom_container Nat)) [] []
    (seq_inv_create 8 3 100 (by decide) (by decide) _) henv0 (by decide)
  have ha : s1.2.alloc = ⟨[⟨100, 3, 3, [true, true, true]⟩]⟩ := by
    have hm : (push_all 8 3 (fun k => 200 + 100 * k)
        ((fun _ => none), (custom_container.create 3 100 : custom_container Nat))
        [1, 2, 3]).map (fun s => s.2.alloc)
        = some ⟨[⟨100, 3, 3, [true, true, true]⟩]⟩ := by decide
    rw [h1] at hm
    simpa using hm
  have hsrc : seq_inv 8 (s1.1, s1.2) new [1, 2, 3] := by simpa using h2
  have hap : blocks_apart 8 [memory_block.create 300 3] s1.2.alloc.blocks := by
    intro b hb c hc
    rw [ha] at hc
    have e1 : b = memory_block.create 300 3 := by simpa using hb
    have e2 : c = ⟨100, 3, 3, [true, true, true]⟩ := by simpa using hc
    subst e1; subst e2
    simp only [memory_block.create]
    omega
  have henv : env_ok 8 3 ([memory_block.create 300 3] ++ s1.2.alloc.blocks)
      (fun k => 400 + 100 * k) := by
    refine ⟨?_, ?_⟩
    · intro k b hb
      rw [ha] at hb
      have e : b = memory_block.create 300 3 ∨ b = ⟨100, 3, 3, [true, true, true]⟩ := by
        simpa using hb
      have : max 1 3 = 3 := by decide
      rcases e with e | e <;> subst e <;> simp only [memory_block.create] <;> omega
    · intro j k hjk
      have : max 1 3 = 3 := by decide
      rw [this]
      dsimp only
      omega
  exact ⟨s1, new, h1,
    (copy_is_deep 8 3 s1.1 s1.2 new [1, 2, 3] (by decide) (by decide) (by decide) hsrc).1 300
      (fun k => 400 + 100 * k) 3 hap henv (by decide)⟩
